import Mathlib

/-!
Verification development for the ZetaChess engine core.

The Python sources (attacks.py, zobrist.py, position.py, moves.py, eval.py,
search.py) are embedded shallowly: bitboards are unbounded naturals (Python
integers), squares are naturals 0..63, signed quantities (scores, clocks,
parsed en-passant squares) are integers, fallible operations return
`Except String`.  Mutating methods become functions from the position record
to a new record; the searcher's mutable fields are threaded through an
explicit state record, and its unbounded recursion is driven by an explicit
fuel argument.
-/

set_option maxHeartbeats 4000000
set_option maxRecDepth 200000

namespace ZetaChess

/-- Ascending list of the set-bit indices of a natural number.  This is
exactly the sequence the Python generator `_iter_bits` yields: that loop
repeatedly extracts the lowest set bit (`bb & -bb`, whose
`bit_length() - 1` is its index) and then clears it (`bb &= bb - 1`), so it
enumerates the set bits in increasing order; here the same list is produced
by recursion over the binary representation. -/
def bitIndicesCore (bb : ℕ) : List ℕ :=
  if h : bb = 0 then []
  else (if bb % 2 = 1 then [0] else []) ++ (bitIndicesCore (bb / 2)).map (fun i => i + 1)
termination_by bb
decreasing_by exact Nat.div_lt_self (Nat.pos_of_ne_zero h) Nat.one_lt_two

/-- The same recursion driven by a fuel that bounds the number of binary
digits, so that the kernel can evaluate it by structural recursion. -/
def bitIndicesAux : ℕ → ℕ → List ℕ
  | 0, _ => []
  | fuel + 1, bb =>
    if bb = 0 then []
    else (if bb % 2 = 1 then [0] else []) ++ (bitIndicesAux fuel (bb / 2)).map (fun i => i + 1)

/-- `bitIndicesCore`, through the fast evaluator on every value a 64-bit
bitboard can take (the two branches are proved equal below). -/
def bitIndices (bb : ℕ) : List ℕ :=
  if bb < 2 ^ 64 then bitIndicesAux 64 bb else bitIndicesCore bb

theorem bitIndicesAux_eq : ∀ (fuel bb : ℕ), bb < 2 ^ fuel →
    bitIndicesAux fuel bb = bitIndicesCore bb := by
  intro fuel
  induction fuel with
  | zero =>
    intro bb h
    have hb : bb = 0 := by omega
    subst hb
    rw [bitIndicesCore]
    rfl
  | succ f ih =>
    intro bb h
    rw [bitIndicesAux, bitIndicesCore]
    by_cases h0 : bb = 0
    · simp [h0]
    · rw [if_neg h0, dif_neg h0, ih (bb / 2) (by omega)]

theorem bitIndices_eq_core (bb : ℕ) : bitIndices bb = bitIndicesCore bb := by
  unfold bitIndices
  split
  · exact bitIndicesAux_eq 64 bb (by assumption)
  · rfl

theorem mem_bitIndices : ∀ bb i : ℕ, (i ∈ bitIndices bb ↔ bb.testBit i = true) := by
  intro bb
  rw [bitIndices_eq_core]
  induction bb using Nat.strong_induction_on with
  | _ bb ih =>
    intro i
    rw [bitIndicesCore]
    by_cases h : bb = 0
    · simp [h]
    · rw [dif_neg h]
      cases i with
      | zero =>
        simp [Nat.testBit_zero]
      | succ j =>
        have hd := Nat.div_lt_self (Nat.pos_of_ne_zero h) Nat.one_lt_two
        simp [Nat.testBit_add_one, ← ih (bb / 2) hd j]

theorem bitIndices_nodup : ∀ bb : ℕ, (bitIndices bb).Nodup := by
  intro bb
  rw [bitIndices_eq_core]
  induction bb using Nat.strong_induction_on with
  | _ bb ih =>
    rw [bitIndicesCore]
    by_cases h : bb = 0
    · simp [h]
    · rw [dif_neg h]
      have hd := Nat.div_lt_self (Nat.pos_of_ne_zero h) Nat.one_lt_two
      have hnd : ((bitIndicesCore (bb / 2)).map (fun i => i + 1)).Nodup :=
        (ih (bb / 2) hd).map (fun a b hab => by omega)
      by_cases hp : bb % 2 = 1
      · rw [if_pos hp, List.singleton_append, List.nodup_cons]
        refine ⟨by simp, hnd⟩
      · rw [if_neg hp]
        simpa using hnd

/-- Number of set bits; embeds the Python popcount loops
(`while bb: bb &= bb - 1; c += 1`). -/
def countBits (bb : ℕ) : ℕ := (bitIndices bb).length

/-- Index of the lowest set bit (Python `(bb & -bb).bit_length() - 1`);
0 for the unused empty case. -/
def lowBit (bb : ℕ) : ℕ := (bitIndices bb).headD 0

/-- Index of the highest set bit (Python `bb.bit_length() - 1`); 0 for the
unused empty case (Python would yield -1, which no invariant-satisfying
caller ever produces). -/
def topBit (bb : ℕ) : ℕ := (bitIndices bb).getLastD 0

theorem bitIndices_ne_nil {bb : ℕ} (h : bb ≠ 0) : bitIndices bb ≠ [] := by
  have ⟨i, hi⟩ := Nat.ne_zero_implies_bit_true h
  intro hnil
  have := (mem_bitIndices bb i).mpr hi
  rw [hnil] at this
  exact absurd this (List.not_mem_nil i)

theorem testBit_topBit {bb : ℕ} (h : bb ≠ 0) : bb.testBit (topBit bb) = true := by
  have hne := bitIndices_ne_nil h
  have : topBit bb ∈ bitIndices bb := by
    unfold topBit
    rw [List.getLastD_eq_getLast? , List.getLast?_eq_getLast _ hne]
    simp [List.getLast_mem]
  exact (mem_bitIndices bb _).mp this

theorem testBit_lowBit {bb : ℕ} (h : bb ≠ 0) : bb.testBit (lowBit bb) = true := by
  have hne := bitIndices_ne_nil h
  have : lowBit bb ∈ bitIndices bb := by
    unfold lowBit
    cases hcase : bitIndices bb with
    | nil => exact absurd hcase hne
    | cons a l => simp
  exact (mem_bitIndices bb _).mp this

/-- `1 << sq` on Python integers. -/
def bit1 (sq : ℕ) : ℕ := 1 <<< sq

theorem testBit_bit1 (s t : ℕ) : (bit1 s).testBit t = decide (s = t) := by
  unfold bit1
  rw [Nat.shiftLeft_eq, one_mul, Nat.testBit_two_pow]

/-- Python `x & ~y` on nonnegative ints: clear the bits of `y` from `x`.
This equals `Nat.ldiff x y`, written with kernel-accelerated operations. -/
def andNot (x y : ℕ) : ℕ := x ^^^ (x &&& y)

theorem testBit_andNot (x y t : ℕ) :
    (andNot x y).testBit t = (x.testBit t && !(y.testBit t)) := by
  unfold andNot
  rw [Nat.testBit_xor, Nat.testBit_and]
  cases x.testBit t <;> cases y.testBit t <;> rfl

/-- `bb & ~(1 << sq)` on Python integers: clear one bit. -/
def clearBit (bb sq : ℕ) : ℕ := andNot bb (bit1 sq)

/-- `bb | (1 << sq)`: set one bit. -/
def setBit (bb sq : ℕ) : ℕ := bb ||| bit1 sq

theorem testBit_clearBit (bb s t : ℕ) :
    (clearBit bb s).testBit t = (bb.testBit t && !(decide (s = t))) := by
  unfold clearBit
  rw [testBit_andNot, testBit_bit1]

theorem testBit_setBit (bb s t : ℕ) :
    (setBit bb s).testBit t = (bb.testBit t || decide (s = t)) := by
  unfold setBit
  rw [Nat.testBit_or, testBit_bit1]

theorem clearBit_setBit_self {bb s : ℕ} (h : bb.testBit s = true) :
    setBit (clearBit bb s) s = bb := by
  refine Nat.eq_of_testBit_eq fun i => ?_
  rw [testBit_setBit, testBit_clearBit]
  by_cases hi : s = i
  · subst hi; simp [h]
  · simp [hi]

theorem setBit_clearBit_self {bb s : ℕ} (h : bb.testBit s = false) :
    clearBit (setBit bb s) s = bb := by
  refine Nat.eq_of_testBit_eq fun i => ?_
  rw [testBit_clearBit, testBit_setBit]
  by_cases hi : s = i
  · subst hi; simp [h]
  · simp [hi]

/-! ## attacks.py -/

def WHITE : ℕ := 0

def BLACK : ℕ := 1

def KNIGHT_DELTAS : List (ℤ × ℤ) :=
  [(-2, -1), (-2, 1), (-1, -2), (-1, 2), (1, -2), (1, 2), (2, -1), (2, 1)]

def KING_DELTAS : List (ℤ × ℤ) :=
  [(-1, -1), (-1, 0), (-1, 1), (0, -1), (0, 1), (1, -1), (1, 0), (1, 1)]

/-- attacks.py `_in_board`. -/
def _in_board (file_idx rank_idx : ℤ) : Prop :=
  0 ≤ file_idx ∧ file_idx < 8 ∧ 0 ≤ rank_idx ∧ rank_idx < 8

instance (f r : ℤ) : Decidable (_in_board f r) := by unfold _in_board; infer_instance

/-- The per-square mask-building loop of attacks.py: starting from 0, OR in a
bit for every delta that stays on the board. -/
def maskFromDeltas (sq : ℕ) (ds : List (ℤ × ℤ)) : ℕ :=
  ds.foldl (fun m d =>
    let nf : ℤ := (sq % 8 : ℕ) + d.1
    let nr : ℤ := (sq / 8 : ℕ) + d.2
    if _in_board nf nr then m ||| bit1 (nr * 8 + nf).toNat else m) 0

/-- attacks.py precomputed `KNIGHT_ATTACKS` table, as a function of the
square index. -/
def KNIGHT_ATTACKS (sq : ℕ) : ℕ := maskFromDeltas sq KNIGHT_DELTAS

/-- attacks.py precomputed `KING_ATTACKS` table. -/
def KING_ATTACKS (sq : ℕ) : ℕ := maskFromDeltas sq KING_DELTAS

/-- attacks.py precomputed `PAWN_ATTACKS[side][sq]` table: the squares a pawn
of `side` standing on `sq` attacks. -/
def PAWN_ATTACKS (side sq : ℕ) : ℕ :=
  let f := sq % 8
  let r := sq / 8
  if side = WHITE then
    (if r + 1 < 8 ∧ 1 ≤ f then bit1 ((r + 1) * 8 + (f - 1)) else 0) |||
    (if r + 1 < 8 ∧ f + 1 < 8 then bit1 ((r + 1) * 8 + (f + 1)) else 0)
  else
    (if 1 ≤ r ∧ 1 ≤ f then bit1 ((r - 1) * 8 + (f - 1)) else 0) |||
    (if 1 ≤ r ∧ f + 1 < 8 then bit1 ((r - 1) * 8 + (f + 1)) else 0)

/-- One ray loop of `rook_attacks`/`bishop_attacks`: walk the listed squares
in order, include each, and stop after the first one occupied in `occ`. -/
def scanRay (occ : ℕ) : List ℕ → ℕ
  | [] => 0
  | s :: rest => bit1 s ||| (if occ.testBit s then 0 else scanRay occ rest)

/-- Squares east of `sq` in scan order (`for nf in range(f+1, 8)`). -/
def eastRay (sq : ℕ) : List ℕ := (List.range (7 - sq % 8)).map (fun i => sq + (i + 1))

/-- Squares west of `sq` in scan order (`for nf in range(f-1, -1, -1)`). -/
def westRay (sq : ℕ) : List ℕ := (List.range (sq % 8)).map (fun i => sq - (i + 1))

/-- Squares north of `sq` in scan order (`for nr in range(r+1, 8)`). -/
def northRay (sq : ℕ) : List ℕ := (List.range (7 - sq / 8)).map (fun i => sq + 8 * (i + 1))

/-- Squares south of `sq` in scan order (`for nr in range(r-1, -1, -1)`). -/
def southRay (sq : ℕ) : List ℕ := (List.range (sq / 8)).map (fun i => sq - 8 * (i + 1))

/-- North-east diagonal squares in scan order (`nf, nr = f+1, r+1; ...`). -/
def neRay (sq : ℕ) : List ℕ :=
  (List.range (min (7 - sq % 8) (7 - sq / 8))).map (fun i => sq + 9 * (i + 1))

/-- North-west diagonal squares in scan order. -/
def nwRay (sq : ℕ) : List ℕ :=
  (List.range (min (sq % 8) (7 - sq / 8))).map (fun i => sq + 7 * (i + 1))

/-- South-east diagonal squares in scan order. -/
def seRay (sq : ℕ) : List ℕ :=
  (List.range (min (7 - sq % 8) (sq / 8))).map (fun i => sq - 7 * (i + 1))

/-- South-west diagonal squares in scan order. -/
def swRay (sq : ℕ) : List ℕ :=
  (List.range (min (sq % 8) (sq / 8))).map (fun i => sq - 9 * (i + 1))

/-- attacks.py `rook_attacks(sq, occ)`: the four orthogonal ray scans, each
stopping at (and including) the first blocker. -/
def rook_attacks (sq occ : ℕ) : ℕ :=
  scanRay occ (eastRay sq) ||| scanRay occ (westRay sq) |||
  scanRay occ (northRay sq) ||| scanRay occ (southRay sq)

/-- attacks.py `bishop_attacks(sq, occ)`: the four diagonal ray scans. -/
def bishop_attacks (sq occ : ℕ) : ℕ :=
  scanRay occ (neRay sq) ||| scanRay occ (nwRay sq) |||
  scanRay occ (seRay sq) ||| scanRay occ (swRay sq)

/-- attacks.py `queen_attacks(sq, occ)`. -/
def queen_attacks (sq occ : ℕ) : ℕ := rook_attacks sq occ ||| bishop_attacks sq occ

/-! ## Data model (position.py, moves.py) -/

/-- position.py `PIECE_TO_INDEX` (None for a character that is not a piece
letter, where the Python dict lookup would fail). -/
def PIECE_TO_INDEX (c : Char) : Option ℕ :=
  if c = 'P' then some 0 else if c = 'N' then some 1 else if c = 'B' then some 2
  else if c = 'R' then some 3 else if c = 'Q' then some 4 else if c = 'K' then some 5
  else if c = 'p' then some 6 else if c = 'n' then some 7 else if c = 'b' then some 8
  else if c = 'r' then some 9 else if c = 'q' then some 10 else if c = 'k' then some 11
  else none

/-- position.py `INDEX_TO_PIECE_CHAR`. -/
def INDEX_TO_PIECE_CHAR (p : ℕ) : Char :=
  if p = 0 then 'P' else if p = 1 then 'N' else if p = 2 then 'B'
  else if p = 3 then 'R' else if p = 4 then 'Q' else if p = 5 then 'K'
  else if p = 6 then 'p' else if p = 7 then 'n' else if p = 8 then 'b'
  else if p = 9 then 'r' else if p = 10 then 'q' else 'k'

def CR_WK : ℕ := 1

def CR_WQ : ℕ := 2

def CR_BK : ℕ := 4

def CR_BQ : ℕ := 8

/-- moves.py `Move` (frozen dataclass; two moves are equal iff all fields
are). -/
structure Move where
  from_sq : ℕ
  to_sq : ℕ
  piece : ℕ
  capture_piece : Option ℕ := none
  promotion : Option ℕ := none
  is_en_passant : Bool := false
  is_castling : Bool := false
  is_double_push : Bool := false
deriving DecidableEq, Repr

/-- position.py `UndoEntry`. -/
structure UndoEntry where
  move : Move
  prev_ep_square : Option ℤ
  prev_castling_rights : ℕ
  prev_halfmove_clock : ℤ
  prev_fullmove_number : ℤ
  prev_zobrist : ℕ
  prev_mg : ℤ
  prev_eg : ℤ
  prev_phase : ℤ
  prev_side_to_move : ℕ
deriving DecidableEq, Repr

/-- position.py `Position`.  The parsed en-passant square and the clocks are
Python integers, hence `ℤ` (an invalid FEN can make them negative).  The
process-wide Zobrist key table (`zobrist_table`) is passed to the operations
explicitly instead of being stored, since it is constant and shared. -/
structure Position where
  bitboards : List ℕ
  white_occupancy : ℕ
  black_occupancy : ℕ
  all_occupancy : ℕ
  side_to_move : ℕ
  castling_rights : ℕ
  ep_square : Option ℤ
  halfmove_clock : ℤ
  fullmove_number : ℤ
  zobrist : ℕ
  mg : ℤ
  eg : ℤ
  phase : ℤ
  move_stack : List UndoEntry
deriving DecidableEq, Repr

/-- The freshly initialised `Position()` of position.py. -/
def Position.init : Position where
  bitboards := [0, 0, 0, 0, 0, 0, 0, 0, 0, 0, 0, 0]
  white_occupancy := 0
  black_occupancy := 0
  all_occupancy := 0
  side_to_move := WHITE
  castling_rights := 0
  ep_square := none
  halfmove_clock := 0
  fullmove_number := 1
  zobrist := 0
  mg := 0
  eg := 0
  phase := 0
  move_stack := []

/-- Read `self.bitboards[p]`. -/
def Position.bb (pos : Position) (p : ℕ) : ℕ := pos.bitboards.getD p 0

/-- position.py `piece_at`: index of the first piece mask containing the
square, if any. -/
def Position.piece_at (pos : Position) (sq : ℕ) : Option ℕ :=
  (List.range 12).find? (fun p => (pos.bb p).testBit sq)

/-- position.py `clone`: copy everything except the undo stack (the Zobrist
table is shared by reference and is a parameter here anyway). -/
def Position.clone (pos : Position) : Position :=
  { pos with move_stack := [] }

/-- zobrist.py `Zobrist`: the table of 64-bit keys.  The Python constructor
fills it from a seeded Mersenne-Twister stream; every theorem below holds
for an arbitrary table, so the keys are left abstract. -/
structure Zobrist where
  piece_square : ℕ → ℕ → ℕ
  side : ℕ
  castling_keys : ℕ → ℕ
  ep_file_keys : ℕ → ℕ

/-- zobrist.py `Zobrist.compute`: XOR of every present piece-square key, the
side key iff black to move, each castling key whose bit is set, and the
en-passant file key if an en-passant square exists. -/
def Zobrist.compute (T : Zobrist) (pos : Position) : ℕ :=
  let h := (List.range 12).foldl
    (fun h p => (bitIndices (pos.bb p)).foldl (fun h2 sq => h2 ^^^ T.piece_square p sq) h) 0
  let h := if pos.side_to_move = 1 then h ^^^ T.side else h
  let cr := pos.castling_rights
  let h := if cr &&& 1 ≠ 0 then h ^^^ T.castling_keys 0 else h
  let h := if cr &&& 2 ≠ 0 then h ^^^ T.castling_keys 1 else h
  let h := if cr &&& 4 ≠ 0 then h ^^^ T.castling_keys 2 else h
  let h := if cr &&& 8 ≠ 0 then h ^^^ T.castling_keys 3 else h
  match pos.ep_square with
  | none => h
  | some e => h ^^^ T.ep_file_keys (e % 8).toNat

/-! ## moves.py -/

/-- moves.py `is_square_attacked_by(side, sq, pos)`. -/
def is_square_attacked_by (side sq : ℕ) (pos : Position) : Bool :=
  let occ := pos.all_occupancy
  let r := sq / 8
  let f := sq % 8
  if side = WHITE ∧ 0 < r ∧ 0 < f ∧ (pos.bb 0).testBit (sq - 9) = true then true
  else if side = WHITE ∧ 0 < r ∧ f < 7 ∧ (pos.bb 0).testBit (sq - 7) = true then true
  else if ¬ side = WHITE ∧ r < 7 ∧ 0 < f ∧ (pos.bb 6).testBit (sq + 7) = true then true
  else if ¬ side = WHITE ∧ r < 7 ∧ f < 7 ∧ (pos.bb 6).testBit (sq + 9) = true then true
  else if KNIGHT_ATTACKS sq &&& (if side = WHITE then pos.bb 1 else pos.bb 7) ≠ 0 then true
  else if KING_ATTACKS sq &&& (if side = WHITE then pos.bb 5 else pos.bb 11) ≠ 0 then true
  else if bishop_attacks sq occ &&&
      (if side = WHITE then pos.bb 2 ||| pos.bb 4 else pos.bb 8 ||| pos.bb 10) ≠ 0 then true
  else if rook_attacks sq occ &&&
      (if side = WHITE then pos.bb 3 ||| pos.bb 4 else pos.bb 9 ||| pos.bb 10) ≠ 0 then true
  else false

/-- moves.py `_own_occ`. -/
def _own_occ (pos : Position) : ℕ :=
  if pos.side_to_move = WHITE then pos.white_occupancy else pos.black_occupancy

/-- moves.py `_opp_occ`. -/
def _opp_occ (pos : Position) : ℕ :=
  if pos.side_to_move = WHITE then pos.black_occupancy else pos.white_occupancy

/-- moves.py `PROMOTION_MAP`. -/
def PROMOTION_MAP (side : ℕ) : List ℕ :=
  if side = WHITE then [4, 3, 2, 1] else [10, 9, 8, 7]

/-- The white-pawn body of the pawn loop in `generate_pseudo_legal_moves`,
for one pawn on `sq` (pushes, double push, the two capture files, en
passant, with promotion expansion), in the source's append order. -/
def pawnMovesW (pos : Position) (sq : ℕ) : List Move :=
  let occ := pos.all_occupancy
  let opp := _opp_occ pos
  let r := sq / 8
  let pushes : List Move :=
    if sq + 8 < 64 ∧ ¬ occ.testBit (sq + 8) = true then
      if r = 6 then
        (PROMOTION_MAP WHITE).map (fun promo =>
          { from_sq := sq, to_sq := sq + 8, piece := 0, promotion := some promo })
      else
        { from_sq := sq, to_sq := sq + 8, piece := 0 } ::
          (if r = 1 ∧ ¬ occ.testBit (sq + 16) = true then
            [{ from_sq := sq, to_sq := sq + 16, piece := 0, is_double_push := true }]
          else [])
    else []
  let caps : List Move :=
    ([sq + 7, sq + 9] : List ℕ).foldl (fun acc (dest : ℕ) =>
      if dest < 64 ∧ ((dest % 8 : ℤ) - (sq % 8 : ℤ)).natAbs = 1 ∧ opp.testBit dest = true then
        let cap := pos.piece_at dest
        acc ++ (if r = 6 then
          (PROMOTION_MAP WHITE).map (fun promo =>
            { from_sq := sq, to_sq := dest, piece := 0, capture_piece := cap,
              promotion := some promo })
        else
          [{ from_sq := sq, to_sq := dest, piece := 0, capture_piece := cap }])
      else acc) []
  let eps : List Move :=
    match pos.ep_square with
    | none => []
    | some e =>
      if (e = (sq : ℤ) + 7 ∨ e = (sq : ℤ) + 9) ∧ ((e % 8) - (sq % 8 : ℤ)).natAbs = 1 then
        [{ from_sq := sq, to_sq := e.toNat, piece := 0, capture_piece := some 6,
           is_en_passant := true }]
      else []
  pushes ++ caps ++ eps

/-- The black-pawn body of the pawn loop of `generate_pseudo_legal_moves`.
The capture destinations `sq - 7`, `sq - 9` are Python integers that may be
negative (and are then rejected by the `0 <= dest` test), so they are
computed in `ℤ`. -/
def pawnMovesB (pos : Position) (sq : ℕ) : List Move :=
  let occ := pos.all_occupancy
  let opp := _opp_occ pos
  let r := sq / 8
  let pushes : List Move :=
    if 8 ≤ sq ∧ ¬ occ.testBit (sq - 8) = true then
      if r = 1 then
        (PROMOTION_MAP BLACK).map (fun promo =>
          { from_sq := sq, to_sq := sq - 8, piece := 6, promotion := some promo })
      else
        { from_sq := sq, to_sq := sq - 8, piece := 6 } ::
          (if r = 6 ∧ 16 ≤ sq ∧ ¬ occ.testBit (sq - 16) = true then
            [{ from_sq := sq, to_sq := sq - 16, piece := 6, is_double_push := true }]
          else [])
    else []
  let caps : List Move :=
    [(sq : ℤ) - 7, (sq : ℤ) - 9].foldl (fun acc dest =>
      if 0 ≤ dest ∧ dest < 64 ∧ ((dest % 8) - (sq % 8 : ℤ)).natAbs = 1 ∧
          opp.testBit dest.toNat = true then
        let cap := pos.piece_at dest.toNat
        acc ++ (if r = 1 then
          (PROMOTION_MAP BLACK).map (fun promo =>
            { from_sq := sq, to_sq := dest.toNat, piece := 6, capture_piece := cap,
              promotion := some promo })
        else
          [{ from_sq := sq, to_sq := dest.toNat, piece := 6, capture_piece := cap }])
      else acc) []
  let eps : List Move :=
    match pos.ep_square with
    | none => []
    | some e =>
      if (e = (sq : ℤ) - 7 ∨ e = (sq : ℤ) - 9) ∧ ((e % 8) - (sq % 8 : ℤ)).natAbs = 1 then
        [{ from_sq := sq, to_sq := e.toNat, piece := 6, capture_piece := some 0,
           is_en_passant := true }]
      else []
  pushes ++ caps ++ eps

/-- One leaper/slider destination list turned into moves (the common pattern
`for dest in _iter_bits(dests): cap = ...; moves.append(...)`). -/
def movesFromMask (pos : Position) (piece sq mask : ℕ) : List Move :=
  let opp := _opp_occ pos
  (bitIndices mask).map (fun dest =>
    { from_sq := sq, to_sq := dest, piece := piece,
      capture_piece := if opp.testBit dest then pos.piece_at dest else none })

/-- moves.py `_generate_castling`. -/
def _generate_castling (pos : Position) : List Move :=
  let side := pos.side_to_move
  let occ := pos.all_occupancy
  if side = WHITE then
    (if pos.castling_rights &&& CR_WK ≠ 0 ∧
        ¬ occ.testBit 5 = true ∧ ¬ occ.testBit 6 = true ∧
        (pos.bb 3).testBit 7 = true ∧
        ¬ is_square_attacked_by BLACK 4 pos = true ∧
        ¬ is_square_attacked_by BLACK 5 pos = true ∧
        ¬ is_square_attacked_by BLACK 6 pos = true then
      [{ from_sq := 4, to_sq := 6, piece := 5, is_castling := true }]
    else []) ++
    (if pos.castling_rights &&& CR_WQ ≠ 0 ∧
        ¬ occ.testBit 3 = true ∧ ¬ occ.testBit 2 = true ∧ ¬ occ.testBit 1 = true ∧
        (pos.bb 3).testBit 0 = true ∧
        ¬ is_square_attacked_by BLACK 4 pos = true ∧
        ¬ is_square_attacked_by BLACK 3 pos = true ∧
        ¬ is_square_attacked_by BLACK 2 pos = true then
      [{ from_sq := 4, to_sq := 2, piece := 5, is_castling := true }]
    else [])
  else
    (if pos.castling_rights &&& CR_BK ≠ 0 ∧
        ¬ occ.testBit 61 = true ∧ ¬ occ.testBit 62 = true ∧
        (pos.bb 9).testBit 63 = true ∧
        ¬ is_square_attacked_by WHITE 60 pos = true ∧
        ¬ is_square_attacked_by WHITE 61 pos = true ∧
        ¬ is_square_attacked_by WHITE 62 pos = true then
      [{ from_sq := 60, to_sq := 62, piece := 11, is_castling := true }]
    else []) ++
    (if pos.castling_rights &&& CR_BQ ≠ 0 ∧
        ¬ occ.testBit 59 = true ∧ ¬ occ.testBit 58 = true ∧ ¬ occ.testBit 57 = true ∧
        (pos.bb 9).testBit 56 = true ∧
        ¬ is_square_attacked_by WHITE 60 pos = true ∧
        ¬ is_square_attacked_by WHITE 59 pos = true ∧
        ¬ is_square_attacked_by WHITE 58 pos = true then
      [{ from_sq := 60, to_sq := 58, piece := 11, is_castling := true }]
    else [])

/-- moves.py `generate_pseudo_legal_moves`, section by section in source
order: pawns, knights, bishops, rooks, queens, king, castling. -/
def generate_pseudo_legal_moves (pos : Position) : List Move :=
  let side := pos.side_to_move
  let own := _own_occ pos
  let occ := pos.all_occupancy
  let pawns : List Move :=
    if side = WHITE then
      (bitIndices (pos.bb 0)).foldl (fun acc sq => acc ++ pawnMovesW pos sq) []
    else
      (bitIndices (pos.bb 6)).foldl (fun acc sq => acc ++ pawnMovesB pos sq) []
  let knights : List Move :=
    (bitIndices (pos.bb (if side = WHITE then 1 else 7))).foldl (fun acc sq =>
      acc ++ movesFromMask pos (if side = WHITE then 1 else 7) sq
        (andNot (KNIGHT_ATTACKS sq) own)) []
  let bishops : List Move :=
    (bitIndices (pos.bb (if side = WHITE then 2 else 8))).foldl (fun acc sq =>
      acc ++ movesFromMask pos (if side = WHITE then 2 else 8) sq
        (andNot (bishop_attacks sq occ) own)) []
  let rooks : List Move :=
    (bitIndices (pos.bb (if side = WHITE then 3 else 9))).foldl (fun acc sq =>
      acc ++ movesFromMask pos (if side = WHITE then 3 else 9) sq
        (andNot (rook_attacks sq occ) own)) []
  let queens : List Move :=
    (bitIndices (pos.bb (if side = WHITE then 4 else 10))).foldl (fun acc sq =>
      acc ++ movesFromMask pos (if side = WHITE then 4 else 10) sq
        (andNot (queen_attacks sq occ) own)) []
  let king : List Move :=
    movesFromMask pos (if side = WHITE then 5 else 11)
      (topBit (pos.bb (if side = WHITE then 5 else 11)))
      (andNot (KING_ATTACKS (topBit (pos.bb (if side = WHITE then 5 else 11)))) own)
  pawns ++ knights ++ bishops ++ rooks ++ queens ++ king ++ _generate_castling pos

/-! ## eval.py -/

/-- eval.py `PIECE_VALUES` (centipawns by base type P,N,B,R,Q,K). -/
def PIECE_VALUES : List ℤ := [100, 320, 330, 500, 900, 0]

/-- eval.py `PHASE_WEIGHTS.get(base, 0)`. -/
def PHASE_WEIGHTS (base : ℕ) : ℤ :=
  if base = 1 then 1 else if base = 2 then 1 else if base = 3 then 2
  else if base = 4 then 4 else 0

def MAX_PHASE : ℤ := 24

/-- eval.py `mirror_sq` (mirror across ranks, a1 <-> a8). -/
def mirror_sq (sq : ℕ) : ℕ := sq ^^^ 56

/-- eval.py `_center_dist`. -/
def _center_dist (f r : ℕ) : ℤ :=
  min ((f : ℤ) - 3).natAbs ((f : ℤ) - 4).natAbs + min ((r : ℤ) - 3).natAbs ((r : ℤ) - 4).natAbs

/-- eval.py `_pst_white`.  The rook case's `int(abs(f - 3.5) * 2)` is exact
float arithmetic equal to `|2f - 7|`. -/
def _pst_white (piece_base sq : ℕ) (endgame : Bool) : ℤ :=
  let f := sq % 8
  let r := sq / 8
  let cd := _center_dist f r
  if piece_base = 0 then
    (if ¬ endgame then 6 else 4) * (r : ℤ) - (if ¬ endgame then 8 else 6)
  else if piece_base = 1 then
    (if endgame then 16 else 12) - 4 * cd
  else if piece_base = 2 then
    (if endgame then 14 else 10) - 3 * cd
  else if piece_base = 3 then
    (if endgame then 8 else 6) - ((2 * (f : ℤ) - 7).natAbs : ℤ)
  else if piece_base = 4 then
    (if endgame then 8 else 6) - 2 * cd
  else if piece_base = 5 then
    (if endgame then 18 - 3 * cd else -(18 - 3 * cd))
  else 0

/-- eval.py `pst`: white pieces directly, black pieces on the mirrored
square. -/
def pst (piece_index sq : ℕ) (endgame : Bool) : ℤ :=
  if piece_index ≤ 5 then _pst_white (piece_index % 6) sq endgame
  else _pst_white (piece_index % 6) (mirror_sq sq) endgame

/-- eval.py `_material_score`. -/
def _material_score (pos : Position) : ℤ :=
  (List.range 12).foldl (fun score p =>
    let val := PIECE_VALUES.getD (p % 6) 0
    let count : ℤ := countBits (pos.bb p)
    if p ≤ 5 then score + val * count else score - val * count) 0

/-- eval.py `_pst_score`. -/
def _pst_score (pos : Position) (endgame : Bool) : ℤ :=
  (List.range 12).foldl (fun s p =>
    (bitIndices (pos.bb p)).foldl (fun s2 sq =>
      if p ≤ 5 then s2 + pst p sq endgame else s2 - pst p sq endgame) s) 0

/-- eval.py `_mobility_score`, exactly as written: note that the source
swaps `own, opp = opp, own` when black is to move and then uses `own` for
the *white* piece loops (and never uses `opp`), while the black loops use a
separate `own_b` that is always the black occupancy. -/
def _mobility_score (pos : Position) : ℤ :=
  let own0 := pos.white_occupancy
  let own := if pos.side_to_move = BLACK then pos.black_occupancy else own0
  let occ := pos.all_occupancy
  let score_w : ℤ :=
    ((bitIndices (pos.bb 1)).foldl (fun c sq =>
      c + (countBits (andNot (KNIGHT_ATTACKS sq) own) : ℤ)) 0) +
    ((bitIndices (pos.bb 2)).foldl (fun c sq =>
      c + (countBits (andNot (bishop_attacks sq occ) own) : ℤ)) 0) +
    ((bitIndices (pos.bb 3)).foldl (fun c sq =>
      c + (countBits (andNot (rook_attacks sq occ) own) : ℤ)) 0) +
    ((bitIndices (pos.bb 4)).foldl (fun c sq =>
      c + (countBits (andNot (queen_attacks sq occ) own) : ℤ)) 0)
  let own_b := pos.black_occupancy
  let score_b : ℤ :=
    ((bitIndices (pos.bb 7)).foldl (fun c sq =>
      c + (countBits (andNot (KNIGHT_ATTACKS sq) own_b) : ℤ)) 0) +
    ((bitIndices (pos.bb 8)).foldl (fun c sq =>
      c + (countBits (andNot (bishop_attacks sq occ) own_b) : ℤ)) 0) +
    ((bitIndices (pos.bb 9)).foldl (fun c sq =>
      c + (countBits (andNot (rook_attacks sq occ) own_b) : ℤ)) 0) +
    ((bitIndices (pos.bb 10)).foldl (fun c sq =>
      c + (countBits (andNot (queen_attacks sq occ) own_b) : ℤ)) 0)
  2 * (score_w - score_b)

/-- eval.py `_king_safety_mg`. -/
def _king_safety_mg (pos : Position) : ℤ :=
  let w_king_sq := topBit (pos.bb 5)
  let b_king_sq := topBit (pos.bb 11)
  let w_pen : ℤ := (bitIndices (KING_ATTACKS w_king_sq)).foldl (fun c sq =>
    if is_square_attacked_by BLACK sq pos = true then c + 1 else c) 0
  let b_pen : ℤ := (bitIndices (KING_ATTACKS b_king_sq)).foldl (fun c sq =>
    if is_square_attacked_by WHITE sq pos = true then c + 1 else c) 0;
  -8 * (w_pen - b_pen)

/-- eval.py `game_phase_value`. -/
def game_phase_value (pos : Position) : ℤ :=
  let phase := (List.range 12).foldl (fun ph p =>
    ph + PHASE_WEIGHTS (p % 6) * (countBits (pos.bb p) : ℤ)) 0
  if phase > MAX_PHASE then MAX_PHASE else phase

/-- eval.py `evaluate`: blended tapered score from the side-to-move's
perspective.  Python `//` is floor division, hence `Int.fdiv`. -/
def evaluate (pos : Position) : ℤ :=
  let mat := _material_score pos
  let pst_mg := _pst_score pos false
  let pst_eg := _pst_score pos true
  let mob := _mobility_score pos
  let safety := _king_safety_mg pos
  let phase := game_phase_value pos
  let mg := mat + pst_mg + mob + safety
  let eg := mat + pst_eg + Int.fdiv mob 2
  let score := Int.fdiv (mg * phase + eg * (MAX_PHASE - phase)) MAX_PHASE
  if pos.side_to_move = WHITE then score else -score

/-- eval.py `eval_components`: the from-scratch `(mg, eg, phase)` triple. -/
def eval_components (pos : Position) : ℤ × ℤ × ℤ :=
  let mat := _material_score pos
  let pst_mg := _pst_score pos false
  let pst_eg := _pst_score pos true
  let mob := _mobility_score pos
  let safety := _king_safety_mg pos
  let phase := game_phase_value pos
  (mat + pst_mg + mob + safety, mat + pst_eg + Int.fdiv mob 2, phase)

/-- eval.py `apply_move_eval_delta`: incremental material/PST/phase update
applied by `make_move` (mobility and king safety are not tracked). -/
def apply_move_eval_delta (pos : Position) (mv : Move) (mg eg phase : ℤ) : ℤ × ℤ × ℤ :=
  let side := pos.side_to_move
  let add_piece := fun (piece_index sq : ℕ) (end_ : Bool) =>
    let v := PIECE_VALUES.getD (piece_index % 6) 0
    let ps := pst piece_index sq end_
    if piece_index ≤ 5 then (v + ps, v + pst piece_index sq true)
    else (-v - ps, -v - pst piece_index sq true)
  let remove_piece := fun (piece_index sq : ℕ) =>
    let v := PIECE_VALUES.getD (piece_index % 6) 0
    let ps_mg := pst piece_index sq false
    let ps_eg := pst piece_index sq true
    if piece_index ≤ 5 then (-(v + ps_mg), -(v + ps_eg))
    else (v + ps_mg, v + ps_eg)
  let mr := remove_piece mv.piece mv.from_sq
  let dst_piece := mv.promotion.getD mv.piece
  let ma := add_piece dst_piece mv.to_sq false
  let mg_delta := mr.1 + ma.1
  let eg_delta := mr.2 + ma.2
  let capd : ℤ × ℤ × ℤ :=
    if mv.is_en_passant then
      let mc := if side = WHITE then remove_piece 6 (mv.to_sq - 8) else remove_piece 0 (mv.to_sq + 8)
      (mc.1, mc.2, PHASE_WEIGHTS 0)
    else
      match mv.capture_piece with
      | some cap =>
        let mc := remove_piece cap mv.to_sq
        (mc.1, mc.2, PHASE_WEIGHTS (cap % 6))
      | none => (0, 0, 0)
  let mg_delta := mg_delta + capd.1
  let eg_delta := eg_delta + capd.2.1
  let phase_delta := capd.2.2
  let castd : ℤ × ℤ :=
    if mv.is_castling then
      if side = WHITE then
        if mv.to_sq = 6 then
          (pst 3 5 false - pst 3 7 false, pst 3 5 true - pst 3 7 true)
        else
          (pst 3 3 false - pst 3 0 false, pst 3 3 true - pst 3 0 true)
      else
        if mv.to_sq = 62 then
          (-pst 9 61 false + pst 9 63 false, -pst 9 61 true + pst 9 63 true)
        else
          (-pst 9 59 false + pst 9 56 false, -pst 9 59 true + pst 9 56 true)
    else (0, 0)
  let mg_delta := mg_delta + castd.1
  let eg_delta := eg_delta + castd.2
  let phase_delta := phase_delta +
    (match mv.promotion with
     | some promo => PHASE_WEIGHTS (promo % 6) - PHASE_WEIGHTS 0
     | none => 0)
  (mg + mg_delta, eg + eg_delta, max 0 (min MAX_PHASE (phase + phase_delta)))

/-- eval.py `SIDE_PIECES`. -/
def SIDE_PIECES (side : ℕ) : ℕ × ℕ := if side = WHITE then (0, 6) else (6, 12)

/-- eval.py `_get_smallest_attacker`: least-valuable attacker of `side` on
`sq` under the simulated occupancy `occ`, as `(piece_index, from_square)`. -/
def _get_smallest_attacker (pos : Position) (sq side occ : ℕ) : Option (ℕ × ℕ) :=
  let start := (SIDE_PIECES side).1
  let pawnA := PAWN_ATTACKS (1 - side) sq &&& pos.bb start &&& occ
  if pawnA ≠ 0 then some (start, lowBit pawnA)
  else
    let knightA := KNIGHT_ATTACKS sq &&& pos.bb (start + 1) &&& occ
    if knightA ≠ 0 then some (start + 1, lowBit knightA)
    else
      let bishopA := bishop_attacks sq occ &&& pos.bb (start + 2) &&& occ
      if bishopA ≠ 0 then some (start + 2, lowBit bishopA)
      else
        let rookA := rook_attacks sq occ &&& pos.bb (start + 3) &&& occ
        if rookA ≠ 0 then some (start + 3, lowBit rookA)
        else
          let queenA := queen_attacks sq occ &&& pos.bb (start + 4) &&& occ
          if queenA ≠ 0 then some (start + 4, lowBit queenA)
          else
            let kingA := KING_ATTACKS sq &&& pos.bb (start + 5) &&& occ
            if kingA ≠ 0 then some (start + 5, lowBit kingA)
            else none

theorem xor_bit1_lt {occ k : ℕ} (h : occ.testBit k = true) : occ ^^^ bit1 k < occ := by
  refine Nat.lt_of_testBit k ?_ h fun j hj => ?_
  · simp [Nat.testBit_xor, testBit_bit1, h]
  · have : ¬ k = j := by omega
    simp [Nat.testBit_xor, testBit_bit1, this]

theorem smallest_attacker_bit {pos : Position} {sq side occ : ℕ} {a : ℕ × ℕ}
    (h : _get_smallest_attacker pos sq side occ = some a) : occ.testBit a.2 = true := by
  unfold _get_smallest_attacker at h
  simp only at h
  have hbit : ∀ m : ℕ, m &&& occ ≠ 0 → occ.testBit (lowBit (m &&& occ)) = true := by
    intro m hm
    have := testBit_lowBit hm
    rw [Nat.testBit_and] at this
    exact (Bool.and_eq_true _ _).mp this |>.2
  split_ifs at h <;> first
    | (cases h; exact hbit _ (by assumption))
    | cases h

/-- The capture-recapture simulation loop inside eval.py `see`.  The gain
stack is kept most-recent-first.  Each found attacker clears one set bit of
the simulated occupancy, so a fuel of `countBits occ + 1` (supplied by
`see`) can never run out; the fuel only makes the recursion structural. -/
def seeLoop (pos : Position) (to_sq : ℕ) :
    ℕ → ℕ → ℕ → ℕ → List ℤ → List ℤ
  | 0, _, _, _, gains => gains
  | fuel + 1, side, occ, attacker_piece, gains =>
    let nside := 1 - side
    match _get_smallest_attacker pos to_sq nside occ with
    | none => gains
    | some ad =>
      let occ2 := occ ^^^ bit1 ad.2
      let g := PIECE_VALUES.getD (attacker_piece % 6) 0 - gains.headD 0
      if g < 0 ∧ gains.headD 0 < 0 then g :: gains
      else seeLoop pos to_sq fuel nside occ2 ad.1 (g :: gains)

/-- The back-propagation loop at the end of eval.py `see`
(`while d > 1: gain[d-1] = -max(-gain[d-1], gain[d])`), on the
most-recent-first gain stack: each step folds the newest gain into the one
below it. -/
def seeUnroll : List ℤ → ℤ
  | [] => 0
  | g :: rest => rest.foldl (fun g2 r => -(max (-r) g2)) g

/-- eval.py `see`: static exchange evaluation of a capturing move. -/
def see (pos : Position) (mv : Move) : ℤ :=
  let side := pos.side_to_move
  let captured : Option ℕ :=
    if mv.is_en_passant then some (if side = WHITE then 0 else 6) else mv.capture_piece
  match captured with
  | none => 0
  | some cap =>
    let occ := pos.all_occupancy ^^^ bit1 mv.from_sq
    seeUnroll (seeLoop pos mv.to_sq (countBits occ + 1) side occ mv.piece
      [PIECE_VALUES.getD (cap % 6) 0])

/-! ## position.py operations -/

/-- The bitboard mutations shared, statement for statement, by
position.py `make_move` and moves.py `apply_move_clone`: remove the mover
from its origin, remove the captured man (en-passant aware), put the mover
or the promoted piece on the destination, and move the rook on castling. -/
def applyMoveBoards (side : ℕ) (bbs0 : List ℕ) (mv : Move) : List ℕ :=
  let bbs := bbs0.set mv.piece (clearBit (bbs0.getD mv.piece 0) mv.from_sq)
  let bbs :=
    if mv.is_en_passant then
      if side = WHITE then bbs.set 6 (clearBit (bbs.getD 6 0) (mv.to_sq - 8))
      else bbs.set 0 (clearBit (bbs.getD 0 0) (mv.to_sq + 8))
    else match mv.capture_piece with
      | some cap => bbs.set cap (clearBit (bbs.getD cap 0) mv.to_sq)
      | none => bbs
  let dst_piece := mv.promotion.getD mv.piece
  let bbs := bbs.set dst_piece (setBit (bbs.getD dst_piece 0) mv.to_sq)
  if mv.is_castling then
    if side = WHITE then
      if mv.to_sq = 6 then bbs.set 3 (setBit (clearBit (bbs.getD 3 0) 7) 5)
      else bbs.set 3 (setBit (clearBit (bbs.getD 3 0) 0) 3)
    else
      if mv.to_sq = 62 then bbs.set 9 (setBit (clearBit (bbs.getD 9 0) 63) 61)
      else bbs.set 9 (setBit (clearBit (bbs.getD 9 0) 56) 59)
  else bbs

/-- The castling-rights update shared, clause for clause, by `make_move`
and `apply_move_clone`: a king move clears both own rights, a rook move
from its home square clears that flank's right, a capture landing on an
enemy rook home square clears the enemy's right. -/
def updateCastlingRights (side prev_cr : ℕ) (mv : Move) : ℕ :=
  if side = WHITE then
    let cr1 :=
      if mv.piece = 5 then andNot prev_cr (CR_WK ||| CR_WQ)
      else if mv.piece = 3 then
        (if mv.from_sq = 0 then andNot prev_cr CR_WQ
         else if mv.from_sq = 7 then andNot prev_cr CR_WK else prev_cr)
      else prev_cr
    if mv.capture_piece = some 9 then
      (if mv.to_sq = 56 then andNot cr1 CR_BQ
       else if mv.to_sq = 63 then andNot cr1 CR_BK else cr1)
    else cr1
  else
    let cr1 :=
      if mv.piece = 11 then andNot prev_cr (CR_BK ||| CR_BQ)
      else if mv.piece = 9 then
        (if mv.from_sq = 56 then andNot prev_cr CR_BQ
         else if mv.from_sq = 63 then andNot prev_cr CR_BK else prev_cr)
      else prev_cr
    if mv.capture_piece = some 3 then
      (if mv.to_sq = 0 then andNot cr1 CR_WQ
       else if mv.to_sq = 7 then andNot cr1 CR_WK else cr1)
    else cr1

/-- `bitboards[0] | ... | bitboards[5]`, the white-occupancy rebuild. -/
def whiteOccOf (bbs : List ℕ) : ℕ :=
  bbs.getD 0 0 ||| bbs.getD 1 0 ||| bbs.getD 2 0 |||
    bbs.getD 3 0 ||| bbs.getD 4 0 ||| bbs.getD 5 0

/-- `bitboards[6] | ... | bitboards[11]`, the black-occupancy rebuild. -/
def blackOccOf (bbs : List ℕ) : ℕ :=
  bbs.getD 6 0 ||| bbs.getD 7 0 ||| bbs.getD 8 0 |||
    bbs.getD 9 0 ||| bbs.getD 10 0 ||| bbs.getD 11 0

/-- The halfmove-clock rule shared by `make_move` and `apply_move_clone`:
reset on a pawn move, a capture or en passant, else increment. -/
def updateHalfmove (mv : Move) (halfmove_clock : ℤ) : ℤ :=
  if mv.piece = 0 ∨ mv.piece = 6 ∨ mv.capture_piece.isSome ∨ mv.is_en_passant = true then 0
  else halfmove_clock + 1

/-- The Zobrist XOR toggles of `make_move` for the board mutations of
`applyMoveBoards` (interleaved with them in the source; they read no board
and so commute to one place). -/
def moveZobristToggles (T : Zobrist) (side : ℕ) (zob0 : ℕ) (mv : Move) : ℕ :=
  let zob := zob0 ^^^ T.piece_square mv.piece mv.from_sq
  let zob :=
    if mv.is_en_passant then
      if side = WHITE then zob ^^^ T.piece_square 6 (mv.to_sq - 8)
      else zob ^^^ T.piece_square 0 (mv.to_sq + 8)
    else match mv.capture_piece with
      | some cap => zob ^^^ T.piece_square cap mv.to_sq
      | none => zob
  let dst_piece := mv.promotion.getD mv.piece
  let zob := zob ^^^ T.piece_square dst_piece mv.to_sq
  if mv.is_castling then
    if side = WHITE then
      if mv.to_sq = 6 then zob ^^^ T.piece_square 3 7 ^^^ T.piece_square 3 5
      else zob ^^^ T.piece_square 3 0 ^^^ T.piece_square 3 3
    else
      if mv.to_sq = 62 then zob ^^^ T.piece_square 9 63 ^^^ T.piece_square 9 61
      else zob ^^^ T.piece_square 9 56 ^^^ T.piece_square 9 59
  else zob

/-- position.py `make_move`, statement for statement; the undo stack keeps
its top at the head (Python appends and pops at the right end).
`apply_move_eval_delta` receives the original position because the only
field it reads, `side_to_move`, has not been toggled yet at its call site. -/
def Position.make_move (T : Zobrist) (pos : Position) (mv : Move) : Position :=
  let side := pos.side_to_move
  let undo : UndoEntry :=
    { move := mv, prev_ep_square := pos.ep_square,
      prev_castling_rights := pos.castling_rights,
      prev_halfmove_clock := pos.halfmove_clock,
      prev_fullmove_number := pos.fullmove_number,
      prev_zobrist := pos.zobrist, prev_mg := pos.mg, prev_eg := pos.eg,
      prev_phase := pos.phase, prev_side_to_move := side }
  let zob := match pos.ep_square with
    | some e => pos.zobrist ^^^ T.ep_file_keys (e % 8).toNat
    | none => pos.zobrist
  let zob := moveZobristToggles T side zob mv
  let bbs := applyMoveBoards side pos.bitboards mv
  let prev_cr := pos.castling_rights
  let cr := updateCastlingRights side prev_cr mv
  let toggle := fun (zb bitv key_idx : ℕ) =>
    if prev_cr &&& bitv ≠ cr &&& bitv then zb ^^^ T.castling_keys key_idx else zb
  let zob := toggle (toggle (toggle (toggle zob CR_WK 0) CR_WQ 1) CR_BK 2) CR_BQ 3
  let ep2 : Option ℤ × ℕ :=
    if mv.is_double_push then
      let e : ℤ := if side = WHITE then (mv.from_sq : ℤ) + 8 else (mv.from_sq : ℤ) - 8
      (some e, zob ^^^ T.ep_file_keys (e % 8).toNat)
    else (none, zob)
  let zob := ep2.2
  let white_occ := whiteOccOf bbs
  let black_occ := blackOccOf bbs
  let med := apply_move_eval_delta pos mv pos.mg pos.eg pos.phase
  { bitboards := bbs,
    white_occupancy := white_occ,
    black_occupancy := black_occ,
    all_occupancy := white_occ ||| black_occ,
    side_to_move := 1 - side,
    castling_rights := cr,
    ep_square := ep2.1,
    halfmove_clock := updateHalfmove mv pos.halfmove_clock,
    fullmove_number :=
      if side = BLACK then pos.fullmove_number + 1 else pos.fullmove_number,
    zobrist := zob ^^^ T.side,
    mg := med.1, eg := med.2.1, phase := med.2.2,
    move_stack := undo :: pos.move_stack }

/-- The reverse bitboard mutations of position.py `undo_move`. -/
def undoMoveBoards (side : ℕ) (bbs0 : List ℕ) (mv : Move) : List ℕ :=
  let bbs :=
    if mv.is_castling then
      if side = WHITE then
        if mv.to_sq = 6 then bbs0.set 3 (setBit (clearBit (bbs0.getD 3 0) 5) 7)
        else bbs0.set 3 (setBit (clearBit (bbs0.getD 3 0) 3) 0)
      else
        if mv.to_sq = 62 then bbs0.set 9 (setBit (clearBit (bbs0.getD 9 0) 61) 63)
        else bbs0.set 9 (setBit (clearBit (bbs0.getD 9 0) 59) 56)
    else bbs0
  let dst_piece := mv.promotion.getD mv.piece
  let bbs := bbs.set dst_piece (clearBit (bbs.getD dst_piece 0) mv.to_sq)
  let bbs :=
    if mv.is_en_passant then
      if side = WHITE then bbs.set 6 (setBit (bbs.getD 6 0) (mv.to_sq - 8))
      else bbs.set 0 (setBit (bbs.getD 0 0) (mv.to_sq + 8))
    else match mv.capture_piece with
      | some cap => bbs.set cap (setBit (bbs.getD cap 0) mv.to_sq)
      | none => bbs
  bbs.set mv.piece (setBit (bbs.getD mv.piece 0) mv.from_sq)

/-- position.py `undo_move`: `none` models the `IndexError` raised on an
empty stack. -/
def Position.undo_move (pos : Position) : Option Position :=
  match pos.move_stack with
  | [] => none
  | u :: rest =>
    let mv := u.move
    let side := u.prev_side_to_move
    let bbs := undoMoveBoards side pos.bitboards mv
    let white_occ := whiteOccOf bbs
    let black_occ := blackOccOf bbs
    let newpos : Position :=
      { bitboards := bbs,
        white_occupancy := white_occ,
        black_occupancy := black_occ,
        all_occupancy := white_occ ||| black_occ,
        side_to_move := u.prev_side_to_move,
        castling_rights := u.prev_castling_rights,
        ep_square := u.prev_ep_square,
        halfmove_clock := u.prev_halfmove_clock,
        fullmove_number := u.prev_fullmove_number,
        zobrist := u.prev_zobrist,
        mg := u.prev_mg, eg := u.prev_eg, phase := u.prev_phase,
        move_stack := rest }
    some newpos

/-- moves.py `apply_move_clone`: copy-make on a clone (same board,
castling-rights, en-passant, occupancy and clock updates as `make_move`),
with a from-scratch Zobrist recompute at the end. -/
def apply_move_clone (T : Zobrist) (pos : Position) (mv : Move) : Position :=
  let side := pos.side_to_move
  let bbs := applyMoveBoards side pos.bitboards mv
  let cr := updateCastlingRights side pos.castling_rights mv
  let ep2 : Option ℤ :=
    if mv.is_double_push then
      some (if side = WHITE then (mv.from_sq : ℤ) + 8 else (mv.from_sq : ℤ) - 8)
    else none
  let white_occ := whiteOccOf bbs
  let black_occ := blackOccOf bbs
  let new0 : Position :=
    { bitboards := bbs,
      white_occupancy := white_occ,
      black_occupancy := black_occ,
      all_occupancy := white_occ ||| black_occ,
      side_to_move := 1 - side,
      castling_rights := cr,
      ep_square := ep2,
      halfmove_clock := updateHalfmove mv pos.halfmove_clock,
      fullmove_number :=
        if side = BLACK then pos.fullmove_number + 1 else pos.fullmove_number,
      zobrist := pos.zobrist,
      mg := pos.mg, eg := pos.eg, phase := pos.phase,
      move_stack := [] }
  { new0 with zobrist := T.compute new0 }

/-- moves.py `generate_legal_moves`: keep the pseudo-legal moves after which
the just-moved side's king is not attacked. -/
def generate_legal_moves (T : Zobrist) (pos : Position) : List Move :=
  (generate_pseudo_legal_moves pos).filter (fun mv =>
    let after := apply_move_clone T pos mv
    if after.side_to_move = WHITE then
      !(is_square_attacked_by WHITE (topBit (after.bb 11)) after)
    else
      !(is_square_attacked_by BLACK (topBit (after.bb 5)) after))

/-! ## FEN parsing and formatting (position.py) -/

/-- position.py `_square_index` on Python integers. -/
def _square_index (file_idx rank_idx : ℤ) : ℤ := (rank_idx - 1) * 8 + file_idx

/-- The ASCII whitespace that Python `str.strip`/`str.split` use. -/
def isPySpace (c : Char) : Bool :=
  c = ' ' || c = '\t' || c = '\n' || c = '\r' || c = Char.ofNat 11 || c = Char.ofNat 12

/-- Python `str.strip()`. -/
def pyStrip (cs : List Char) : List Char :=
  ((cs.dropWhile isPySpace).reverse.dropWhile isPySpace).reverse

/-- The splitting loop of Python `str.split()`, driven by a fuel that
bounds the input length (each step consumes at least one character). -/
def pySplitAux : ℕ → List Char → List (List Char)
  | 0, _ => []
  | _, [] => []
  | fuel + 1, c :: rest =>
    if isPySpace c then pySplitAux fuel rest
    else
      (c :: rest.takeWhile (fun d => !(isPySpace d))) ::
        pySplitAux fuel (rest.dropWhile (fun d => !(isPySpace d)))

/-- Python `str.split()` with no separator: split on whitespace runs,
producing no empty tokens. -/
def pySplit (cs : List Char) : List (List Char) := pySplitAux cs.length cs

/-- The digit run of a Python integer literal, after its first digit:
further digits, with single underscores allowed between digits. -/
def pyDigitsAfter (acc : ℕ) : List Char → Option ℕ
  | [] => some acc
  | [c] => if c = '_' then none else if c.isDigit then some (acc * 10 + (c.toNat - 48)) else none
  | c :: c2 :: rest2 =>
    if c = '_' then
      if c2.isDigit then pyDigitsAfter (acc * 10 + (c2.toNat - 48)) rest2 else none
    else if c.isDigit then pyDigitsAfter (acc * 10 + (c.toNat - 48)) (c2 :: rest2)
    else none

/-- A nonempty Python digit run (first character must be a digit). -/
def pyDigitsStart : List Char → Option ℕ
  | [] => none
  | c :: rest => if c.isDigit then pyDigitsAfter (c.toNat - 48) rest else none

/-- Python `int(s)` on an ASCII token free of whitespace (the only callers
pass fields produced by `str.split`): optional sign, then digits with
optional single underscores between them; anything else raises
`ValueError`. -/
def pyInt (cs : List Char) : Except String ℤ :=
  match cs with
  | '+' :: rest =>
    match pyDigitsStart rest with
    | some n => .ok (n : ℤ)
    | none => .error "ValueError: invalid literal for int"
  | '-' :: rest =>
    match pyDigitsStart rest with
    | some n => .ok (-(n : ℤ))
    | none => .error "ValueError: invalid literal for int"
  | _ =>
    match pyDigitsStart cs with
    | some n => .ok (n : ℤ)
    | none => .error "ValueError: invalid literal for int"

/-- position.py `_parse_square`: `ord(sq[0]) - ord('a')` and `int(sq[1])`;
a short string raises `IndexError`, a non-digit second character
`ValueError`.  Characters beyond the second are ignored, files outside
a..h and ranks outside 1..8 are not rejected. -/
def _parse_square (s : List Char) : Except String ℤ :=
  match s with
  | c0 :: c1 :: _ =>
    match pyInt [c1] with
    | .ok rank => .ok (_square_index ((c0.toNat : ℤ) - 97) rank)
    | .error e => .error e
  | _ => .error "IndexError: string index out of range"

/-- The piece-placement loop of `from_fen`: `/` moves to the next rank,
digits skip files, piece letters set a bit; a piece placed after too many
`/` separators makes the computed square negative, where Python's
`1 << sq` raises `ValueError: negative shift count`. -/
def placeLoop : List Char → ℤ → ℕ → List ℕ → Except String (List ℕ)
  | [], _, _, bbs => .ok bbs
  | ch :: rest, rank, file_idx, bbs =>
    if ch = '/' then placeLoop rest (rank - 1) 0 bbs
    else if ch.isDigit then placeLoop rest rank (file_idx + (ch.toNat - 48)) bbs
    else match PIECE_TO_INDEX ch with
      | none => .error "Invalid FEN piece"
      | some p =>
        let sq : ℤ := _square_index (file_idx : ℤ) rank
        if sq < 0 then .error "ValueError: negative shift count"
        else placeLoop rest rank (file_idx + 1) (bbs.set p (setBit (bbs.getD p 0) sq.toNat))

/-- position.py `Position.from_fen`.  The Python key table
`zobrist_table.piece_square` is a 12 x 64 list of lists, so the
`Zobrist.compute` call at the end raises `IndexError` whenever the
placement has put a piece past square 63 (the key functions of the
`Zobrist` structure here are total); that failure is raised where the
Python call sits, after the clock fields have parsed. -/
def Position.from_fen (T : Zobrist) (fen : String) : Except String Position := do
  let parts := pySplit (pyStrip fen.toList)
  match parts with
  | [placement, stm, castling, ep, halfmove, fullmove] =>
    let bbs ← placeLoop placement 8 0 [0, 0, 0, 0, 0, 0, 0, 0, 0, 0, 0, 0]
    let side := if stm = ['w'] then WHITE else BLACK
    let cr : ℕ :=
      if castling = ['-'] then 0
      else
        (if castling.contains 'K' then CR_WK else 0) |||
        (if castling.contains 'Q' then CR_WQ else 0) |||
        (if castling.contains 'k' then CR_BK else 0) |||
        (if castling.contains 'q' then CR_BQ else 0)
    let ep_sq : Option ℤ ←
      if ep = ['-'] then pure none
      else do
        let e ← _parse_square ep
        pure (some e)
    let hm ← pyInt halfmove
    let fm ← pyInt fullmove
    if (List.range 12).any (fun p => decide (2 ^ 64 ≤ bbs.getD p 0)) then
      .error "IndexError: list index out of range"
    else
    let white_occ := bbs.getD 0 0 ||| bbs.getD 1 0 ||| bbs.getD 2 0 |||
      bbs.getD 3 0 ||| bbs.getD 4 0 ||| bbs.getD 5 0
    let black_occ := bbs.getD 6 0 ||| bbs.getD 7 0 ||| bbs.getD 8 0 |||
      bbs.getD 9 0 ||| bbs.getD 10 0 ||| bbs.getD 11 0
    let pos0 : Position :=
      { bitboards := bbs,
        white_occupancy := white_occ,
        black_occupancy := black_occ,
        all_occupancy := white_occ ||| black_occ,
        side_to_move := side,
        castling_rights := cr,
        ep_square := ep_sq,
        halfmove_clock := hm,
        fullmove_number := fm,
        zobrist := 0, mg := 0, eg := 0, phase := 0,
        move_stack := [] }
    let ec := eval_components pos0
    .ok { pos0 with zobrist := T.compute pos0, mg := ec.1, eg := ec.2.1, phase := ec.2.2 }
  | _ => .error "Invalid FEN: expected 6 space-separated fields"

def digitChar (n : ℕ) : Char := Char.ofNat (48 + n)

/-- One rank row of `to_fen`'s placement output (the inner loop over files,
with the empties counter). -/
def rowChars (pos : Position) (rank : ℕ) : List Char :=
  let st := (List.range 8).foldl (fun (st : ℕ × List Char) file_idx =>
    let sq := (rank - 1) * 8 + file_idx
    match pos.piece_at sq with
    | none => (st.1 + 1, st.2)
    | some p =>
      (0, st.2 ++ (if st.1 ≠ 0 then [digitChar st.1] else []) ++ [INDEX_TO_PIECE_CHAR p]))
    (0, [])
  st.2 ++ (if st.1 ≠ 0 then [digitChar st.1] else [])

/-- The digit recursion of Python `str(n)` for a nonnegative integer. -/
def natCharsCore (n : ℕ) : List Char :=
  if h : n < 10 then [digitChar n]
  else natCharsCore (n / 10) ++ [digitChar (n % 10)]
termination_by n
decreasing_by exact Nat.div_lt_self (by omega) (by omega)

/-- The same recursion driven by a fuel bounding the digit count, so the
kernel can evaluate it. -/
def natCharsAux : ℕ → ℕ → List Char
  | 0, n => [digitChar n]
  | fuel + 1, n =>
    if n < 10 then [digitChar n]
    else natCharsAux fuel (n / 10) ++ [digitChar (n % 10)]

/-- Python `str(n)` for `n ≥ 0` (the two branches are proved equal below). -/
def natChars (n : ℕ) : List Char :=
  if n < 10 ^ 40 then natCharsAux 40 n else natCharsCore n

theorem natCharsAux_eq : ∀ (fuel n : ℕ), n < 10 ^ fuel →
    natCharsAux fuel n = natCharsCore n := by
  intro fuel
  induction fuel with
  | zero =>
    intro n h
    have hn : n = 0 := by omega
    subst hn
    rw [natCharsCore]
    rfl
  | succ f ih =>
    intro n h
    rw [natCharsAux, natCharsCore]
    by_cases h10 : n < 10
    · simp [h10]
    · rw [if_neg h10, dif_neg h10, ih (n / 10) (by omega)]

theorem natChars_eq_core (n : ℕ) : natChars n = natCharsCore n := by
  unfold natChars
  split
  · exact natCharsAux_eq 40 n (by assumption)
  · rfl

def intChars (n : ℤ) : List Char :=
  if n < 0 then '-' :: natChars (-n).toNat else natChars n.toNat

/-- position.py `_square_name` (Python `%` and `//` floor semantics). -/
def _square_name (sq : ℤ) : List Char :=
  Char.ofNat (97 + (sq % 8).toNat) :: intChars (Int.fdiv sq 8 + 1)

/-- position.py `_castling_string`. -/
def Position._castling_string (pos : Position) : List Char :=
  if pos.castling_rights = 0 then ['-']
  else
    (if pos.castling_rights &&& CR_WK ≠ 0 then ['K'] else []) ++
    (if pos.castling_rights &&& CR_WQ ≠ 0 then ['Q'] else []) ++
    (if pos.castling_rights &&& CR_BK ≠ 0 then ['k'] else []) ++
    (if pos.castling_rights &&& CR_BQ ≠ 0 then ['q'] else [])

/-- position.py `Position.to_fen`. -/
def Position.to_fen (pos : Position) : String :=
  let rows := (List.range 8).map (fun k => rowChars pos (8 - k))
  let placement := List.intercalate ['/'] rows
  let stm := if pos.side_to_move = WHITE then ['w'] else ['b']
  let ep := match pos.ep_square with
    | none => ['-']
    | some e => _square_name e
  String.mk (placement ++ [' '] ++ stm ++ [' '] ++ pos._castling_string ++ [' '] ++
    ep ++ [' '] ++ intChars pos.halfmove_clock ++ [' '] ++ intChars pos.fullmove_number)

/-! ## search.py

The `Search` object's mutable fields become an explicit `SearchState`; its
dictionaries become association lists (newest binding first, lookups take
the newest).  Wall-clock reads (`time.monotonic() > self.deadline`) are an
oracle `Option (ℕ → Bool)` evaluated at the current node counter: `none`
models `self.deadline is None`.  Python's unbounded recursion is driven by
an explicit fuel argument; exhausted fuel returns `alpha`, the same value
every abort path returns.  The per-sort SEE cache (`see_cache`) is a pure
memoisation cleared at each `_move_order` call and keyed injectively on the
moves scored, so it is dropped and `see` is recomputed; the progress/info
callbacks have no effect on any returned value and are dropped as well. -/

def MATE_SCORE : ℤ := 1000000

def EXACT : ℕ := 0

def LOWER : ℕ := 1

def UPPER : ℕ := 2

/-- search.py `TTEntry`. -/
structure TTEntry where
  key : ℕ
  depth : ℤ
  score : ℤ
  flag : ℕ
  best_move : Option Move
deriving DecidableEq, Repr

/-- Python `dict.get`. -/
def dictGet {α : Type} [DecidableEq α] {β : Type} (d : List (α × β)) (k : α) : Option β :=
  (d.find? (fun e => decide (e.1 = k))).map (fun e => e.2)

/-- Python `dict.__setitem__` (overwrite-on-insert). -/
def dictSet {α : Type} [DecidableEq α] {β : Type} (d : List (α × β)) (k : α) (v : β) :
    List (α × β) :=
  (k, v) :: d.filter (fun e => !(decide (e.1 = k)))

/-- The mutable searcher state of search.py `Search.__init__`. -/
structure SearchState where
  tt : List (ℕ × TTEntry)
  nodes : ℕ
  killers : List (ℕ × List (ℕ × ℕ × Option ℕ))
  history : List ((ℕ × ℕ) × ℤ)
  stop_requested : Bool
  out_of_time : Bool
deriving DecidableEq, Repr

/-- A fresh `Search()` state. -/
def SearchState.init : SearchState :=
  { tt := [], nodes := 0, killers := [], history := [],
    stop_requested := false, out_of_time := false }

/-- search.py `Search._in_check`. -/
def _in_check (pos : Position) : Bool :=
  let side := pos.side_to_move
  is_square_attacked_by (1 - side) (topBit (pos.bb (if side = WHITE then 5 else 11))) pos

/-- search.py `Search._is_quiet`. -/
def _is_quiet (mv : Move) : Bool :=
  mv.capture_piece = none ∧ ¬ mv.is_en_passant = true ∧ mv.promotion = none

/-- search.py `Search._has_non_pawn_material`. -/
def _has_non_pawn_material (pos : Position) (side : ℕ) : Bool :=
  if side = WHITE then (pos.bb 1 ||| pos.bb 2 ||| pos.bb 3 ||| pos.bb 4) ≠ 0
  else (pos.bb 7 ||| pos.bb 8 ||| pos.bb 9 ||| pos.bb 10) ≠ 0

/-- search.py `Search._get_see_score` (the memo cache dropped, see above):
en passant is shortcut to one pawn, other captures use `see`. -/
def _get_see_score (pos : Position) (mv : Move) : ℤ :=
  if mv.is_en_passant then PIECE_VALUES.getD 0 0
  else if mv.capture_piece.isSome then see pos mv
  else 0

/-- The priority `_move_order` assigns one move. -/
def moveOrderScore (pos : Position) (st : SearchState) (tt_move : Option Move) (ply : ℕ)
    (mv : Move) : ℤ :=
  let isTT : Bool := match tt_move with
    | some t =>
      decide (mv.from_sq = t.from_sq ∧ mv.to_sq = t.to_sq ∧ mv.promotion = t.promotion)
    | none => false
  if isTT = true then 100000
  else match mv.promotion with
    | some promo => 500 + PIECE_VALUES.getD (promo % 6) 0
    | none =>
      if mv.capture_piece.isSome ∨ mv.is_en_passant = true then
        let s := _get_see_score pos mv
        if s ≥ 0 then 1000 + s else -1000 + s
      else
        let key := (mv.from_sq, mv.to_sq, mv.promotion)
        let kmScore : ℤ := match dictGet st.killers ply with
          | some (k0 :: kmRest) =>
            if k0 = key then 80000
            else match kmRest with
              | k1 :: _ => if k1 = key then 70000 else 0
              | [] => 0
          | some [] => 0
          | none => 0
        kmScore + (dictGet st.history (mv.from_sq, mv.to_sq)).getD 0

/-- Stable descending insertion: the new move goes after every already
placed move whose score is at least as large. -/
def insertDesc (score : Move → ℤ) (mv : Move) : List Move → List Move
  | [] => [mv]
  | x :: xs => if score mv ≤ score x then x :: insertDesc score mv xs else mv :: x :: xs

/-- search.py `Search._move_order`: `sorted(moves, key=..., reverse=True)`.
CPython's sort is stable, and a stable sort by a key is a unique function of
the input, so the stable insertion sort below computes the same list. -/
def _move_order (pos : Position) (st : SearchState) (moves : List Move)
    (tt_move : Option Move) (ply : ℕ) : List Move :=
  moves.foldl (fun acc mv => insertDesc (moveOrderScore pos st tt_move ply) mv acc) []

/-- The capture loop of `Search.qsearch` (skipping non-promotion captures
with negative SEE); the child quiescence search is passed in as `qs`. -/
def qsLoopGo (T : Zobrist) (qs : SearchState → Position → ℤ → ℤ → ℤ × SearchState)
    (pos : Position) (beta : ℤ) : List Move → SearchState → ℤ → ℤ × SearchState
  | [], st, alpha => (alpha, st)
  | mv :: rest, st, alpha =>
    if mv.promotion = none ∧ _get_see_score pos mv < 0 then
      qsLoopGo T qs pos beta rest st alpha
    else
      let r := qs st (pos.make_move T mv) (-beta) (-alpha)
      let score := -r.1
      if score ≥ beta then (beta, r.2)
      else qsLoopGo T qs pos beta rest r.2 (if score > alpha then score else alpha)

/-- search.py `Search.qsearch`, by structural recursion on the fuel. -/
def qsearch (T : Zobrist) (oracle : Option (ℕ → Bool)) :
    ℕ → SearchState → Position → ℤ → ℤ → ℤ × SearchState
  | 0, st, _, alpha, _ => (alpha, st)
  | fuel + 1, st0, pos, alpha, beta =>
    let st := { st0 with nodes := st0.nodes + 1 }
    if st.stop_requested = true ∨
        (oracle.isSome ∧ st.nodes % 2048 = 0 ∧ oracle.getD (fun _ => false) st.nodes = true) then
      (alpha, { st with out_of_time := true })
    else
      let stand_pat := evaluate pos
      if stand_pat ≥ beta then (beta, st)
      else
        let alpha := if alpha < stand_pat then stand_pat else alpha
        let legal := generate_legal_moves T pos
        let noisy := legal.filter (fun mv =>
          mv.capture_piece.isSome || mv.is_en_passant || mv.promotion.isSome)
        let ordered := _move_order pos st noisy none 0
        qsLoopGo T (qsearch T oracle fuel) pos beta ordered st alpha

/-- The move loop of `Search.alphabeta`: late-move and futility reductions,
principal-variation search with the zero-window probe and re-searches, the
beta cutoff with killer/history updates, and alpha raising.  `make_move`
before a child search and the matching `undo_move` after it become searching
the child position while continuing the loop on the unchanged parent; the
child search is passed in as `ab`. -/
def abLoopGo (T : Zobrist)
    (ab : SearchState → Position → ℤ → ℤ → ℤ → ℕ → ℤ × SearchState)
    (pos : Position) (depth beta : ℤ) (ply : ℕ) (in_check : Bool) (stand_pat : ℤ) :
    List Move → ℕ → ℤ → Option Move → ℤ → SearchState → ℤ × Option Move × SearchState
  | [], _, best_score, best_move, _, st => (best_score, best_move, st)
  | mv :: rest, idx, best_score, best_move, alpha, st =>
    let move_index := idx + 1
    let is_quiet := _is_quiet mv
    let lmr : Prop := depth ≥ 3 ∧ is_quiet = true ∧ in_check = false ∧ move_index > 4
    let fut : Prop := depth ≤ 2 ∧ in_check = false ∧ is_quiet = true ∧
      stand_pat + (if depth = 1 then (150 : ℤ) else 250) ≤ alpha
    let reduce : Bool := decide lmr || decide fut
    let r : ℤ := if fut then max (if lmr then 1 else 0) 1 else (if lmr then 1 else 0)
    let child := pos.make_move T mv
    let sres : ℤ × SearchState :=
      if move_index = 1 then
        let rr := ab st child (depth - 1) (-beta) (-alpha) (ply + 1)
        (-rr.1, rr.2)
      else
        let rr := ab st child (depth - 1 - r) (-alpha - 1) (-alpha) (ply + 1)
        if -rr.1 > alpha then
          let rr2 := ab rr.2 child (depth - 1 - r) (-beta) (-alpha) (ply + 1)
          (-rr2.1, rr2.2)
        else (-rr.1, rr.2)
    let sres2 : ℤ × SearchState :=
      if reduce = true ∧ sres.1 > alpha then
        let rr := ab sres.2 child (depth - 1) (-beta) (-alpha) (ply + 1)
        (-rr.1, rr.2)
      else sres
    let score := sres2.1
    let st2 := sres2.2
    let best2 : ℤ × Option Move :=
      if score > best_score then (score, some mv) else (best_score, best_move)
    if score ≥ beta then
      let st3 :=
        if is_quiet = true then
          let km := (dictGet st2.killers ply).getD []
          let key_tpl := (mv.from_sq, mv.to_sq, mv.promotion)
          let km2 :=
            if km.head? = some key_tpl then km
            else key_tpl :: km.filter (fun k => !(decide (k = key_tpl)))
          let km3 := if km2.length > 2 then km2.take 2 else km2
          let hist2 := dictSet st2.history (mv.from_sq, mv.to_sq)
            ((dictGet st2.history (mv.from_sq, mv.to_sq)).getD 0 + depth * depth)
          { st2 with killers := dictSet st2.killers ply km3, history := hist2 }
        else st2
      (best2.1, best2.2, st3)
    else
      abLoopGo T ab pos depth beta ply in_check stand_pat rest move_index
        best2.1 best2.2 (if score > alpha then score else alpha) st2

/-- `Search.alphabeta` continued: legal-move enumeration (with the
mate/stalemate terminal return), ordering, the move loop, and the final
transposition-table store. -/
def abGenGo (T : Zobrist)
    (ab : SearchState → Position → ℤ → ℤ → ℤ → ℕ → ℤ × SearchState)
    (st : SearchState) (pos : Position) (depth alpha beta : ℤ) (ply : ℕ)
    (tt_move : Option Move) (in_check : Bool) : ℤ × SearchState :=
  let legal := generate_legal_moves T pos
  if legal.isEmpty then
    if in_check = true then (-MATE_SCORE + ply, st) else (0, st)
  else
    let ordered := _move_order pos st legal tt_move ply
    let stand_pat := evaluate pos
    let a0 := alpha
    let lr := abLoopGo T ab pos depth beta ply in_check stand_pat ordered 0
      (-MATE_SCORE) none alpha st
    let best_score := lr.1
    let best_move := lr.2.1
    let st2 := lr.2.2
    let flag := if best_score ≤ a0 then UPPER else if best_score ≥ beta then LOWER else EXACT
    let entry : TTEntry :=
      { key := pos.zobrist, depth := depth, score := best_score, flag := flag,
        best_move := best_move }
    (best_score, { st2 with tt := dictSet st2.tt pos.zobrist entry })

/-- `Search.alphabeta` continued: leaf quiescence and null-move pruning;
`ab` and `qs` are the child searches. -/
def abRestGo (T : Zobrist)
    (ab : SearchState → Position → ℤ → ℤ → ℤ → ℕ → ℤ × SearchState)
    (qs : SearchState → Position → ℤ → ℤ → ℤ × SearchState)
    (st : SearchState) (pos : Position) (depth alpha beta : ℤ) (ply : ℕ)
    (tt_move : Option Move) : ℤ × SearchState :=
  let in_check := _in_check pos
  if depth ≤ 0 then qs st pos alpha beta
  else
    if depth ≥ 2 ∧ in_check = false ∧
        _has_non_pawn_material pos pos.side_to_move = true then
      let R : ℤ := if depth ≥ 5 then 3 else 2
      let side := pos.side_to_move
      let np0 := pos.clone
      let np1 := { np0 with
        ep_square := none,
        halfmove_clock := np0.halfmove_clock + 1,
        fullmove_number :=
          if side = BLACK then np0.fullmove_number + 1 else np0.fullmove_number,
        side_to_move := 1 - side }
      let null_pos := { np1 with zobrist := T.compute np1 }
      let r := ab st null_pos (depth - R - 1) (-beta) (-beta + 1) (ply + 1)
      if -r.1 ≥ beta then (beta, r.2)
      else abGenGo T ab r.2 pos depth alpha beta ply tt_move in_check
    else abGenGo T ab st pos depth alpha beta ply tt_move in_check

/-- search.py `Search.alphabeta`: stop/deadline checks, node count, and the
transposition-table probe, then `abRestGo`; structural recursion on fuel. -/
def alphabeta (T : Zobrist) (oracle : Option (ℕ → Bool)) :
    ℕ → SearchState → Position → ℤ → ℤ → ℤ → ℕ → ℤ × SearchState
  | 0, st, _, _, alpha, _, _ => (alpha, st)
  | fuel + 1, st0, pos, depth, alpha, beta, ply =>
    if st0.stop_requested = true then (alpha, { st0 with out_of_time := true })
    else if oracle.isSome ∧ st0.nodes % 2048 = 0 ∧
        oracle.getD (fun _ => false) st0.nodes = true then
      (alpha, { st0 with out_of_time := true })
    else
      let st := { st0 with nodes := st0.nodes + 1 }
      let key := pos.zobrist
      let ttr : Option ℤ × ℤ × ℤ × Option Move :=
        match dictGet st.tt key with
        | some e =>
          if e.depth ≥ depth then
            if e.flag = EXACT then (some e.score, alpha, beta, e.best_move)
            else
              let alpha2 := if e.flag = LOWER then max alpha e.score else alpha
              let beta2 := if e.flag = UPPER then min beta e.score else beta
              if alpha2 ≥ beta2 then (some e.score, alpha2, beta2, e.best_move)
              else (none, alpha2, beta2, e.best_move)
          else (none, alpha, beta, e.best_move)
        | none => (none, alpha, beta, none)
      match ttr.1 with
      | some sc => (sc, st)
      | none =>
        abRestGo T (alphabeta T oracle fuel) (qsearch T oracle fuel)
          st pos depth ttr.2.1 ttr.2.2.1 ply ttr.2.2.2

/-! ## Concrete instances used by proofs and witnesses -/

/-- A concrete Zobrist key table with distinct-looking 64-bit keys (the
Python process fills its table from a seeded Mersenne Twister; every general
theorem in this file holds for an arbitrary table, and witnesses instantiate
this one). -/
def T0 : Zobrist :=
  { piece_square := fun p sq => (p * 64 + sq + 1) * 2654435761 % 18446744073709551616,
    side := 987654321,
    castling_keys := fun i => 5000000 + i * 77777,
    ep_file_keys := fun i => 9000000 + i * 33333 }

/-! ## C9: castling rights never regain a bit across make_move -/

theorem testBit_andNot_imp {x y b : ℕ} (h : (andNot x y).testBit b = true) :
    x.testBit b = true := by
  rw [testBit_andNot] at h
  exact ((Bool.and_eq_true _ _).mp h).1

theorem updateCastlingRights_subset (side prev_cr : ℕ) (mv : Move) (b : ℕ)
    (h : (updateCastlingRights side prev_cr mv).testBit b = true) :
    prev_cr.testBit b = true := by
  unfold updateCastlingRights at h
  split_ifs at h <;>
    first
      | exact h
      | exact testBit_andNot_imp h
      | exact testBit_andNot_imp (testBit_andNot_imp h)

theorem make_move_cr_subset (T : Zobrist) (pos : Position) (mv : Move) (b : ℕ)
    (h : ((pos.make_move T mv).castling_rights).testBit b = true) :
    pos.castling_rights.testBit b = true := by
  exact updateCastlingRights_subset pos.side_to_move pos.castling_rights mv b h

/-- C9: along any sequence of `make_move` calls, a castling-right bit that
is clear stays clear: `make_move` only ever removes rights (king moves,
rook moves from home, captures of a rook on its home square), so a cleared
right never reappears later in the sequence. -/
theorem c9_castling_rights_monotone (T : Zobrist) (pos : Position) (mvs : List Move)
    (b : ℕ) (h : pos.castling_rights.testBit b = false) :
    ((mvs.foldl (fun p mv => p.make_move T mv) pos).castling_rights).testBit b = false := by
  induction mvs generalizing pos with
  | nil => exact h
  | cons mv rest ih =>
    rw [List.foldl_cons]
    refine ih (pos.make_move T mv) ?_
    cases hc : ((pos.make_move T mv).castling_rights).testBit b with
    | false => rfl
    | true => rw [make_move_cr_subset T pos mv b hc] at h; cases h

def c9pos : Position :=
  (Position.from_fen T0 "r3k2r/8/8/8/8/8/8/R3K2R w kq - 0 1").toOption.getD Position.init

/-- Witness for C9 at a concrete position (white has already lost both
rights) and a concrete two-move sequence. -/
theorem c9_castling_rights_monotone_witness :
    c9pos.castling_rights.testBit 0 = false ∧
      ((([{ from_sq := 4, to_sq := 3, piece := 5 },
          { from_sq := 60, to_sq := 59, piece := 11 }] :
            List Move).foldl (fun p mv => p.make_move T0 mv) c9pos).castling_rights).testBit
        0 = false :=
  ⟨by decide, c9_castling_rights_monotone T0 c9pos _ 0 (by decide)⟩

/-! ## C4: mobility score -/

/-- Modelled from the claim (spec 4.E, Mobility): for the knights, bishops,
rooks and queens of each colour, count the attack-mask bits excluding the
squares occupied by that colour's own pieces (sliders computed against the
live `all_occupancy`); the score is `2 * (white_mobility - black_mobility)`
and does not depend on the side to move. -/
def mobilitySpecScore (pos : Position) : ℤ :=
  let occ := pos.all_occupancy
  let wm : ℤ :=
    ((bitIndices (pos.bb 1)).foldl (fun c sq =>
      c + (countBits (andNot (KNIGHT_ATTACKS sq) pos.white_occupancy) : ℤ)) 0) +
    ((bitIndices (pos.bb 2)).foldl (fun c sq =>
      c + (countBits (andNot (bishop_attacks sq occ) pos.white_occupancy) : ℤ)) 0) +
    ((bitIndices (pos.bb 3)).foldl (fun c sq =>
      c + (countBits (andNot (rook_attacks sq occ) pos.white_occupancy) : ℤ)) 0) +
    ((bitIndices (pos.bb 4)).foldl (fun c sq =>
      c + (countBits (andNot (queen_attacks sq occ) pos.white_occupancy) : ℤ)) 0)
  let bm : ℤ :=
    ((bitIndices (pos.bb 7)).foldl (fun c sq =>
      c + (countBits (andNot (KNIGHT_ATTACKS sq) pos.black_occupancy) : ℤ)) 0) +
    ((bitIndices (pos.bb 8)).foldl (fun c sq =>
      c + (countBits (andNot (bishop_attacks sq occ) pos.black_occupancy) : ℤ)) 0) +
    ((bitIndices (pos.bb 9)).foldl (fun c sq =>
      c + (countBits (andNot (rook_attacks sq occ) pos.black_occupancy) : ℤ)) 0) +
    ((bitIndices (pos.bb 10)).foldl (fun c sq =>
      c + (countBits (andNot (queen_attacks sq occ) pos.black_occupancy) : ℤ)) 0)
  2 * (wm - bm)

/-- White: Nb1, Pd2, Ke1; black: Ke8; black to move.  The white knight on
b1 attacks a3, c3 and d2; d2 holds white's own pawn. -/
def c4posB : Position :=
  (Position.from_fen T0 "4k3/8/8/8/8/8/3P4/1N2K3 b - - 0 1").toOption.getD Position.init

/-- The same board with white to move (only the side-to-move field
differs; `_mobility_score` reads nothing else that changes). -/
def c4posW : Position := { c4posB with side_to_move := WHITE }

/-- C4: the code's mobility score is NOT `2 * (white - black)` with each
side's own pieces excluded, and it depends on the side to move.  With black
to move the source's `own, opp = opp, own` swap makes the white piece loops
exclude the *black* occupancy (the swapped `opp` is never used), so the
white knight's attack on its own pawn d2 is wrongly counted: the code gives
6 where the claimed formula gives 4, and flipping only the side to move
changes the code's answer back to 4. -/
theorem c4_mobility_score_bug :
    _mobility_score c4posB = 6 ∧ _mobility_score c4posW = 4 ∧
      mobilitySpecScore c4posB = 4 ∧ mobilitySpecScore c4posW = 4 ∧
      c4posW = { c4posB with side_to_move := WHITE } := by
  refine ⟨by decide, by decide, by decide, by decide, rfl⟩

/-! ## C10: quiescence search is fail-hard -/

theorem qsLoopGo_fail_hard (T : Zobrist)
    (qs : SearchState → Position → ℤ → ℤ → ℤ × SearchState)
    (hqs : ∀ st p (a b : ℤ), a ≤ b → a ≤ (qs st p a b).1 ∧ (qs st p a b).1 ≤ b)
    (pos : Position) (beta : ℤ) :
    ∀ (moves : List Move) (st : SearchState) (alpha : ℤ), alpha ≤ beta →
      alpha ≤ (qsLoopGo T qs pos beta moves st alpha).1 ∧
        (qsLoopGo T qs pos beta moves st alpha).1 ≤ beta := by
  intro moves
  induction moves with
  | nil =>
    intro st alpha h
    simp only [qsLoopGo]
    exact ⟨le_refl _, h⟩
  | cons mv rest ih =>
    intro st alpha h
    simp only [qsLoopGo]
    by_cases hskip : mv.promotion = none ∧ _get_see_score pos mv < 0
    · rw [if_pos hskip]
      exact ih st alpha h
    · rw [if_neg hskip]
      have hc := hqs st (pos.make_move T mv) (-beta) (-alpha) (by omega)
      by_cases hbeta : -(qs st (pos.make_move T mv) (-beta) (-alpha)).1 ≥ beta
      · rw [if_pos hbeta]
        exact ⟨h, le_refl beta⟩
      · rw [if_neg hbeta]
        have h2 : (if -(qs st (pos.make_move T mv) (-beta) (-alpha)).1 > alpha then
            -(qs st (pos.make_move T mv) (-beta) (-alpha)).1 else alpha) ≤ beta := by
          split <;> omega
        have hres := ih (qs st (pos.make_move T mv) (-beta) (-alpha)).2 _ h2
        refine ⟨le_trans ?_ hres.1, hres.2⟩
        split <;> omega

/-- C10: `qsearch` is fail-hard: whenever `alpha ≤ beta`, the returned
value lies in `[alpha, beta]` (it is `beta` on a stand-pat or recursive
beta cutoff, `alpha` on the stop/timeout abort and on exhausted fuel, and
otherwise the possibly-raised alpha). -/
theorem c10_qsearch_fail_hard (T : Zobrist) (oracle : Option (ℕ → Bool)) :
    ∀ (fuel : ℕ) (st : SearchState) (pos : Position) (alpha beta : ℤ), alpha ≤ beta →
      alpha ≤ (qsearch T oracle fuel st pos alpha beta).1 ∧
        (qsearch T oracle fuel st pos alpha beta).1 ≤ beta := by
  intro fuel
  induction fuel with
  | zero =>
    intro st pos alpha beta h
    simp only [qsearch]
    exact ⟨le_refl _, h⟩
  | succ f ih =>
    intro st pos alpha beta h
    simp only [qsearch]
    split
    · exact ⟨le_refl _, h⟩
    · by_cases hsp : evaluate pos ≥ beta
      · rw [if_pos hsp]
        exact ⟨h, le_refl beta⟩
      · rw [if_neg hsp]
        have h2 : (if alpha < evaluate pos then evaluate pos else alpha) ≤ beta := by
          split <;> omega
        constructor
        · refine le_trans (show alpha ≤ (if alpha < evaluate pos then evaluate pos else alpha) by
            split <;> omega) ?_
          exact (qsLoopGo_fail_hard T (qsearch T oracle f)
            (fun st2 p a b hab => ih st2 p a b hab) pos beta _ _ _ h2).1
        · exact (qsLoopGo_fail_hard T (qsearch T oracle f)
            (fun st2 p a b hab => ih st2 p a b hab) pos beta _ _ _ h2).2

def c10pos : Position :=
  (Position.from_fen T0 "4k3/8/8/3n4/8/2N5/8/4K3 w - - 0 1").toOption.getD Position.init

/-- Witness for C10 at a concrete position and window. -/
theorem c10_qsearch_fail_hard_witness :
    (5 : ℤ) ≤ 7 ∧
      (5 : ℤ) ≤ (qsearch T0 none 4 SearchState.init c10pos 5 7).1 ∧
        (qsearch T0 none 4 SearchState.init c10pos 5 7).1 ≤ 7 :=
  ⟨by decide,
    (c10_qsearch_fail_hard T0 none 4 SearchState.init c10pos 5 7 (by decide)).1,
    (c10_qsearch_fail_hard T0 none 4 SearchState.init c10pos 5 7 (by decide)).2⟩

/-! ## C7: slider attack correctness -/

theorem testBit_scanRay (occ : ℕ) :
    ∀ (l : List ℕ) (t : ℕ),
      ((scanRay occ l).testBit t = true ↔
        ∃ i, i < l.length ∧ l.getD i 0 = t ∧
          ∀ j, j < i → occ.testBit (l.getD j 0) = false) := by
  intro l
  induction l with
  | nil =>
    intro t
    simp [scanRay]
  | cons s rest ih =>
    intro t
    simp only [scanRay]
    rw [Nat.testBit_or, testBit_bit1]
    by_cases hocc : occ.testBit s = true
    · rw [if_pos hocc]
      simp only [Nat.zero_testBit, Bool.or_false]
      constructor
      · intro h
        refine ⟨0, by simp, by simpa using of_decide_eq_true h, by omega⟩
      · rintro ⟨i, hi, hget, hall⟩
        cases i with
        | zero =>
          simp only [List.getD_cons_zero] at hget
          exact decide_eq_true (by omega)
        | succ i2 =>
          have h0 := hall 0 (by omega)
          simp only [List.getD_cons_zero] at h0
          rw [hocc] at h0
          cases h0
    · rw [if_neg hocc]
      rw [Bool.or_eq_true, decide_eq_true_eq, ih t]
      constructor
      · rintro (hst | ⟨i, hi, hget, hall⟩)
        · exact ⟨0, by simp, by simpa using hst, by omega⟩
        · refine ⟨i + 1, by simpa using hi, by simpa using hget, ?_⟩
          intro j hj
          cases j with
          | zero => simpa using (Bool.not_eq_true _).mp hocc
          | succ j2 => simpa using hall j2 (by omega)
      · rintro ⟨i, hi, hget, hall⟩
        cases i with
        | zero =>
          exact Or.inl (by simpa using hget)
        | succ i2 =>
          refine Or.inr ⟨i2, by simpa using hi, by simpa using hget, ?_⟩
          intro j hj
          simpa using hall (j + 1) (by omega)

theorem getD_map_range (n : ℕ) (f : ℕ → ℕ) (i : ℕ) (hi : i < n) :
    (((List.range n).map f).getD i 0) = f i := by
  simp [List.getD, List.get?_map, List.getElem?_range hi]

theorem eastRay_char (sq occ t : ℕ) (hsq : sq < 64) :
    ((scanRay occ (eastRay sq)).testBit t = true ↔
      (t / 8 = sq / 8 ∧ sq % 8 < t % 8 ∧
        ∀ u, u / 8 = sq / 8 → sq % 8 < u % 8 → u % 8 < t % 8 →
          occ.testBit u = false)) := by
  rw [testBit_scanRay]
  unfold eastRay
  simp only [List.length_map, List.length_range]
  constructor
  · rintro ⟨i, hi, hget, hall⟩
    rw [getD_map_range _ _ _ hi] at hget
    refine ⟨by omega, by omega, ?_⟩
    intro u hu1 hu2 hu3
    have h2 := hall (u % 8 - sq % 8 - 1) (by omega)
    rw [getD_map_range _ _ _ (by omega)] at h2
    have hj : u = sq + (u % 8 - sq % 8 - 1 + 1) := by omega
    rwa [← hj] at h2
  · rintro ⟨h1, h2, hall⟩
    have ht8 : t % 8 < 8 := Nat.mod_lt _ (by omega)
    refine ⟨t % 8 - sq % 8 - 1, by omega, ?_, ?_⟩
    · rw [getD_map_range _ _ _ (by omega)]
      omega
    · intro j hj
      rw [getD_map_range _ _ _ (by omega)]
      exact hall (sq + (j + 1)) (by omega) (by omega) (by omega)

theorem westRay_char (sq occ t : ℕ) (hsq : sq < 64) :
    ((scanRay occ (westRay sq)).testBit t = true ↔
      (t / 8 = sq / 8 ∧ t % 8 < sq % 8 ∧
        ∀ u, u / 8 = sq / 8 → t % 8 < u % 8 → u % 8 < sq % 8 →
          occ.testBit u = false)) := by
  rw [testBit_scanRay]
  unfold westRay
  simp only [List.length_map, List.length_range]
  constructor
  · rintro ⟨i, hi, hget, hall⟩
    rw [getD_map_range _ _ _ hi] at hget
    refine ⟨by omega, by omega, ?_⟩
    intro u hu1 hu2 hu3
    have h2 := hall (sq % 8 - u % 8 - 1) (by omega)
    rw [getD_map_range _ _ _ (by omega)] at h2
    have hj : u = sq - (sq % 8 - u % 8 - 1 + 1) := by omega
    rwa [← hj] at h2
  · rintro ⟨h1, h2, hall⟩
    refine ⟨sq % 8 - t % 8 - 1, by omega, ?_, ?_⟩
    · rw [getD_map_range _ _ _ (by omega)]
      omega
    · intro j hj
      rw [getD_map_range _ _ _ (by omega)]
      exact hall (sq - (j + 1)) (by omega) (by omega) (by omega)

theorem northRay_char (sq occ t : ℕ) (hsq : sq < 64) :
    ((scanRay occ (northRay sq)).testBit t = true ↔
      (t < 64 ∧ t % 8 = sq % 8 ∧ sq / 8 < t / 8 ∧
        ∀ u, u % 8 = sq % 8 → sq / 8 < u / 8 → u / 8 < t / 8 →
          occ.testBit u = false)) := by
  rw [testBit_scanRay]
  unfold northRay
  simp only [List.length_map, List.length_range]
  constructor
  · rintro ⟨i, hi, hget, hall⟩
    rw [getD_map_range _ _ _ hi] at hget
    refine ⟨by omega, by omega, by omega, ?_⟩
    intro u hu1 hu2 hu3
    have h2 := hall (u / 8 - sq / 8 - 1) (by omega)
    rw [getD_map_range _ _ _ (by omega)] at h2
    have hj : u = sq + 8 * (u / 8 - sq / 8 - 1 + 1) := by omega
    rwa [← hj] at h2
  · rintro ⟨h0, h1, h2, hall⟩
    refine ⟨t / 8 - sq / 8 - 1, by omega, ?_, ?_⟩
    · rw [getD_map_range _ _ _ (by omega)]
      omega
    · intro j hj
      rw [getD_map_range _ _ _ (by omega)]
      exact hall (sq + 8 * (j + 1)) (by omega) (by omega) (by omega)

theorem southRay_char (sq occ t : ℕ) (hsq : sq < 64) :
    ((scanRay occ (southRay sq)).testBit t = true ↔
      (t % 8 = sq % 8 ∧ t / 8 < sq / 8 ∧
        ∀ u, u % 8 = sq % 8 → t / 8 < u / 8 → u / 8 < sq / 8 →
          occ.testBit u = false)) := by
  rw [testBit_scanRay]
  unfold southRay
  simp only [List.length_map, List.length_range]
  constructor
  · rintro ⟨i, hi, hget, hall⟩
    rw [getD_map_range _ _ _ hi] at hget
    refine ⟨by omega, by omega, ?_⟩
    intro u hu1 hu2 hu3
    have h2 := hall (sq / 8 - u / 8 - 1) (by omega)
    rw [getD_map_range _ _ _ (by omega)] at h2
    have hj : u = sq - 8 * (sq / 8 - u / 8 - 1 + 1) := by omega
    rwa [← hj] at h2
  · rintro ⟨h1, h2, hall⟩
    refine ⟨sq / 8 - t / 8 - 1, by omega, ?_, ?_⟩
    · rw [getD_map_range _ _ _ (by omega)]
      omega
    · intro j hj
      rw [getD_map_range _ _ _ (by omega)]
      exact hall (sq - 8 * (j + 1)) (by omega) (by omega) (by omega)

theorem neRay_char (sq occ t : ℕ) (hsq : sq < 64) :
    ((scanRay occ (neRay sq)).testBit t = true ↔
      (t < 64 ∧ sq % 8 < t % 8 ∧ sq / 8 < t / 8 ∧
        t % 8 - sq % 8 = t / 8 - sq / 8 ∧
        ∀ u, sq % 8 < u % 8 → u % 8 < t % 8 → sq / 8 < u / 8 →
          u % 8 - sq % 8 = u / 8 - sq / 8 → occ.testBit u = false)) := by
  rw [testBit_scanRay]
  unfold neRay
  simp only [List.length_map, List.length_range]
  constructor
  · rintro ⟨i, hi, hget, hall⟩
    rw [Nat.lt_min] at hi
    rw [getD_map_range _ _ _ (by rw [Nat.lt_min]; omega)] at hget
    refine ⟨by omega, by omega, by omega, by omega, ?_⟩
    intro u hu1 hu2 hu3 hu4
    have h2 := hall (u % 8 - sq % 8 - 1) (by omega)
    rw [getD_map_range _ _ _ (by rw [Nat.lt_min]; omega)] at h2
    have hj : u = sq + 9 * (u % 8 - sq % 8 - 1 + 1) := by omega
    rwa [← hj] at h2
  · rintro ⟨h0, h1, h2, h3, hall⟩
    refine ⟨t % 8 - sq % 8 - 1, by rw [Nat.lt_min]; omega, ?_, ?_⟩
    · rw [getD_map_range _ _ _ (by rw [Nat.lt_min]; omega)]
      omega
    · intro j hj
      rw [getD_map_range _ _ _ (by rw [Nat.lt_min]; omega)]
      exact hall (sq + 9 * (j + 1)) (by omega) (by omega) (by omega) (by omega)

theorem nwRay_char (sq occ t : ℕ) (hsq : sq < 64) :
    ((scanRay occ (nwRay sq)).testBit t = true ↔
      (t < 64 ∧ t % 8 < sq % 8 ∧ sq / 8 < t / 8 ∧
        sq % 8 - t % 8 = t / 8 - sq / 8 ∧
        ∀ u, t % 8 < u % 8 → u % 8 < sq % 8 → sq / 8 < u / 8 →
          sq % 8 - u % 8 = u / 8 - sq / 8 → occ.testBit u = false)) := by
  rw [testBit_scanRay]
  unfold nwRay
  simp only [List.length_map, List.length_range]
  constructor
  · rintro ⟨i, hi, hget, hall⟩
    rw [Nat.lt_min] at hi
    rw [getD_map_range _ _ _ (by rw [Nat.lt_min]; omega)] at hget
    refine ⟨by omega, by omega, by omega, by omega, ?_⟩
    intro u hu1 hu2 hu3 hu4
    have h2 := hall (sq % 8 - u % 8 - 1) (by omega)
    rw [getD_map_range _ _ _ (by rw [Nat.lt_min]; omega)] at h2
    have hj : u = sq + 7 * (sq % 8 - u % 8 - 1 + 1) := by omega
    rwa [← hj] at h2
  · rintro ⟨h0, h1, h2, h3, hall⟩
    refine ⟨sq % 8 - t % 8 - 1, by rw [Nat.lt_min]; omega, ?_, ?_⟩
    · rw [getD_map_range _ _ _ (by rw [Nat.lt_min]; omega)]
      omega
    · intro j hj
      rw [getD_map_range _ _ _ (by rw [Nat.lt_min]; omega)]
      exact hall (sq + 7 * (j + 1)) (by omega) (by omega) (by omega) (by omega)

theorem seRay_char (sq occ t : ℕ) (hsq : sq < 64) :
    ((scanRay occ (seRay sq)).testBit t = true ↔
      (sq % 8 < t % 8 ∧ t / 8 < sq / 8 ∧
        t % 8 - sq % 8 = sq / 8 - t / 8 ∧
        ∀ u, sq % 8 < u % 8 → u % 8 < t % 8 → u / 8 < sq / 8 →
          u % 8 - sq % 8 = sq / 8 - u / 8 → occ.testBit u = false)) := by
  rw [testBit_scanRay]
  unfold seRay
  simp only [List.length_map, List.length_range]
  constructor
  · rintro ⟨i, hi, hget, hall⟩
    rw [Nat.lt_min] at hi
    rw [getD_map_range _ _ _ (by rw [Nat.lt_min]; omega)] at hget
    have hadd : t + 7 * (i + 1) = sq := by omega
    refine ⟨by omega, by omega, by omega, ?_⟩
    intro u hu1 hu2 hu3 hu4
    have h2 := hall (u % 8 - sq % 8 - 1) (by omega)
    rw [getD_map_range _ _ _ (by rw [Nat.lt_min]; omega)] at h2
    have hj : u = sq - 7 * (u % 8 - sq % 8 - 1 + 1) := by omega
    rwa [← hj] at h2
  · rintro ⟨h1, h2, h3, hall⟩
    refine ⟨t % 8 - sq % 8 - 1, by rw [Nat.lt_min]; omega, ?_, ?_⟩
    · rw [getD_map_range _ _ _ (by rw [Nat.lt_min]; omega)]
      omega
    · intro j hj
      rw [getD_map_range _ _ _ (by rw [Nat.lt_min]; omega)]
      exact hall (sq - 7 * (j + 1)) (by omega) (by omega) (by omega) (by omega)

theorem swRay_char (sq occ t : ℕ) (hsq : sq < 64) :
    ((scanRay occ (swRay sq)).testBit t = true ↔
      (t % 8 < sq % 8 ∧ t / 8 < sq / 8 ∧
        sq % 8 - t % 8 = sq / 8 - t / 8 ∧
        ∀ u, t % 8 < u % 8 → u % 8 < sq % 8 → u / 8 < sq / 8 →
          sq % 8 - u % 8 = sq / 8 - u / 8 → occ.testBit u = false)) := by
  rw [testBit_scanRay]
  unfold swRay
  simp only [List.length_map, List.length_range]
  constructor
  · rintro ⟨i, hi, hget, hall⟩
    rw [Nat.lt_min] at hi
    rw [getD_map_range _ _ _ (by rw [Nat.lt_min]; omega)] at hget
    have hadd : t + 9 * (i + 1) = sq := by omega
    refine ⟨by omega, by omega, by omega, ?_⟩
    intro u hu1 hu2 hu3 hu4
    have h2 := hall (sq % 8 - u % 8 - 1) (by omega)
    rw [getD_map_range _ _ _ (by rw [Nat.lt_min]; omega)] at h2
    have hj : u = sq - 9 * (sq % 8 - u % 8 - 1 + 1) := by omega
    rwa [← hj] at h2
  · rintro ⟨h1, h2, h3, hall⟩
    refine ⟨sq % 8 - t % 8 - 1, by rw [Nat.lt_min]; omega, ?_, ?_⟩
    · rw [getD_map_range _ _ _ (by rw [Nat.lt_min]; omega)]
      omega
    · intro j hj
      rw [getD_map_range _ _ _ (by rw [Nat.lt_min]; omega)]
      exact hall (sq - 9 * (j + 1)) (by omega) (by omega) (by omega) (by omega)

/-- From the spec (4.A): `t` is a different on-board square on one of the
four orthogonal rays from `s` (shared rank or shared file). -/
def onRookRay (s t : ℕ) : Prop :=
  t < 64 ∧ t ≠ s ∧ (t / 8 = s / 8 ∨ t % 8 = s % 8)

/-- From the spec (4.A): `u` lies strictly between `s` and `t` on their
shared rank or file. -/
def rookBetween (s t u : ℕ) : Prop :=
  (t / 8 = s / 8 ∧ u / 8 = s / 8 ∧
    min (s % 8) (t % 8) < u % 8 ∧ u % 8 < max (s % 8) (t % 8)) ∨
  (t % 8 = s % 8 ∧ u % 8 = s % 8 ∧
    min (s / 8) (t / 8) < u / 8 ∧ u / 8 < max (s / 8) (t / 8))

/-- From the spec (4.A): `t` is a different on-board square on one of the
four diagonal rays from `s` (shared difference or shared sum of file and
rank). -/
def onBishopRay (s t : ℕ) : Prop :=
  t < 64 ∧ t ≠ s ∧ (t % 8 + s / 8 = s % 8 + t / 8 ∨ t % 8 + t / 8 = s % 8 + s / 8)

/-- From the spec (4.A): `u` lies strictly between `s` and `t` on their
shared diagonal. -/
def bishopBetween (s t u : ℕ) : Prop :=
  (t % 8 + s / 8 = s % 8 + t / 8 ∧ u % 8 + s / 8 = s % 8 + u / 8 ∧
    min (s % 8) (t % 8) < u % 8 ∧ u % 8 < max (s % 8) (t % 8)) ∨
  (t % 8 + t / 8 = s % 8 + s / 8 ∧ u % 8 + u / 8 = s % 8 + s / 8 ∧
    min (s % 8) (t % 8) < u % 8 ∧ u % 8 < max (s % 8) (t % 8))

theorem rook_attacks_char (sq occ t : ℕ) (hsq : sq < 64) :
    ((rook_attacks sq occ).testBit t = true ↔
      (onRookRay sq t ∧ ∀ u, rookBetween sq t u → occ.testBit u = false)) := by
  unfold rook_attacks
  rw [Nat.testBit_or, Nat.testBit_or, Nat.testBit_or]
  rw [Bool.or_eq_true, Bool.or_eq_true, Bool.or_eq_true]
  rw [eastRay_char sq occ t hsq, westRay_char sq occ t hsq, northRay_char sq occ t hsq,
    southRay_char sq occ t hsq]
  unfold onRookRay rookBetween
  constructor
  · rintro (((⟨h1, h2, hall⟩ | ⟨h1, h2, hall⟩) | ⟨h0, h1, h2, hall⟩) | ⟨h1, h2, hall⟩)
    · refine ⟨⟨by omega, by omega, Or.inl h1⟩, ?_⟩
      rintro u (⟨hb1, hb2, hb3, hb4⟩ | ⟨hb1, hb2, hb3, hb4⟩)
      · exact hall u (by omega) (by omega) (by omega)
      · exact absurd hb1 (by omega)
    · refine ⟨⟨by omega, by omega, Or.inl h1⟩, ?_⟩
      rintro u (⟨hb1, hb2, hb3, hb4⟩ | ⟨hb1, hb2, hb3, hb4⟩)
      · exact hall u (by omega) (by omega) (by omega)
      · exact absurd hb1 (by omega)
    · refine ⟨⟨by omega, by omega, Or.inr h1⟩, ?_⟩
      rintro u (⟨hb1, hb2, hb3, hb4⟩ | ⟨hb1, hb2, hb3, hb4⟩)
      · exact absurd hb1 (by omega)
      · exact hall u (by omega) (by omega) (by omega)
    · refine ⟨⟨by omega, by omega, Or.inr h1⟩, ?_⟩
      rintro u (⟨hb1, hb2, hb3, hb4⟩ | ⟨hb1, hb2, hb3, hb4⟩)
      · exact absurd hb1 (by omega)
      · exact hall u (by omega) (by omega) (by omega)
  · rintro ⟨⟨ht64, hne, hray | hray⟩, hbet⟩
    · rcases Nat.lt_trichotomy (sq % 8) (t % 8) with hf | hf | hf
      · refine Or.inl (Or.inl (Or.inl ⟨hray, hf, ?_⟩))
        intro u hu1 hu2 hu3
        exact hbet u (Or.inl ⟨hray, by omega, by omega, by omega⟩)
      · exact (hne (by omega)).elim
      · refine Or.inl (Or.inl (Or.inr ⟨hray, hf, ?_⟩))
        intro u hu1 hu2 hu3
        exact hbet u (Or.inl ⟨hray, by omega, by omega, by omega⟩)
    · rcases Nat.lt_trichotomy (sq / 8) (t / 8) with hr | hr | hr
      · refine Or.inl (Or.inr ⟨ht64, hray, hr, ?_⟩)
        intro u hu1 hu2 hu3
        exact hbet u (Or.inr ⟨hray, by omega, by omega, by omega⟩)
      · exact (hne (by omega)).elim
      · refine Or.inr ⟨hray, hr, ?_⟩
        intro u hu1 hu2 hu3
        exact hbet u (Or.inr ⟨hray, by omega, by omega, by omega⟩)

theorem bishop_attacks_char (sq occ t : ℕ) (hsq : sq < 64) :
    ((bishop_attacks sq occ).testBit t = true ↔
      (onBishopRay sq t ∧ ∀ u, bishopBetween sq t u → occ.testBit u = false)) := by
  unfold bishop_attacks
  rw [Nat.testBit_or, Nat.testBit_or, Nat.testBit_or]
  rw [Bool.or_eq_true, Bool.or_eq_true, Bool.or_eq_true]
  rw [neRay_char sq occ t hsq, nwRay_char sq occ t hsq, seRay_char sq occ t hsq,
    swRay_char sq occ t hsq]
  unfold onBishopRay bishopBetween
  constructor
  · rintro (((⟨h0, h1, h2, h3, hall⟩ | ⟨h0, h1, h2, h3, hall⟩) | ⟨h1, h2, h3, hall⟩) |
      ⟨h1, h2, h3, hall⟩)
    · refine ⟨⟨by omega, by omega, Or.inl (by omega)⟩, ?_⟩
      rintro u (⟨hb1, hb2, hb3, hb4⟩ | ⟨hb1, hb2, hb3, hb4⟩)
      · exact hall u (by omega) (by omega) (by omega) (by omega)
      · exact absurd hb1 (by omega)
    · refine ⟨⟨by omega, by omega, Or.inr (by omega)⟩, ?_⟩
      rintro u (⟨hb1, hb2, hb3, hb4⟩ | ⟨hb1, hb2, hb3, hb4⟩)
      · exact absurd hb1 (by omega)
      · exact hall u (by omega) (by omega) (by omega) (by omega)
    · refine ⟨⟨by omega, by omega, Or.inr (by omega)⟩, ?_⟩
      rintro u (⟨hb1, hb2, hb3, hb4⟩ | ⟨hb1, hb2, hb3, hb4⟩)
      · exact absurd hb1 (by omega)
      · exact hall u (by omega) (by omega) (by omega) (by omega)
    · refine ⟨⟨by omega, by omega, Or.inl (by omega)⟩, ?_⟩
      rintro u (⟨hb1, hb2, hb3, hb4⟩ | ⟨hb1, hb2, hb3, hb4⟩)
      · exact hall u (by omega) (by omega) (by omega) (by omega)
      · exact absurd hb1 (by omega)
  · rintro ⟨⟨ht64, hne, hray | hray⟩, hbet⟩
    · rcases Nat.lt_trichotomy (sq % 8) (t % 8) with hf | hf | hf
      · refine Or.inl (Or.inl (Or.inl ⟨ht64, hf, by omega, by omega, ?_⟩))
        intro u hu1 hu2 hu3 hu4
        exact hbet u (Or.inl ⟨hray, by omega, by omega, by omega⟩)
      · exact (hne (by omega)).elim
      · refine Or.inr ⟨hf, by omega, by omega, ?_⟩
        intro u hu1 hu2 hu3 hu4
        exact hbet u (Or.inl ⟨hray, by omega, by omega, by omega⟩)
    · rcases Nat.lt_trichotomy (sq % 8) (t % 8) with hf | hf | hf
      · refine Or.inl (Or.inr ⟨hf, by omega, by omega, ?_⟩)
        intro u hu1 hu2 hu3 hu4
        exact hbet u (Or.inr ⟨hray, by omega, by omega, by omega⟩)
      · exact (hne (by omega)).elim
      · refine Or.inl (Or.inl (Or.inr ⟨ht64, hf, by omega, by omega, ?_⟩))
        intro u hu1 hu2 hu3 hu4
        exact hbet u (Or.inr ⟨hray, by omega, by omega, by omega⟩)

/-- C7: for every square and occupancy, `rook_attacks` holds exactly the
squares on the four orthogonal rays up to and including the first occupied
square (no square beyond a blocker), and `bishop_attacks` the same for the
four diagonal rays. -/
theorem c7_slider_attacks_correct (sq : ℕ) (hsq : sq < 64) (occ t : ℕ) :
    (((rook_attacks sq occ).testBit t = true ↔
      (onRookRay sq t ∧ ∀ u, rookBetween sq t u → occ.testBit u = false)) ∧
     ((bishop_attacks sq occ).testBit t = true ↔
      (onBishopRay sq t ∧ ∀ u, bishopBetween sq t u → occ.testBit u = false))) :=
  ⟨rook_attacks_char sq occ t hsq, bishop_attacks_char sq occ t hsq⟩

/-- Witness for C7: rook on a1, blocker on a2; a3 is attacked iff it is on
the ray with the square between clear (it is not, a2 blocks), and the
instance evaluates accordingly. -/
theorem c7_slider_attacks_correct_witness :
    (0 : ℕ) < 64 ∧
      (((rook_attacks 0 256).testBit 8 = true ↔
        (onRookRay 0 8 ∧ ∀ u, rookBetween 0 8 u → (256 : ℕ).testBit u = false)) ∧
       ((bishop_attacks 0 256).testBit 8 = true ↔
        (onBishopRay 0 8 ∧ ∀ u, bishopBetween 0 8 u → (256 : ℕ).testBit u = false))) :=
  ⟨by decide, c7_slider_attacks_correct 0 (by decide) 256 8⟩

/-- White queen c8 and king b6 stalemate the black king a8; the black
knight b8 is pinned along the eighth rank. -/
def c8stale : Position :=
  (Position.from_fen T0 "knQ5/8/1K6/8/8/8/8/8 b - - 0 1").toOption.getD Position.init

/-- Black king a8 checkmated by the white queen b7 defended by the king b6. -/
def c8mate : Position :=
  (Position.from_fen T0 "k7/1Q6/1K6/8/8/8/8/8 b - - 0 1").toOption.getD Position.init

/-- C8, counterexample to the unrestricted claim: at `depth = 0` the node
takes the quiescence path before the legal-move list is ever generated, so
a stalemate node (empty legal list, not in check) returns the quiescence
value `5` of the window `[5, 7]` instead of the claimed `0`. -/
theorem c8_counterexample :
    generate_legal_moves T0 c8stale = [] ∧
    _in_check c8stale = false ∧
    (alphabeta T0 none 4 SearchState.init c8stale 0 5 7 0).1 = 5 ∧
    (5 : ℤ) ≠ 0 := by decide

/-- C8 (amended): if the stop flag is clear, there is no deadline, the
transposition table holds no entry for this position's key, `depth ≥ 1`,
and the null-move guard does not fire (the side is in check, or
`depth < 2`, or it has no non-pawn material), then a node with an empty
legal move list returns `-MATE_SCORE + ply` when in check and `0`
otherwise. -/
theorem c8_no_legal_terminal (T : Zobrist) (fuel : ℕ) (st : SearchState)
    (pos : Position) (depth alpha beta : ℤ) (ply : ℕ)
    (hstop : st.stop_requested = false)
    (htt : dictGet st.tt pos.zobrist = none)
    (hdepth : 1 ≤ depth)
    (hnull : _in_check pos = true ∨ depth < 2 ∨
      _has_non_pawn_material pos pos.side_to_move = false)
    (hlegal : generate_legal_moves T pos = []) :
    (alphabeta T none (fuel + 1) st pos depth alpha beta ply).1 =
      (if _in_check pos = true then -MATE_SCORE + (ply : ℤ) else 0) := by
  rw [alphabeta]
  rw [if_neg (by simp [hstop])]
  rw [if_neg (by simp)]
  have htt2 : dictGet ({ st with nodes := st.nodes + 1 } : SearchState).tt
      pos.zobrist = none := htt
  simp only [htt2]
  rw [abRestGo]
  rw [if_neg (by omega)]
  have hguard : ¬(depth ≥ 2 ∧ _in_check pos = false ∧
      _has_non_pawn_material pos pos.side_to_move = true) := by
    rcases hnull with h | h | h
    · rintro ⟨-, h2, -⟩; rw [h] at h2; exact Bool.true_eq_false.mp h2 |>.elim
    · rintro ⟨h1, -, -⟩; omega
    · rintro ⟨-, -, h3⟩; rw [h] at h3; exact Bool.false_eq_true.mp h3 |>.elim
  rw [if_neg hguard]
  rw [abGenGo]
  simp only [hlegal, List.isEmpty_nil, if_true]
  by_cases hic : _in_check pos = true
  · simp [hic]
  · simp [hic]

/-- Witness for C8 on a concrete checkmate: black to move is mated, the
legal list is empty, and the search returns `-MATE_SCORE + ply` at
`ply = 3`. -/
theorem c8_no_legal_terminal_witness :
    SearchState.init.stop_requested = false ∧
    dictGet SearchState.init.tt c8mate.zobrist = none ∧
    (1 : ℤ) ≤ 1 ∧ _in_check c8mate = true ∧
    generate_legal_moves T0 c8mate = [] ∧
    (alphabeta T0 none 3 SearchState.init c8mate 1 (-MATE_SCORE) MATE_SCORE 3).1 =
      (if _in_check c8mate = true then -MATE_SCORE + ((3 : ℕ) : ℤ) else 0) :=
  ⟨rfl, rfl, by decide, by decide, by decide,
    c8_no_legal_terminal T0 2 SearchState.init c8mate 1 (-MATE_SCORE) MATE_SCORE 3
      rfl rfl (by decide) (Or.inl (by decide)) (by decide)⟩

def isErr {α : Type} (r : Except String α) : Bool :=
  match r with
  | .error _ => true
  | .ok _ => false

/-- Spec-side (error-handling section): the placement field is rejected
when it holds a character that is neither `/`, a digit, nor a piece
letter, or places a piece below the first rank (after too many `/`). -/
def placementBad : List Char → ℤ → ℕ → Bool
  | [], _, _ => false
  | ch :: rest, rank, file_idx =>
    if ch = '/' then placementBad rest (rank - 1) 0
    else if ch.isDigit then placementBad rest rank (file_idx + (ch.toNat - 48))
    else match PIECE_TO_INDEX ch with
      | none => true
      | some _ =>
        if _square_index (file_idx : ℤ) rank < 0 then true
        else placementBad rest rank (file_idx + 1)

/-- Spec-side (error-handling section): the placement field puts a piece
past square 63 (file or rank index overflow), where Python's 12 x 64
Zobrist key table raises `IndexError` inside `Zobrist.compute`. -/
def placementOverflow : List Char → ℤ → ℕ → Bool
  | [], _, _ => false
  | ch :: rest, rank, file_idx =>
    if ch = '/' then placementOverflow rest (rank - 1) 0
    else if ch.isDigit then placementOverflow rest rank (file_idx + (ch.toNat - 48))
    else match PIECE_TO_INDEX ch with
      | none => false
      | some _ =>
        let sq : ℤ := _square_index (file_idx : ℤ) rank
        if sq < 0 then false
        else decide (64 ≤ sq.toNat) || placementOverflow rest rank (file_idx + 1)

/-- Some bitboard of the parsed list has a set bit past square 63. -/
def anyOver (bbs : List ℕ) : Bool :=
  (List.range 12).any (fun p => decide (2 ^ 64 ≤ bbs.getD p 0))

/-- Spec-side: the exact failure condition of FEN parsing — wrong field
count, a bad placement field, an en-passant field other than `-` that is
shorter than two characters or whose second character is not a digit, a
clock field that is not an integer literal, or a placement that puts a
piece past square 63 (the `IndexError` raised inside the final
`Zobrist.compute` call). -/
def fenErrCond (s : String) : Bool :=
  match pySplit (pyStrip s.toList) with
  | [placement, _, _, ep, halfmove, fullmove] =>
    placementBad placement 8 0 ||
    (!decide (ep = ['-']) &&
      (decide (ep.length < 2) || !(ep.getD 1 ' ').isDigit)) ||
    isErr (pyInt halfmove) || isErr (pyInt fullmove) ||
    placementOverflow placement 8 0
  | _ => true

theorem placeLoop_isErr (cs : List Char) : ∀ (rank : ℤ) (file_idx : ℕ) (bbs : List ℕ),
    isErr (placeLoop cs rank file_idx bbs) = placementBad cs rank file_idx := by
  induction cs with
  | nil => intro rank file_idx bbs; rfl
  | cons ch rest ih =>
    intro rank file_idx bbs
    rw [placeLoop, placementBad]
    by_cases h1 : ch = '/'
    · simp only [h1, if_true]; exact ih _ _ _
    · rw [if_neg h1, if_neg h1]
      by_cases h2 : ch.isDigit = true
      · simp only [h2, if_true]; exact ih _ _ _
      · simp only [h2, Bool.false_eq_true, if_false]
        cases PIECE_TO_INDEX ch with
        | none => rfl
        | some p =>
          by_cases h3 : _square_index (file_idx : ℤ) rank < 0
          · simp only [h3, if_true]; rfl
          · simp only [h3, if_false]; exact ih _ _ _

theorem pyInt_single_isErr (c : Char) : isErr (pyInt [c]) = !c.isDigit := by
  by_cases h1 : c = '+'
  · subst h1; rfl
  by_cases h2 : c = '-'
  · subst h2; rfl
  have he : pyInt [c] = (match pyDigitsStart [c] with
      | some n => (.ok (n : ℤ) : Except String ℤ)
      | none => .error "ValueError: invalid literal for int") := by
    rw [pyInt.eq_def]
    split
    · next rest hh => injection hh with a b; exact absurd a h1
    · next rest hh => injection hh with a b; exact absurd a h2
    · rfl
  rw [he]
  by_cases hd : c.isDigit = true
  · have hs : pyDigitsStart [c] = some (c.toNat - 48) := by
      simp [pyDigitsStart, hd, pyDigitsAfter]
    rw [hs]; simp [isErr, hd]
  · have hs : pyDigitsStart [c] = none := by
      simp [pyDigitsStart, hd]
    rw [hs]; simp [isErr, hd]

theorem left_le_or (x y : ℕ) : x ≤ x ||| y := by
  apply Nat.le_of_testBit
  intro i h
  rw [Nat.testBit_or, h]
  rfl

theorem right_le_or (x y : ℕ) : y ≤ x ||| y := by
  apply Nat.le_of_testBit
  intro i h
  rw [Nat.testBit_or, h]
  simp

theorem overflow_setBit (bb s : ℕ) :
    2 ^ 64 ≤ setBit bb s ↔ (2 ^ 64 ≤ bb ∨ 64 ≤ s) := by
  unfold setBit bit1
  rw [Nat.shiftLeft_eq, one_mul]
  constructor
  · intro h
    by_contra hc
    push_neg at hc
    obtain ⟨h1, h2⟩ := hc
    have hp : (2 : ℕ) ^ s < 2 ^ 64 := Nat.pow_lt_pow_right (by norm_num) h2
    exact absurd (Nat.or_lt_two_pow h1 hp) (not_lt.mpr h)
  · intro h
    rcases h with h | h
    · exact le_trans h (left_le_or _ _)
    · exact le_trans (Nat.pow_le_pow_right (by norm_num) h) (right_le_or _ _)

theorem PIECE_TO_INDEX_lt {c : Char} {p : ℕ} (h : PIECE_TO_INDEX c = some p) :
    p < 12 := by
  unfold PIECE_TO_INDEX at h
  split_ifs at h <;> first
  | exact Option.noConfusion h
  | (injection h with h; omega)

theorem anyOver_set_setBit (bbs : List ℕ) (p s : ℕ) (hp : p < 12)
    (hlen : bbs.length = 12) :
    anyOver (bbs.set p (setBit (bbs.getD p 0) s)) =
      (anyOver bbs || decide (64 ≤ s)) := by
  have hset_eq : ∀ (x q : ℕ), (bbs.set p x).getD q 0 =
      if q = p then x else bbs.getD q 0 := by
    intro x q
    by_cases hqp : q = p
    · subst hqp
      rw [if_pos rfl, List.getD_eq_getElem?_getD, List.getElem?_set_self (hlen ▸ hp)]
      rfl
    · rw [if_neg hqp, List.getD_eq_getElem?_getD,
        List.getElem?_set_ne (fun hh => hqp hh.symm), ← List.getD_eq_getElem?_getD]
  rw [Bool.eq_iff_iff]
  simp only [anyOver, List.any_eq_true, List.mem_range, Bool.or_eq_true,
    decide_eq_true_eq]
  constructor
  · rintro ⟨q, hq, hover⟩
    rw [hset_eq _ q] at hover
    by_cases hqp : q = p
    · rw [if_pos hqp] at hover
      rcases (overflow_setBit _ _).mp hover with h | h
      · exact Or.inl ⟨p, hp, h⟩
      · exact Or.inr h
    · rw [if_neg hqp] at hover
      exact Or.inl ⟨q, hq, hover⟩
  · rintro (⟨q, hq, hover⟩ | hs)
    · refine ⟨q, hq, ?_⟩
      rw [hset_eq _ q]
      by_cases hqp : q = p
      · rw [if_pos hqp]
        subst hqp
        exact (overflow_setBit _ _).mpr (Or.inl hover)
      · rw [if_neg hqp]
        exact hover
    · refine ⟨p, hp, ?_⟩
      rw [hset_eq _ p, if_pos rfl]
      exact (overflow_setBit _ _).mpr (Or.inr hs)

theorem placeLoop_overflow (cs : List Char) :
    ∀ (rank : ℤ) (file_idx : ℕ) (bbs bbs2 : List ℕ), bbs.length = 12 →
    placeLoop cs rank file_idx bbs = .ok bbs2 →
    anyOver bbs2 = (anyOver bbs || placementOverflow cs rank file_idx) := by
  induction cs with
  | nil =>
    intro rank file_idx bbs bbs2 hlen h
    rw [placeLoop] at h
    injection h with h
    subst h
    rw [placementOverflow, Bool.or_false]
  | cons ch rest ih =>
    intro rank file_idx bbs bbs2 hlen h
    rw [placeLoop] at h
    rw [placementOverflow]
    by_cases h1 : ch = '/'
    · simp only [h1, if_true] at h ⊢
      exact ih _ _ _ _ hlen h
    · simp only [h1, if_false] at h ⊢
      by_cases h2 : ch.isDigit = true
      · simp only [h2, if_true] at h ⊢
        exact ih _ _ _ _ hlen h
      · simp only [h2, Bool.false_eq_true, if_false] at h ⊢
        cases hpi : PIECE_TO_INDEX ch with
        | none =>
          rw [hpi] at h
          exact absurd h (by simp)
        | some p =>
          rw [hpi] at h
          dsimp only at h ⊢
          by_cases h3 : _square_index (file_idx : ℤ) rank < 0
          · simp only [h3, if_true] at h
            exact absurd h (by simp)
          · simp only [h3, if_false] at h ⊢
            have hlen2 : (bbs.set p (setBit (bbs.getD p 0)
                (_square_index (file_idx : ℤ) rank).toNat)).length = 12 := by
              rw [List.length_set, hlen]
            rw [ih _ _ _ _ hlen2 h,
              anyOver_set_setBit bbs p _ (PIECE_TO_INDEX_lt hpi) hlen,
              Bool.or_assoc]

/-- C6, counterexample: the malformed en-passant field `z9` (no such
square exists) is accepted, because `_parse_square` only indexes the first
two characters and never range-checks; the parsed position carries the
off-board en-passant square 89. -/
theorem c6_counterexample :
    ((Position.from_fen T0 "8/8/8/8/8/8/8/8 w - z9 0 1").toOption.map
      Position.ep_square) = some (some 89) ∧ (64 : ℤ) ≤ 89 := by decide

/-- C6 (amended): `from_fen` fails exactly on a wrong field count, a
placement character that is neither slash, digit nor piece letter, a piece
placed below the first rank, an en-passant field other than `-` that is
shorter than two characters or whose second character is not a digit, or a
clock field that is not an integer literal; side-to-move and castling
fields are never rejected, and a malformed en-passant square with a digit
second character is accepted. -/
theorem c6_from_fen_error_iff (T : Zobrist) (s : String) :
    isErr (Position.from_fen T s) = fenErrCond s := by
  simp only [Position.from_fen, fenErrCond]
  generalize pySplit (pyStrip s.toList) = parts
  match parts with
  | [] => rfl
  | [a] => rfl
  | [a, b] => rfl
  | [a, b, c] => rfl
  | [a, b, c, d] => rfl
  | [a, b, c, d, e] => rfl
  | a :: b :: c :: d :: e :: f :: g :: rest => rfl
  | [placement, stm, castling, ep, halfmove, fullmove] =>
    dsimp only
    rw [← placeLoop_isErr placement 8 0 [0, 0, 0, 0, 0, 0, 0, 0, 0, 0, 0, 0]]
    cases hpl : placeLoop placement 8 0 [0, 0, 0, 0, 0, 0, 0, 0, 0, 0, 0, 0] with
    | error err => simp [Bind.bind, Except.bind, isErr]
    | ok bbs =>
      have hov : ((List.range 12).any fun p => decide (2 ^ 64 ≤ bbs.getD p 0)) =
          placementOverflow placement 8 0 := by
        have h0 := placeLoop_overflow placement 8 0
            [0, 0, 0, 0, 0, 0, 0, 0, 0, 0, 0, 0] bbs rfl hpl
        rw [show anyOver [0, 0, 0, 0, 0, 0, 0, 0, 0, 0, 0, 0] = false from rfl,
          Bool.false_or] at h0
        exact h0
      simp only [Bind.bind, Except.bind, isErr, Bool.false_or]
      by_cases hep : ep = ['-']
      · simp only [hep, if_pos, reduceIte, pure, Except.pure]
        simp only [decide_True, Bool.not_true, Bool.false_and, Bool.false_or]
        cases hhm : pyInt halfmove with
        | error err => rfl
        | ok hm =>
          cases hfm : pyInt fullmove with
          | error err => rfl
          | ok fm =>
            dsimp only
            rw [hov]
            cases hpo : placementOverflow placement 8 0 <;> simp [isErr]
      · rw [if_neg hep]
        match ep with
        | [] =>
          simp [_parse_square, isErr]
        | [c0] =>
          simp [_parse_square, isErr]
          exact Or.inl (Or.inl (Or.inl (by simpa using hep)))
        | c0 :: c1 :: eprest =>
          have hd : (!(([c0, c1] ++ eprest).getD 1 ' ').isDigit) = isErr (pyInt [c1]) := by
            rw [pyInt_single_isErr]; rfl
          simp only [List.cons_append, List.nil_append] at hd
          rw [hd]
          simp only [_parse_square]
          cases hpi : pyInt [c1] with
          | error err => simp [isErr]
          | ok v =>
            simp only [isErr, pure, Except.pure, Bool.and_false, Bool.false_or]
            cases hhm : pyInt halfmove with
            | error err => simp [isErr]
            | ok hm =>
              cases hfm : pyInt fullmove with
              | error err => simp [isErr]
              | ok fm =>
                dsimp only
                rw [hov]
                cases hpo : placementOverflow placement 8 0 <;> simp [isErr]

/-- White Nc3, black Nd5, kings e1/e8; white to move. -/
def c2pos : Position :=
  (Position.from_fen T0 "4k3/8/8/3n4/8/2N5/8/4K3 w - - 0 1").toOption.getD Position.init

/-- The legal capture Nc3xd5. -/
def c2mv : Move :=
  { from_sq := 18, to_sq := 35, piece := 1, capture_piece := some 7 }

def c2pos2 : Position := c2pos.make_move T0 c2mv

/-- C2: after the legal capture Nc3xd5 from a `from_fen` position the
incrementally maintained `(mg, eg, phase)` is `(332, 336, 3)` while
`eval_components` recomputed from scratch gives `(356, 344, 1)`.  The
`phase` drift is a sign slip: `apply_move_eval_delta` adds the captured
knight's phase weight instead of subtracting it (the recomputed phase
falls from 2 to 1, the incremental one rises to 3); `mg`/`eg` drift
because the increment tracks material and piece-square terms only while
`eval_components` also folds in mobility and king safety. -/
theorem c2_incremental_eval_bug :
    c2mv ∈ generate_legal_moves T0 c2pos ∧
    (c2pos.mg, c2pos.eg, c2pos.phase) = eval_components c2pos ∧
    (c2pos2.mg, c2pos2.eg, c2pos2.phase) = (332, 336, 3) ∧
    eval_components c2pos2 = (356, 344, 1) ∧
    game_phase_value c2pos = 2 ∧ game_phase_value c2pos2 = 1 := by decide

theorem getD_set_self {l : List ℕ} {i : ℕ} (x : ℕ) (h : i < l.length) :
    (l.set i x).getD i 0 = x := by
  rw [List.getD_eq_getElem?_getD, List.getElem?_set_self h]
  rfl

theorem getD_set_ne {l : List ℕ} {i j : ℕ} (x : ℕ) (h : i ≠ j) :
    (l.set i x).getD j 0 = l.getD j 0 := by
  rw [List.getD_eq_getElem?_getD, List.getElem?_set_ne h, ← List.getD_eq_getElem?_getD]

theorem set_getD_self {l : List ℕ} {i : ℕ} (h : i < l.length) :
    l.set i (l.getD i 0) = l := by
  have hx : l.getD i 0 = l.get ⟨i, h⟩ := by
    rw [List.getD_eq_getElem?_getD, List.getElem?_eq_getElem h]
    rfl
  rw [hx]
  apply List.ext_getElem
  · simp
  · intro n h1 h2
    by_cases hn : i = n
    · subst hn; simp
    · rw [List.getElem_set_ne hn]

theorem and_eq_zero_iff_testBit {x y : ℕ} :
    x &&& y = 0 ↔ ∀ s, ¬(x.testBit s = true ∧ y.testBit s = true) := by
  constructor
  · intro h s ⟨hx, hy⟩
    have : (x &&& y).testBit s = true := by rw [Nat.testBit_and, hx, hy]; rfl
    rw [h, Nat.zero_testBit] at this
    exact Bool.false_ne_true this
  · intro h
    refine Nat.eq_of_testBit_eq fun i => ?_
    rw [Nat.zero_testBit, Nat.testBit_and]
    cases hx : x.testBit i with
    | false => rfl
    | true =>
      cases hy : y.testBit i with
      | false => rfl
      | true => exact absurd ⟨hx, hy⟩ (h i)

/-- Spec §3: the en-passant invariants a reachable position satisfies — the
square is on the correct rank for the side to move, it is empty, and the
double-pushed enemy pawn stands in front of it. -/
def EpOk (pos : Position) : Prop :=
  match pos.ep_square with
  | none => True
  | some e =>
    pos.all_occupancy.testBit e.toNat = false ∧
    (pos.side_to_move = WHITE →
      40 ≤ e ∧ e < 48 ∧ (pos.bb 6).testBit (e.toNat - 8) = true) ∧
    (pos.side_to_move = BLACK →
      16 ≤ e ∧ e < 24 ∧ (pos.bb 0).testBit (e.toNat + 8) = true)

/-- Spec §3: the king of the side that just moved (the side not to move)
is not attacked — exactly the condition the legality filter enforces. -/
def OppKingSafe (pos : Position) : Prop :=
  (if pos.side_to_move = WHITE then
    is_square_attacked_by WHITE (topBit (pos.bb 11)) pos
  else
    is_square_attacked_by BLACK (topBit (pos.bb 5)) pos) = false

/-- Spec §3: the representation invariants of a reachable position: twelve
piece masks, occupancies derived from them, disjoint masks, a valid side to
move, both kings on the board, a consistent en-passant square, the
just-moved side's king not in check, and kings/rooks on their home squares
wherever a castling right remains. -/
def CrOk (pos : Position) : Prop :=
  (pos.castling_rights &&& CR_WK ≠ 0 →
    (pos.bb 5).testBit 4 = true ∧ (pos.bb 3).testBit 7 = true) ∧
  (pos.castling_rights &&& CR_WQ ≠ 0 →
    (pos.bb 5).testBit 4 = true ∧ (pos.bb 3).testBit 0 = true) ∧
  (pos.castling_rights &&& CR_BK ≠ 0 →
    (pos.bb 11).testBit 60 = true ∧ (pos.bb 9).testBit 63 = true) ∧
  (pos.castling_rights &&& CR_BQ ≠ 0 →
    (pos.bb 11).testBit 60 = true ∧ (pos.bb 9).testBit 56 = true)

def PosOk (pos : Position) : Prop :=
  pos.bitboards.length = 12 ∧
  pos.white_occupancy = whiteOccOf pos.bitboards ∧
  pos.black_occupancy = blackOccOf pos.bitboards ∧
  pos.all_occupancy = pos.white_occupancy ||| pos.black_occupancy ∧
  (pos.side_to_move = WHITE ∨ pos.side_to_move = BLACK) ∧
  (∀ p, p < 12 → ∀ q, q < 12 → p ≠ q → pos.bb p &&& pos.bb q = 0) ∧
  (∀ p, p < 12 → pos.bb p < 2 ^ 64) ∧
  pos.bb 5 ≠ 0 ∧ pos.bb 11 ≠ 0 ∧
  EpOk pos ∧ OppKingSafe pos ∧ CrOk pos

instance (pos : Position) : Decidable (EpOk pos) := by
  unfold EpOk
  cases pos.ep_square with
  | none => exact inferInstanceAs (Decidable True)
  | some e => exact inferInstanceAs (Decidable (_ ∧ _ ∧ _))

instance (pos : Position) : Decidable (OppKingSafe pos) := by
  unfold OppKingSafe
  exact inferInstanceAs (Decidable (_ = false))

instance (pos : Position) : Decidable (CrOk pos) := by
  unfold CrOk
  exact inferInstanceAs (Decidable (_ ∧ _))

instance (pos : Position) : Decidable (PosOk pos) := by
  unfold PosOk
  exact inferInstanceAs (Decidable (_ ∧ _))

/-- Bit-level facts about an en-passant capture move of a well-formed
position: the flags, the capture encoding, the target rank and the captured
pawn actually standing behind the target square. -/
def EpCapWf (pos : Position) (mv : Move) : Prop :=
  mv.promotion = none ∧ mv.is_castling = false ∧
  (pos.side_to_move = WHITE → mv.piece = 0 ∧ mv.capture_piece = some 6 ∧
    40 ≤ mv.to_sq ∧ mv.to_sq < 48 ∧ (pos.bb 6).testBit (mv.to_sq - 8) = true) ∧
  (pos.side_to_move = BLACK → mv.piece = 6 ∧ mv.capture_piece = some 0 ∧
    16 ≤ mv.to_sq ∧ mv.to_sq < 24 ∧ (pos.bb 0).testBit (mv.to_sq + 8) = true)

/-- Bit-level facts about a castling move: the king path, and the rook
standing on its home square with its destination square empty. -/
def CastleWf (pos : Position) (mv : Move) : Prop :=
  mv.promotion = none ∧ mv.capture_piece = none ∧ mv.is_en_passant = false ∧
  (pos.side_to_move = WHITE → mv.piece = 5 ∧ mv.from_sq = 4 ∧
    ((mv.to_sq = 6 ∧ (pos.bb 3).testBit 7 = true ∧ (pos.bb 3).testBit 5 = false) ∨
     (mv.to_sq = 2 ∧ (pos.bb 3).testBit 0 = true ∧ (pos.bb 3).testBit 3 = false))) ∧
  (pos.side_to_move = BLACK → mv.piece = 11 ∧ mv.from_sq = 60 ∧
    ((mv.to_sq = 62 ∧ (pos.bb 9).testBit 63 = true ∧ (pos.bb 9).testBit 61 = false) ∨
     (mv.to_sq = 58 ∧ (pos.bb 9).testBit 56 = true ∧ (pos.bb 9).testBit 59 = false)))

/-- Bit-level facts about a double pawn push: ranks, the pushed-over square
empty (it becomes the en-passant square). -/
def DoublePushWf (pos : Position) (mv : Move) : Prop :=
  mv.promotion = none ∧ mv.capture_piece = none ∧ mv.is_en_passant = false ∧
  (pos.side_to_move = WHITE → mv.piece = 0 ∧ mv.to_sq = mv.from_sq + 16 ∧
    8 ≤ mv.from_sq ∧ mv.from_sq < 16 ∧
    pos.all_occupancy.testBit (mv.from_sq + 8) = false) ∧
  (pos.side_to_move = BLACK → mv.piece = 6 ∧ mv.from_sq = mv.to_sq + 16 ∧
    48 ≤ mv.from_sq ∧ mv.from_sq < 56 ∧
    pos.all_occupancy.testBit (mv.from_sq - 8) = false)

/-- The bit-level well-formedness every generated pseudo-legal move of a
well-formed position enjoys; exactly what the `make_move`/`undo_move` board
algebra consumes. -/
def MoveWf (pos : Position) (mv : Move) : Prop :=
  mv.from_sq ≠ mv.to_sq ∧
  mv.piece < 12 ∧ mv.promotion.getD mv.piece < 12 ∧
  (pos.bb mv.piece).testBit mv.from_sq = true ∧
  (pos.side_to_move = WHITE → mv.piece ≤ 5 ∧ mv.promotion.getD mv.piece ≤ 5) ∧
  (pos.side_to_move = BLACK → 6 ≤ mv.piece ∧ 6 ≤ mv.promotion.getD mv.piece) ∧
  (∀ r, r < 12 → (mv.is_en_passant = true ∨ mv.capture_piece ≠ some r) →
    (pos.bb r).testBit mv.to_sq = false) ∧
  (mv.is_en_passant = false → ∀ cap, mv.capture_piece = some cap →
    cap < 12 ∧ (pos.bb cap).testBit mv.to_sq = true ∧
    (pos.side_to_move = WHITE → 6 ≤ cap) ∧ (pos.side_to_move = BLACK → cap ≤ 5)) ∧
  (mv.is_en_passant = true → EpCapWf pos mv) ∧
  (mv.is_castling = true → CastleWf pos mv) ∧
  (mv.is_double_push = true → DoublePushWf pos mv)

theorem mem_foldl_append {α β : Type} (f : β → List α) (x : α) :
    ∀ (l : List β) (init : List α),
      (x ∈ l.foldl (fun acc b => acc ++ f b) init ↔ x ∈ init ∨ ∃ b ∈ l, x ∈ f b) := by
  intro l
  induction l with
  | nil => intro init; simp
  | cons b rest ih =>
    intro init
    rw [List.foldl_cons, ih (init ++ f b)]
    simp only [List.mem_append, List.mem_cons]
    constructor
    · rintro ((h | h) | ⟨c, hc, hx⟩)
      · exact Or.inl h
      · exact Or.inr ⟨b, Or.inl rfl, h⟩
      · exact Or.inr ⟨c, Or.inr hc, hx⟩
    · rintro (h | ⟨c, hc | hc, hx⟩)
      · exact Or.inl (Or.inl h)
      · subst hc; exact Or.inl (Or.inr hx)
      · exact Or.inr ⟨c, hc, hx⟩

theorem testBit_whiteOccOf (bbs : List ℕ) (s : ℕ) :
    (whiteOccOf bbs).testBit s =
      ((bbs.getD 0 0).testBit s || (bbs.getD 1 0).testBit s || (bbs.getD 2 0).testBit s ||
       (bbs.getD 3 0).testBit s || (bbs.getD 4 0).testBit s || (bbs.getD 5 0).testBit s) := by
  unfold whiteOccOf
  simp only [Nat.testBit_or]

theorem testBit_blackOccOf (bbs : List ℕ) (s : ℕ) :
    (blackOccOf bbs).testBit s =
      ((bbs.getD 6 0).testBit s || (bbs.getD 7 0).testBit s || (bbs.getD 8 0).testBit s ||
       (bbs.getD 9 0).testBit s || (bbs.getD 10 0).testBit s || (bbs.getD 11 0).testBit s) := by
  unfold blackOccOf
  simp only [Nat.testBit_or]

/-- In a well-formed position a piece-mask bit implies the corresponding
occupancy bit, and an absent occupancy bit clears every mask bit. -/
theorem bb_testBit_all_occ {pos : Position} (h : PosOk pos) {p s : ℕ} (hp : p < 12)
    (hb : (pos.bb p).testBit s = true) : pos.all_occupancy.testBit s = true := by
  obtain ⟨-, hw, hbk, hall, -⟩ := h
  rw [hall, Nat.testBit_or, hw, hbk, testBit_whiteOccOf, testBit_blackOccOf]
  unfold Position.bb at hb
  interval_cases p <;>
    (simp only [List.getD_eq_getElem?_getD] at hb; simp [hb])

theorem all_occ_not_testBit {pos : Position} (h : PosOk pos) {p s : ℕ} (hp : p < 12)
    (hocc : pos.all_occupancy.testBit s = false) : (pos.bb p).testBit s = false := by
  cases hb : (pos.bb p).testBit s with
  | false => rfl
  | true => rw [bb_testBit_all_occ h hp hb] at hocc; exact absurd hocc (by simp)

/-- `piece_at` facts: a found piece is a real mask bit, and an occupied
square always yields a piece. -/
theorem piece_at_some {pos : Position} {sq p : ℕ} (h : pos.piece_at sq = some p) :
    p < 12 ∧ (pos.bb p).testBit sq = true := by
  unfold Position.piece_at at h
  have hmem := List.mem_of_find?_eq_some h
  have hsat := List.find?_some h
  rw [List.mem_range] at hmem
  exact ⟨hmem, by simpa using hsat⟩

theorem piece_at_isSome_of_occ {pos : Position} (h : PosOk pos) {sq : ℕ}
    (hocc : pos.all_occupancy.testBit sq = true) : (pos.piece_at sq).isSome = true := by
  obtain ⟨-, hw, hbk, hall, -⟩ := h
  rw [hall, Nat.testBit_or, hw, hbk, testBit_whiteOccOf, testBit_blackOccOf] at hocc
  unfold Position.piece_at
  rw [List.find?_isSome]
  simp only [Bool.or_eq_true] at hocc
  rcases hocc with (((((h0 | h1) | h2) | h3) | h4) | h5) | ((((h6 | h7) | h8) | h9) | h10) | h11
  · exact ⟨0, by simp, by simpa [Position.bb] using h0⟩
  · exact ⟨1, by simp, by simpa [Position.bb] using h1⟩
  · exact ⟨2, by simp, by simpa [Position.bb] using h2⟩
  · exact ⟨3, by simp, by simpa [Position.bb] using h3⟩
  · exact ⟨4, by simp, by simpa [Position.bb] using h4⟩
  · exact ⟨5, by simp, by simpa [Position.bb] using h5⟩
  · exact ⟨6, by simp, by simpa [Position.bb] using h6⟩
  · exact ⟨7, by simp, by simpa [Position.bb] using h7⟩
  · exact ⟨8, by simp, by simpa [Position.bb] using h8⟩
  · exact ⟨9, by simp, by simpa [Position.bb] using h9⟩
  · exact ⟨10, by simp, by simpa [Position.bb] using h10⟩
  · exact ⟨11, by simp, by simpa [Position.bb] using h11⟩

theorem getD_set (l : List ℕ) (i j x : ℕ) :
    (l.set i x).getD j 0 = if i = j ∧ i < l.length then x else l.getD j 0 := by
  by_cases hij : i = j
  · subst hij
    by_cases hi : i < l.length
    · rw [if_pos ⟨rfl, hi⟩]; exact getD_set_self x hi
    · rw [if_neg (fun hh => hi hh.2), List.set_eq_of_length_le (by omega)]
  · rw [if_neg (fun hh => hij hh.1)]; exact getD_set_ne x hij

theorem boards_ext {l1 l2 : List ℕ} (h1 : l1.length = 12) (h2 : l2.length = 12)
    (h : ∀ j, j < 12 → l1.getD j 0 = l2.getD j 0) : l1 = l2 := by
  apply List.ext_getElem (by omega)
  intro n hn1 hn2
  have := h n (by omega)
  rwa [List.getD_eq_getElem?_getD, List.getD_eq_getElem?_getD,
    List.getElem?_eq_getElem hn1, List.getElem?_eq_getElem hn2] at this

theorem undo_apply_normal (B : List ℕ) (side : ℕ) (mv : Move)
    (hlen : B.length = 12)
    (hep : mv.is_en_passant = false) (hcast : mv.is_castling = false)
    (hp : mv.piece < 12) (hd : mv.promotion.getD mv.piece < 12)
    (hf : (B.getD mv.piece 0).testBit mv.from_sq = true)
    (hpt : (B.getD mv.piece 0).testBit mv.to_sq = false)
    (hdt : (B.getD (mv.promotion.getD mv.piece) 0).testBit mv.to_sq = false)
    (hcap : ∀ c, mv.capture_piece = some c →
      c < 12 ∧ c ≠ mv.piece ∧ c ≠ mv.promotion.getD mv.piece ∧
      (B.getD c 0).testBit mv.to_sq = true) :
    undoMoveBoards side (applyMoveBoards side B mv) mv = B := by
  unfold applyMoveBoards undoMoveBoards
  rw [hep, hcast]
  simp only [Bool.false_eq_true, if_false]
  cases hc : mv.capture_piece with
  | none =>
    apply boards_ext (by simp [List.length_set, hlen]) hlen
    intro j hj
    by_cases hdp : mv.promotion.getD mv.piece = mv.piece
    · rw [hdp]
      by_cases hjp : mv.piece = j
      · subst hjp
        simp only [getD_set, List.length_set, hlen, hp, and_true, eq_self_iff_true, if_true, if_false]
        rw [setBit_clearBit_self (by rw [testBit_clearBit, hpt]; rfl),
          clearBit_setBit_self hf]
      · simp only [getD_set, List.length_set, hlen, hp, hjp, and_true, eq_self_iff_true, if_true, if_false]
    · by_cases hjp : mv.piece = j
      · subst hjp
        have hdp2 : ¬(mv.promotion.getD mv.piece = mv.piece ∧
            mv.promotion.getD mv.piece < 12) := fun hh => hdp hh.1
        simp only [getD_set, List.length_set, hlen, hp, hd, hdp, and_true, eq_self_iff_true, if_true, if_false]
        rw [clearBit_setBit_self hf]
      · by_cases hjd : mv.promotion.getD mv.piece = j
        · subst hjd
          simp only [getD_set, List.length_set, hlen, hp, hd, hjp, hdp, and_true, eq_self_iff_true, if_true, if_false]
          rw [setBit_clearBit_self hdt]
        · simp only [getD_set, List.length_set, hlen, hp, hd, hjp, hjd, and_true, eq_self_iff_true, if_true, if_false]
  | some c =>
    obtain ⟨hc12, hcp, hcd, hct⟩ := hcap c hc
    have hpc : ¬(mv.piece = c) := fun h => hcp h.symm
    have hdc : ¬(mv.promotion.getD mv.piece = c) := fun h => hcd h.symm
    have hcp2 : ¬(c = mv.piece) := hcp
    have hcd2 : ¬(c = mv.promotion.getD mv.piece) := hcd
    apply boards_ext (by simp [List.length_set, hlen]) hlen
    intro j hj
    by_cases hdp : mv.promotion.getD mv.piece = mv.piece
    · rw [hdp]
      by_cases hjp : mv.piece = j
      · subst hjp
        simp only [getD_set, List.length_set, hlen, hp, hc12, hcp2, and_true, eq_self_iff_true, if_true, if_false]
        rw [setBit_clearBit_self (by rw [testBit_clearBit, hpt]; rfl),
          clearBit_setBit_self hf]
      · by_cases hjc : c = j
        · subst hjc
          simp only [getD_set, List.length_set, hlen, hp, hc12, hjp, hpc, and_true, eq_self_iff_true, if_true, if_false]
          rw [clearBit_setBit_self hct]
        · simp only [getD_set, List.length_set, hlen, hp, hc12, hjp, hjc, and_true, eq_self_iff_true, if_true, if_false]
    · by_cases hjp : mv.piece = j
      · subst hjp
        simp only [getD_set, List.length_set, hlen, hp, hd, hc12, hdp, hcp2, and_true, eq_self_iff_true, if_true, if_false]
        rw [clearBit_setBit_self hf]
      · by_cases hjd : mv.promotion.getD mv.piece = j
        · subst hjd
          simp only [getD_set, List.length_set, hlen, hp, hd, hc12, hjp, hdp, hcd2, and_true, eq_self_iff_true, if_true, if_false]
          rw [setBit_clearBit_self hdt]
        · by_cases hjc : c = j
          · subst hjc
            simp only [getD_set, List.length_set, hlen, hp, hd, hc12, hpc, hdc, hcp2, hcd2, and_true, eq_self_iff_true, if_true, if_false]
            rw [clearBit_setBit_self hct]
          · simp only [getD_set, List.length_set, hlen, hp, hd, hc12, hjp, hjd, hjc, and_true, eq_self_iff_true, if_true, if_false]


theorem undo_apply_ep (B : List ℕ) (side : ℕ) (mv : Move)
    (hlen : B.length = 12)
    (hep : mv.is_en_passant = true)
    (hpr : mv.promotion = none) (hcast : mv.is_castling = false)
    (hf : (B.getD mv.piece 0).testBit mv.from_sq = true)
    (hside : (side = WHITE ∧ mv.piece = 0 ∧
        (B.getD 6 0).testBit (mv.to_sq - 8) = true ∧
        (B.getD 0 0).testBit mv.to_sq = false)
      ∨ (¬side = WHITE ∧ mv.piece = 6 ∧
        (B.getD 0 0).testBit (mv.to_sq + 8) = true ∧
        (B.getD 6 0).testBit mv.to_sq = false)) :
    undoMoveBoards side (applyMoveBoards side B mv) mv = B := by
  unfold applyMoveBoards undoMoveBoards
  rw [hep, hcast, hpr]
  simp only [Bool.false_eq_true, if_false, if_true, Option.getD_none]
  rcases hside with ⟨hw, hpc, hcs, hbt⟩ | ⟨hw, hpc, hcs, hbt⟩ <;>
    [rw [if_pos hw, if_pos hw]; rw [if_neg hw, if_neg hw]] <;>
    rw [hpc] <;>
    apply boards_ext (by simp [List.length_set, hlen]) hlen <;>
    intro j hj
  · by_cases hj0 : (0 : ℕ) = j
    · subst hj0
      rw [hpc] at hf
      simp only [getD_set, List.length_set, hlen, and_true, eq_self_iff_true, if_true,
        if_false, show ¬((6:ℕ) = 0) from by omega, show (0:ℕ) < 12 from by omega,
        show (6:ℕ) < 12 from by omega]
      rw [setBit_clearBit_self (by rw [testBit_clearBit, hbt]; rfl),
        clearBit_setBit_self hf]
    · by_cases hj6 : (6 : ℕ) = j
      · subst hj6
        simp only [getD_set, List.length_set, hlen, and_true, eq_self_iff_true, if_true,
          if_false, show ¬((0:ℕ) = 6) from by omega, show (0:ℕ) < 12 from by omega,
          show (6:ℕ) < 12 from by omega]
        rw [clearBit_setBit_self hcs]
      · simp only [getD_set, List.length_set, hlen, and_true, hj0, hj6, if_false,
          show (0:ℕ) < 12 from by omega, show (6:ℕ) < 12 from by omega]
  · by_cases hj6 : (6 : ℕ) = j
    · subst hj6
      rw [hpc] at hf
      simp only [getD_set, List.length_set, hlen, and_true, eq_self_iff_true, if_true,
        if_false, show ¬((0:ℕ) = 6) from by omega, show (0:ℕ) < 12 from by omega,
        show (6:ℕ) < 12 from by omega]
      rw [setBit_clearBit_self (by rw [testBit_clearBit, hbt]; rfl),
        clearBit_setBit_self hf]
    · by_cases hj0 : (0 : ℕ) = j
      · subst hj0
        simp only [getD_set, List.length_set, hlen, and_true, eq_self_iff_true, if_true,
          if_false, show ¬((6:ℕ) = 0) from by omega, show (0:ℕ) < 12 from by omega,
          show (6:ℕ) < 12 from by omega]
        rw [clearBit_setBit_self hcs]
      · simp only [getD_set, List.length_set, hlen, and_true, hj0, hj6, if_false,
          show (0:ℕ) < 12 from by omega, show (6:ℕ) < 12 from by omega]

theorem undo_apply_castle (B : List ℕ) (side : ℕ) (mv : Move)
    (hlen : B.length = 12)
    (hep : mv.is_en_passant = false) (hcast : mv.is_castling = true)
    (hpr : mv.promotion = none) (hcapn : mv.capture_piece = none)
    (hf : (B.getD mv.piece 0).testBit mv.from_sq = true)
    (hpt : (B.getD mv.piece 0).testBit mv.to_sq = false)
    (hside : (side = WHITE ∧ mv.piece = 5 ∧
        ((mv.to_sq = 6 ∧ (B.getD 3 0).testBit 7 = true ∧ (B.getD 3 0).testBit 5 = false) ∨
         (¬mv.to_sq = 6 ∧ (B.getD 3 0).testBit 0 = true ∧ (B.getD 3 0).testBit 3 = false)))
      ∨ (¬side = WHITE ∧ mv.piece = 11 ∧
        ((mv.to_sq = 62 ∧ (B.getD 9 0).testBit 63 = true ∧ (B.getD 9 0).testBit 61 = false) ∨
         (¬mv.to_sq = 62 ∧ (B.getD 9 0).testBit 56 = true ∧ (B.getD 9 0).testBit 59 = false)))) :
    undoMoveBoards side (applyMoveBoards side B mv) mv = B := by
  unfold applyMoveBoards undoMoveBoards
  rw [hep, hcast, hpr, hcapn]
  simp only [Bool.false_eq_true, if_false, if_true, Option.getD_none]
  rcases hside with ⟨hw, hpc, hto⟩ | ⟨hw, hpc, hto⟩ <;>
    [rw [if_pos hw, if_pos hw]; rw [if_neg hw, if_neg hw]] <;>
    rw [hpc] <;> rw [hpc] at hf hpt <;>
    rcases hto with ⟨ht, hr1, hr2⟩ | ⟨ht, hr1, hr2⟩ <;>
    [rw [if_pos ht, if_pos ht]; rw [if_neg ht, if_neg ht]; rw [if_pos ht, if_pos ht];
      rw [if_neg ht, if_neg ht]] <;>
    apply boards_ext (by simp [List.length_set, hlen]) hlen <;>
    intro j hj
  · by_cases hj5 : (5 : ℕ) = j
    · subst hj5
      simp only [getD_set, List.length_set, hlen, and_true, eq_self_iff_true, if_true,
        if_false, show ¬((3:ℕ) = 5) from by omega, show (3:ℕ) < 12 from by omega,
        show (5:ℕ) < 12 from by omega]
      rw [setBit_clearBit_self (by rw [testBit_clearBit, hpt]; rfl),
        clearBit_setBit_self hf]
    · by_cases hj3 : (3 : ℕ) = j
      · subst hj3
        simp only [getD_set, List.length_set, hlen, and_true, eq_self_iff_true, if_true,
          if_false, show ¬((5:ℕ) = 3) from by omega, show (3:ℕ) < 12 from by omega,
          show (5:ℕ) < 12 from by omega]
        rw [setBit_clearBit_self (by rw [testBit_clearBit, hr2]; rfl),
          clearBit_setBit_self hr1]
      · simp only [getD_set, List.length_set, hlen, and_true, hj5, hj3, if_false,
          show (3:ℕ) < 12 from by omega, show (5:ℕ) < 12 from by omega]
  · by_cases hj5 : (5 : ℕ) = j
    · subst hj5
      simp only [getD_set, List.length_set, hlen, and_true, eq_self_iff_true, if_true,
        if_false, show ¬((3:ℕ) = 5) from by omega, show (3:ℕ) < 12 from by omega,
        show (5:ℕ) < 12 from by omega]
      rw [setBit_clearBit_self (by rw [testBit_clearBit, hpt]; rfl),
        clearBit_setBit_self hf]
    · by_cases hj3 : (3 : ℕ) = j
      · subst hj3
        simp only [getD_set, List.length_set, hlen, and_true, eq_self_iff_true, if_true,
          if_false, show ¬((5:ℕ) = 3) from by omega, show (3:ℕ) < 12 from by omega,
          show (5:ℕ) < 12 from by omega]
        rw [setBit_clearBit_self (by rw [testBit_clearBit, hr2]; rfl),
          clearBit_setBit_self hr1]
      · simp only [getD_set, List.length_set, hlen, and_true, hj5, hj3, if_false,
          show (3:ℕ) < 12 from by omega, show (5:ℕ) < 12 from by omega]
  · by_cases hj11 : (11 : ℕ) = j
    · subst hj11
      simp only [getD_set, List.length_set, hlen, and_true, eq_self_iff_true, if_true,
        if_false, show ¬((9:ℕ) = 11) from by omega, show (9:ℕ) < 12 from by omega,
        show (11:ℕ) < 12 from by omega]
      rw [setBit_clearBit_self (by rw [testBit_clearBit, hpt]; rfl),
        clearBit_setBit_self hf]
    · by_cases hj9 : (9 : ℕ) = j
      · subst hj9
        simp only [getD_set, List.length_set, hlen, and_true, eq_self_iff_true, if_true,
          if_false, show ¬((11:ℕ) = 9) from by omega, show (9:ℕ) < 12 from by omega,
          show (11:ℕ) < 12 from by omega]
        rw [setBit_clearBit_self (by rw [testBit_clearBit, hr2]; rfl),
          clearBit_setBit_self hr1]
      · simp only [getD_set, List.length_set, hlen, and_true, hj11, hj9, if_false,
          show (9:ℕ) < 12 from by omega, show (11:ℕ) < 12 from by omega]
  · by_cases hj11 : (11 : ℕ) = j
    · subst hj11
      simp only [getD_set, List.length_set, hlen, and_true, eq_self_iff_true, if_true,
        if_false, show ¬((9:ℕ) = 11) from by omega, show (9:ℕ) < 12 from by omega,
        show (11:ℕ) < 12 from by omega]
      rw [setBit_clearBit_self (by rw [testBit_clearBit, hpt]; rfl),
        clearBit_setBit_self hf]
    · by_cases hj9 : (9 : ℕ) = j
      · subst hj9
        simp only [getD_set, List.length_set, hlen, and_true, eq_self_iff_true, if_true,
          if_false, show ¬((11:ℕ) = 9) from by omega, show (9:ℕ) < 12 from by omega,
          show (11:ℕ) < 12 from by omega]
        rw [setBit_clearBit_self (by rw [testBit_clearBit, hr2]; rfl),
          clearBit_setBit_self hr1]
      · simp only [getD_set, List.length_set, hlen, and_true, hj11, hj9, if_false,
          show (9:ℕ) < 12 from by omega, show (11:ℕ) < 12 from by omega]

theorem capture_ne_own {pos : Position} {mv : Move}
    (hwf : MoveWf pos mv) (hside : pos.side_to_move = WHITE ∨ pos.side_to_move = BLACK)
    (hepF : mv.is_en_passant = false) :
    ∀ c, mv.capture_piece = some c →
      c < 12 ∧ c ≠ mv.piece ∧ c ≠ mv.promotion.getD mv.piece ∧
      (pos.bb c).testBit mv.to_sq = true := by
  obtain ⟨-, -, -, -, hwside, hbside, -, hcapf, -, -, -⟩ := hwf
  intro c hc
  obtain ⟨hc12, hct, hcw, hcb⟩ := hcapf hepF c hc
  cases hside with
  | inl hw =>
    obtain ⟨hp5, hd5⟩ := hwside hw
    have hc6 := hcw hw
    exact ⟨hc12, by omega, by omega, hct⟩
  | inr hb =>
    obtain ⟨hp6, hd6⟩ := hbside hb
    have hc5 := hcb hb
    exact ⟨hc12, by omega, by omega, hct⟩

theorem capture_ne_some_own {pos : Position} {mv : Move}
    (hwf : MoveWf pos mv) (hside : pos.side_to_move = WHITE ∨ pos.side_to_move = BLACK)
    (hepF : mv.is_en_passant = false) :
    mv.capture_piece ≠ some mv.piece ∧
    mv.capture_piece ≠ some (mv.promotion.getD mv.piece) := by
  cases hc : mv.capture_piece with
  | none => exact ⟨by simp, by simp⟩
  | some c =>
    obtain ⟨-, hcp, hcd, -⟩ := capture_ne_own hwf hside hepF c hc
    exact ⟨by simpa using hcp, by simpa using hcd⟩

theorem undo_apply_of_moveWf (pos : Position) (mv : Move)
    (hok : PosOk pos) (hwf : MoveWf pos mv) :
    undoMoveBoards pos.side_to_move
      (applyMoveBoards pos.side_to_move pos.bitboards mv) mv = pos.bitboards := by
  obtain ⟨hlen, -, -, -, hside, -, -, -, -, -⟩ := hok
  have hwf2 := hwf
  obtain ⟨hfr, hp, hd, hf, hwside, hbside, hfree, hcapf, hepf, hcastf, -⟩ := hwf2
  by_cases hep : mv.is_en_passant = true
  · obtain ⟨hpr, hcast, hW, hB⟩ := hepf hep
    apply undo_apply_ep _ _ _ hlen hep hpr hcast hf
    cases hside with
    | inl hw =>
      obtain ⟨hp0, -, -, -, hpb⟩ := hW hw
      exact Or.inl ⟨hw, hp0, hpb, hfree 0 (by omega) (Or.inl hep)⟩
    | inr hb =>
      obtain ⟨hp6, -, -, -, hpb⟩ := hB hb
      refine Or.inr ⟨?_, hp6, hpb, hfree 6 (by omega) (Or.inl hep)⟩
      rw [hb]; unfold BLACK WHITE; omega
  · have hepF : mv.is_en_passant = false := by
      cases h : mv.is_en_passant
      · rfl
      · exact absurd h hep
    by_cases hcast : mv.is_castling = true
    · obtain ⟨hpr, hcapn, -, hW, hB⟩ := hcastf hcast
      have hcapne : mv.capture_piece ≠ some mv.piece := by rw [hcapn]; simp
      apply undo_apply_castle _ _ _ hlen hepF hcast hpr hcapn hf
        (hfree mv.piece hp (Or.inr hcapne))
      cases hside with
      | inl hw =>
        obtain ⟨hp5, -, hto⟩ := hW hw
        refine Or.inl ⟨hw, hp5, ?_⟩
        rcases hto with ⟨h6, ha, hb2⟩ | ⟨h2, ha, hb2⟩
        · exact Or.inl ⟨h6, ha, hb2⟩
        · exact Or.inr ⟨by omega, ha, hb2⟩
      | inr hb =>
        obtain ⟨hp11, -, hto⟩ := hB hb
        refine Or.inr ⟨by rw [hb]; unfold BLACK WHITE; omega, hp11, ?_⟩
        rcases hto with ⟨h62, ha, hb2⟩ | ⟨h58, ha, hb2⟩
        · exact Or.inl ⟨h62, ha, hb2⟩
        · exact Or.inr ⟨by omega, ha, hb2⟩
    · have hcastF : mv.is_castling = false := by
        cases h : mv.is_castling
        · rfl
        · exact absurd h hcast
      obtain ⟨hne1, hne2⟩ := capture_ne_some_own hwf hside hepF
      exact undo_apply_normal _ _ _ hlen hepF hcastF hp hd hf
        (hfree mv.piece hp (Or.inr hne1))
        (hfree (mv.promotion.getD mv.piece) hd (Or.inr hne2))
        (capture_ne_own hwf hside hepF)

/-- `make_move` then `undo_move` restores the position exactly; the shared
workhorse behind the make/undo round-trip. -/
theorem make_undo_restore (T : Zobrist) (pos : Position) (mv : Move)
    (hok : PosOk pos) (hwf : MoveWf pos mv) :
    (pos.make_move T mv).undo_move = some pos := by
  have hbb := undo_apply_of_moveWf pos mv hok hwf
  obtain ⟨hlen, hw, hbk, hall, hside, hdisj, hbnd, hk5, hk11, hep, hoks, hcr⟩ := hok
  unfold Position.make_move Position.undo_move
  simp only []
  rw [hbb]
  rw [← hw, ← hbk, ← hall]

theorem testBit_andNot_imp2 {x y b : ℕ} (h : (andNot x y).testBit b = true) :
    y.testBit b = false := by
  rw [testBit_andNot] at h
  have := ((Bool.and_eq_true _ _).mp h).2
  cases hy : y.testBit b
  · rfl
  · rw [hy] at this; exact absurd this (by simp)

/-- A piece-mask bit of the side to move implies its own-occupancy bit. -/
theorem bb_testBit_own {pos : Position} (hok : PosOk pos) {p s : ℕ}
    (hw : pos.side_to_move = WHITE → p ≤ 5) (hb : pos.side_to_move = BLACK → 6 ≤ p)
    (hp : p < 12) (hbit : (pos.bb p).testBit s = true) :
    (_own_occ pos).testBit s = true := by
  obtain ⟨-, hwo, hbo, -, hside, -⟩ := hok
  unfold _own_occ
  cases hside with
  | inl h =>
    rw [h, if_pos rfl, hwo, testBit_whiteOccOf]
    have hp5 := hw h
    unfold Position.bb at hbit
    interval_cases p <;>
      (simp only [List.getD_eq_getElem?_getD] at hbit; simp [hbit])
  | inr h =>
    have hp6 := hb h
    rw [h, if_neg (by unfold BLACK WHITE; omega), hbo, testBit_blackOccOf]
    unfold Position.bb at hbit
    interval_cases p <;>
      (simp only [List.getD_eq_getElem?_getD] at hbit; simp [hbit])

/-- An absent own-occupancy bit clears every own piece-mask bit. -/
theorem own_not_testBit {pos : Position} (hok : PosOk pos) {p s : ℕ}
    (hw : pos.side_to_move = WHITE → p ≤ 5) (hb : pos.side_to_move = BLACK → 6 ≤ p)
    (hp : p < 12) (hown : (_own_occ pos).testBit s = false) :
    (pos.bb p).testBit s = false := by
  cases hbit : (pos.bb p).testBit s
  · rfl
  · rw [bb_testBit_own hok hw hb hp hbit] at hown
    exact absurd hown (by simp)

/-- An absent opponent-occupancy bit clears every enemy piece-mask bit. -/
theorem opp_not_testBit {pos : Position} (hok : PosOk pos) {p s : ℕ}
    (hw : pos.side_to_move = WHITE → 6 ≤ p) (hb : pos.side_to_move = BLACK → p ≤ 5)
    (hp : p < 12) (hopp : (_opp_occ pos).testBit s = false) :
    (pos.bb p).testBit s = false := by
  obtain ⟨-, hwo, hbo, -, hside, -⟩ := hok
  unfold _opp_occ at hopp
  cases hbit : (pos.bb p).testBit s
  · rfl
  · exfalso
    cases hside with
    | inl h =>
      rw [h, if_pos rfl, hbo, testBit_blackOccOf] at hopp
      have hp6 := hw h
      unfold Position.bb at hbit
      interval_cases p <;>
        (simp only [List.getD_eq_getElem?_getD] at hbit hopp; simp [hbit] at hopp)
    | inr h =>
      have hp5 := hb h
      rw [h, if_neg (by unfold BLACK WHITE; omega), hwo, testBit_whiteOccOf] at hopp
      unfold Position.bb at hbit
      interval_cases p <;>
        (simp only [List.getD_eq_getElem?_getD] at hbit hopp; simp [hbit] at hopp)

/-- A white-occupancy bit comes from some white piece mask. -/
theorem whiteOcc_testBit_exists {pos : Position} (hok : PosOk pos) {s : ℕ}
    (h : pos.white_occupancy.testBit s = true) :
    ∃ q, q ≤ 5 ∧ (pos.bb q).testBit s = true := by
  obtain ⟨-, hwo, -⟩ := hok
  rw [hwo, testBit_whiteOccOf] at h
  simp only [Bool.or_eq_true] at h
  unfold Position.bb
  rcases h with ((((h0 | h1) | h2) | h3) | h4) | h5
  · exact ⟨0, by omega, h0⟩
  · exact ⟨1, by omega, h1⟩
  · exact ⟨2, by omega, h2⟩
  · exact ⟨3, by omega, h3⟩
  · exact ⟨4, by omega, h4⟩
  · exact ⟨5, by omega, h5⟩

/-- A black-occupancy bit comes from some black piece mask. -/
theorem blackOcc_testBit_exists {pos : Position} (hok : PosOk pos) {s : ℕ}
    (h : pos.black_occupancy.testBit s = true) :
    ∃ q, 6 ≤ q ∧ q < 12 ∧ (pos.bb q).testBit s = true := by
  obtain ⟨-, -, hbo, -⟩ := hok
  rw [hbo, testBit_blackOccOf] at h
  simp only [Bool.or_eq_true] at h
  unfold Position.bb
  rcases h with ((((h6 | h7) | h8) | h9) | h10) | h11
  · exact ⟨6, by omega, by omega, h6⟩
  · exact ⟨7, by omega, by omega, h7⟩
  · exact ⟨8, by omega, by omega, h8⟩
  · exact ⟨9, by omega, by omega, h9⟩
  · exact ⟨10, by omega, by omega, h10⟩
  · exact ⟨11, by omega, by omega, h11⟩

/-- With an opponent bit on the square, `piece_at` returns an enemy piece
holding that square, and every other mask is clear there. -/
theorem piece_at_opp {pos : Position} (hok : PosOk pos) {s : ℕ}
    (hopp : (_opp_occ pos).testBit s = true) :
    ∃ c, pos.piece_at s = some c ∧ c < 12 ∧ (pos.bb c).testBit s = true ∧
      (pos.side_to_move = WHITE → 6 ≤ c) ∧ (pos.side_to_move = BLACK → c ≤ 5) ∧
      ∀ r, r < 12 → r ≠ c → (pos.bb r).testBit s = false := by
  have hok2 := hok
  obtain ⟨-, hwo, hbo, ha, hside, hdisj, -⟩ := hok2
  have hall : pos.all_occupancy.testBit s = true := by
    unfold _opp_occ at hopp
    rw [ha, Nat.testBit_or]
    cases hside with
    | inl h => rw [h, if_pos rfl] at hopp; rw [hopp]; simp
    | inr h =>
      rw [h, if_neg (by unfold BLACK WHITE; omega)] at hopp
      rw [hopp]; simp
  have hsome := piece_at_isSome_of_occ hok hall
  cases hc : pos.piece_at s with
  | none => rw [hc] at hsome; exact absurd hsome (by simp)
  | some c =>
    obtain ⟨hc12, hcbit⟩ := piece_at_some hc
    have hother : ∀ r, r < 12 → r ≠ c → (pos.bb r).testBit s = false := by
      intro r hr hrc
      cases hbit : (pos.bb r).testBit s
      · rfl
      · exact ((and_eq_zero_iff_testBit.mp (hdisj r hr c hc12 hrc)) s ⟨hbit, hcbit⟩).elim
    refine ⟨c, rfl, hc12, hcbit, ?_, ?_, hother⟩
    · intro hwv
      unfold _opp_occ at hopp
      rw [hwv, if_pos rfl] at hopp
      obtain ⟨q, hq6, hq12, hqbit⟩ := blackOcc_testBit_exists hok hopp
      by_contra hlt
      exact absurd hqbit (by rw [hother q hq12 (by omega)]; simp)
    · intro hbv
      unfold _opp_occ at hopp
      rw [hbv, if_neg (by unfold BLACK WHITE; omega)] at hopp
      obtain ⟨q, hq5, hqbit⟩ := whiteOcc_testBit_exists hok hopp
      by_contra hlt
      exact absurd hqbit (by rw [hother q (by omega) (by omega)]; simp)

/-- Every move produced from a leaper/slider destination mask that avoids
the side's own occupancy is bit-level well formed. -/
theorem moveWf_of_movesFromMask {pos : Position} (hok : PosOk pos)
    {piece sq mask : ℕ} {mv : Move}
    (hp12 : piece < 12)
    (hpw : pos.side_to_move = WHITE → piece ≤ 5)
    (hpb : pos.side_to_move = BLACK → 6 ≤ piece)
    (hsq : (pos.bb piece).testBit sq = true)
    (hmask : ∀ dd, mask.testBit dd = true → (_own_occ pos).testBit dd = false)
    (hm : mv ∈ movesFromMask pos piece sq mask) : MoveWf pos mv := by
  unfold movesFromMask at hm
  rw [List.mem_map] at hm
  obtain ⟨dest, hdm, hmv⟩ := hm
  rw [mem_bitIndices] at hdm
  have hown := hmask dest hdm
  have hsqown := bb_testBit_own hok hpw hpb hp12 hsq
  have hne : sq ≠ dest := by
    intro h
    have hcontra : (_own_occ pos).testBit sq = false := by rw [h]; exact hown
    rw [hsqown] at hcontra
    exact absurd hcontra (by simp)
  subst hmv
  cases hcap : (_opp_occ pos).testBit dest with
  | false =>
    have hallf : pos.all_occupancy.testBit dest = false := by
      obtain ⟨-, -, -, ha, hside, -⟩ := hok
      rw [ha, Nat.testBit_or]
      unfold _own_occ at hown
      unfold _opp_occ at hcap
      cases hside with
      | inl h => rw [h, if_pos rfl] at hown hcap; rw [hown, hcap]; rfl
      | inr h =>
        rw [h, if_neg (by unfold BLACK WHITE; omega)] at hown hcap
        rw [hown, hcap]; rfl
    refine ⟨hne, hp12, by simpa using hp12, hsq, ?_, ?_, ?_, ?_, ?_, ?_, ?_⟩
    · intro hw; exact ⟨hpw hw, by simpa using hpw hw⟩
    · intro hb; exact ⟨hpb hb, by simpa using hpb hb⟩
    · intro r hr _
      exact all_occ_not_testBit hok hr hallf
    · intro _ cap hcp
      simp [hcap] at hcp
    · intro h; simp at h
    · intro h; simp at h
    · intro h; simp at h
  | true =>
    obtain ⟨c, hcat, hc12, hcbit, hcw, hcb, hother⟩ := piece_at_opp hok hcap
    refine ⟨hne, hp12, by simpa using hp12, hsq, ?_, ?_, ?_, ?_, ?_, ?_, ?_⟩
    · intro hw; exact ⟨hpw hw, by simpa using hpw hw⟩
    · intro hb; exact ⟨hpb hb, by simpa using hpb hb⟩
    · intro r hr hcond
      rcases hcond with h | h
      · simp at h
      · simp only [hcap, if_true, hcat, ne_eq, Option.some.injEq] at h
        exact hother r hr (fun hh => h (by rw [hh]))
    · intro _ cap hcp
      simp only [hcap, if_true, hcat, Option.some.injEq] at hcp
      subst hcp
      exact ⟨hc12, hcbit, hcw, hcb⟩
    · intro h; simp at h
    · intro h; simp at h
    · intro h; simp at h

/-- Well-formedness of a non-capture move to an empty square (pawn pushes
and promotions; the double-push flag carries its own obligations). -/
theorem moveWf_quiet {pos : Position} (hok : PosOk pos) {f t pc : ℕ}
    {promo : Option ℕ} {b : Bool}
    (hpc : pc < 12) (hdst : promo.getD pc < 12)
    (hW : pos.side_to_move = WHITE → pc ≤ 5 ∧ promo.getD pc ≤ 5)
    (hB : pos.side_to_move = BLACK → 6 ≤ pc ∧ 6 ≤ promo.getD pc)
    (hf : (pos.bb pc).testBit f = true)
    (hocc : pos.all_occupancy.testBit t = false)
    (hne : f ≠ t)
    (hdpw : b = true → DoublePushWf pos
      { from_sq := f, to_sq := t, piece := pc, promotion := promo, is_double_push := b }) :
    MoveWf pos
      { from_sq := f, to_sq := t, piece := pc, promotion := promo, is_double_push := b } := by
  refine ⟨hne, hpc, hdst, hf, hW, hB, ?_, ?_, ?_, ?_, ?_⟩
  · intro r hr _
    exact all_occ_not_testBit hok hr hocc
  · intro _ cap hcp
    simp at hcp
  · intro h; simp at h
  · intro h; simp at h
  · exact hdpw

/-- Well-formedness of an ordinary capture move (the captured piece is
taken from `piece_at`). -/
theorem moveWf_cap {pos : Position} (hok : PosOk pos) {f t pc : ℕ}
    {promo : Option ℕ}
    (hpc : pc < 12) (hdst : promo.getD pc < 12)
    (hW : pos.side_to_move = WHITE → pc ≤ 5 ∧ promo.getD pc ≤ 5)
    (hB : pos.side_to_move = BLACK → 6 ≤ pc ∧ 6 ≤ promo.getD pc)
    (hf : (pos.bb pc).testBit f = true)
    (hopp : (_opp_occ pos).testBit t = true)
    (hne : f ≠ t) :
    MoveWf pos
      { from_sq := f, to_sq := t, piece := pc, capture_piece := pos.piece_at t,
        promotion := promo } := by
  obtain ⟨c, hcat, hc12, hcbit, hcw, hcb, hother⟩ := piece_at_opp hok hopp
  refine ⟨hne, hpc, hdst, hf, hW, hB, ?_, ?_, ?_, ?_, ?_⟩
  · intro r hr hcond
    rcases hcond with h | h
    · simp at h
    · simp only [hcat, ne_eq, Option.some.injEq] at h
      exact hother r hr (fun hh => h (by rw [hh]))
  · intro _ cap hcp
    simp only [hcat, Option.some.injEq] at hcp
    subst hcp
    exact ⟨hc12, hcbit, hcw, hcb⟩
  · intro h; simp at h
  · intro h; simp at h
  · intro h; simp at h

/-- Every generated castling move is well formed (the king/rook home
squares come from the castling-rights invariant). -/
theorem moveWf_of_castling {pos : Position} (hok : PosOk pos) {mv : Move}
    (hm : mv ∈ _generate_castling pos) : MoveWf pos mv := by
  have hok2 := hok
  obtain ⟨-, -, -, -, -, -, -, -, -, -, -, hcrK, hcrQ, hcrk, hcrq⟩ := hok2
  unfold _generate_castling at hm
  by_cases hside : pos.side_to_move = WHITE
  · rw [if_pos hside] at hm
    rw [List.mem_append] at hm
    have hBv : ¬pos.side_to_move = BLACK := by rw [hside]; unfold WHITE BLACK; omega
    rcases hm with hm | hm
    · split at hm
      next hcond =>
        obtain ⟨hcr, h5, h6, hr7, -⟩ := hcond
        rw [List.mem_singleton] at hm
        subst hm
        have h5e : pos.all_occupancy.testBit 5 = false := by
          cases hx : pos.all_occupancy.testBit 5
          · rfl
          · exact absurd hx h5
        have h6e : pos.all_occupancy.testBit 6 = false := by
          cases hx : pos.all_occupancy.testBit 6
          · rfl
          · exact absurd hx h6
        refine ⟨by decide, by decide, by simp, (hcrK hcr).1, ?_, ?_, ?_, ?_, ?_, ?_, ?_⟩
        · intro _; simp
        · intro hb; exact absurd hb hBv
        · intro r hr _
          exact all_occ_not_testBit hok hr h6e
        · intro _ cap hcp; simp at hcp
        · intro h; simp at h
        · intro h
          refine ⟨rfl, rfl, rfl, ?_, ?_⟩
          · intro _
            exact ⟨rfl, rfl, Or.inl ⟨rfl, hr7, all_occ_not_testBit hok (by omega) h5e⟩⟩
          · intro hb; exact absurd hb hBv
        · intro h; simp at h
      next => simp at hm
    · split at hm
      next hcond =>
        obtain ⟨hcr, h3, h2, h1, hr0, -⟩ := hcond
        rw [List.mem_singleton] at hm
        subst hm
        have h2e : pos.all_occupancy.testBit 2 = false := by
          cases hx : pos.all_occupancy.testBit 2
          · rfl
          · exact absurd hx h2
        have h3e : pos.all_occupancy.testBit 3 = false := by
          cases hx : pos.all_occupancy.testBit 3
          · rfl
          · exact absurd hx h3
        refine ⟨by decide, by decide, by simp, (hcrQ hcr).1, ?_, ?_, ?_, ?_, ?_, ?_, ?_⟩
        · intro _; simp
        · intro hb; exact absurd hb hBv
        · intro r hr _
          exact all_occ_not_testBit hok hr h2e
        · intro _ cap hcp; simp at hcp
        · intro h; simp at h
        · intro h
          refine ⟨rfl, rfl, rfl, ?_, ?_⟩
          · intro _
            exact ⟨rfl, rfl, Or.inr ⟨by decide, hr0, all_occ_not_testBit hok (by omega) h3e⟩⟩
          · intro hb; exact absurd hb hBv
        · intro h; simp at h
      next => simp at hm
  · rw [if_neg hside] at hm
    rw [List.mem_append] at hm
    have hBv : pos.side_to_move = BLACK := by
      obtain ⟨-, -, -, -, hs, -⟩ := hok
      rcases hs with h | h
      · exact absurd h hside
      · exact h
    rcases hm with hm | hm
    · split at hm
      next hcond =>
        obtain ⟨hcr, h61, h62, hr63, -⟩ := hcond
        rw [List.mem_singleton] at hm
        subst hm
        have h61e : pos.all_occupancy.testBit 61 = false := by
          cases hx : pos.all_occupancy.testBit 61
          · rfl
          · exact absurd hx h61
        have h62e : pos.all_occupancy.testBit 62 = false := by
          cases hx : pos.all_occupancy.testBit 62
          · rfl
          · exact absurd hx h62
        refine ⟨by decide, by decide, by simp, (hcrk hcr).1, ?_, ?_, ?_, ?_, ?_, ?_, ?_⟩
        · intro hw; exact absurd hw hside
        · intro _; simp
        · intro r hr _
          exact all_occ_not_testBit hok hr h62e
        · intro _ cap hcp; simp at hcp
        · intro h; simp at h
        · intro h
          refine ⟨rfl, rfl, rfl, ?_, ?_⟩
          · intro hw; exact absurd hw hside
          · intro _
            exact ⟨rfl, rfl, Or.inl ⟨rfl, hr63, all_occ_not_testBit hok (by omega) h61e⟩⟩
        · intro h; simp at h
      next => simp at hm
    · split at hm
      next hcond =>
        obtain ⟨hcr, h59, h58, h57, hr56, -⟩ := hcond
        rw [List.mem_singleton] at hm
        subst hm
        have h58e : pos.all_occupancy.testBit 58 = false := by
          cases hx : pos.all_occupancy.testBit 58
          · rfl
          · exact absurd hx h58
        have h59e : pos.all_occupancy.testBit 59 = false := by
          cases hx : pos.all_occupancy.testBit 59
          · rfl
          · exact absurd hx h59
        refine ⟨by decide, by decide, by simp, (hcrq hcr).1, ?_, ?_, ?_, ?_, ?_, ?_, ?_⟩
        · intro hw; exact absurd hw hside
        · intro _; simp
        · intro r hr _
          exact all_occ_not_testBit hok hr h58e
        · intro _ cap hcp; simp at hcp
        · intro h; simp at h
        · intro h
          refine ⟨rfl, rfl, rfl, ?_, ?_⟩
          · intro hw; exact absurd hw hside
          · intro _
            exact ⟨rfl, rfl, Or.inr ⟨by decide, hr56, all_occ_not_testBit hok (by omega) h59e⟩⟩
        · intro h; simp at h
      next => simp at hm

/-- Every white-pawn move generated for a pawn on `sq` is well formed. -/
theorem moveWf_of_pawnMovesW {pos : Position} (hok : PosOk pos) {sq : ℕ} {mv : Move}
    (hside : pos.side_to_move = WHITE)
    (hsq : (pos.bb 0).testBit sq = true)
    (hm : mv ∈ pawnMovesW pos sq) : MoveWf pos mv := by
  have hBv : ¬pos.side_to_move = BLACK := by rw [hside]; unfold WHITE BLACK; omega
  simp only [pawnMovesW, List.mem_append] at hm
  rcases hm with (hm | hm) | hm
  · -- pushes
    split at hm
    next hcond =>
      obtain ⟨h64, hemp⟩ := hcond
      have hemp2 : pos.all_occupancy.testBit (sq + 8) = false := by
        cases hx : pos.all_occupancy.testBit (sq + 8)
        · rfl
        · exact absurd hx hemp
      split at hm
      next hr6 =>
        rw [List.mem_map] at hm
        obtain ⟨promo, hpm, hmv⟩ := hm
        have hpr : promo ≤ 5 ∧ 1 ≤ promo := by
          unfold PROMOTION_MAP at hpm
          rw [if_pos rfl] at hpm
          simp at hpm
          omega
        subst hmv
        exact moveWf_quiet hok (by omega) (by simp; omega)
          (fun _ => ⟨by omega, by simp; omega⟩) (fun hb => absurd hb hBv)
          hsq hemp2 (by omega) (fun h => by simp at h)
      next =>
        rw [List.mem_cons] at hm
        rcases hm with hmv | hm
        · subst hmv
          exact moveWf_quiet hok (by omega) (by simp)
            (fun _ => ⟨by omega, by simp⟩) (fun hb => absurd hb hBv)
            hsq hemp2 (by omega) (fun h => by simp at h)
        · split at hm
          next hcond2 =>
            obtain ⟨hr1, hemp16⟩ := hcond2
            have hemp16b : pos.all_occupancy.testBit (sq + 16) = false := by
              cases hx : pos.all_occupancy.testBit (sq + 16)
              · rfl
              · exact absurd hx hemp16
            rw [List.mem_singleton] at hm
            subst hm
            refine moveWf_quiet hok (by omega) (by simp)
              (fun _ => ⟨by omega, by simp⟩) (fun hb => absurd hb hBv)
              hsq hemp16b (by omega) ?_
            intro _
            refine ⟨rfl, rfl, rfl, ?_, ?_⟩
            · intro _
              exact ⟨rfl, rfl, by simp; omega, by simp; omega, by simpa using hemp2⟩
            · intro hb; exact absurd hb hBv
          next => simp at hm
    next => simp at hm
  · -- captures
    have hstep : ∀ (dest : ℕ) (acc : List Move), mv ∈ (if dest < 64 ∧
        ((dest % 8 : ℤ) - (sq % 8 : ℤ)).natAbs = 1 ∧ (_opp_occ pos).testBit dest = true then
          acc ++ (if sq / 8 = 6 then
            (PROMOTION_MAP WHITE).map (fun promo =>
              { from_sq := sq, to_sq := dest, piece := 0, capture_piece := pos.piece_at dest,
                promotion := some promo })
          else
            [{ from_sq := sq, to_sq := dest, piece := 0, capture_piece := pos.piece_at dest }])
        else acc) → mv ∈ acc ∨ (mv.to_sq = dest ∧ MoveWf pos mv) := by
      intro dest acc hmem
      split at hmem
      next hcond =>
        obtain ⟨h64, hadj, hopp⟩ := hcond
        rw [List.mem_append] at hmem
        rcases hmem with h | h
        · exact Or.inl h
        · refine Or.inr ?_
          have hne : sq ≠ dest := by omega
          split at h
          next hr6 =>
            rw [List.mem_map] at h
            obtain ⟨promo, hpm, hmv⟩ := h
            have hpr : promo ≤ 5 ∧ 1 ≤ promo := by
              unfold PROMOTION_MAP at hpm
              rw [if_pos rfl] at hpm
              simp at hpm
              omega
            subst hmv
            exact ⟨rfl, moveWf_cap hok (by omega) (by simp; omega)
              (fun _ => ⟨by omega, by simp; omega⟩) (fun hb => absurd hb hBv)
              hsq hopp hne⟩
          next =>
            rw [List.mem_singleton] at h
            subst h
            exact ⟨rfl, moveWf_cap hok (by omega) (by simp)
              (fun _ => ⟨by omega, by simp⟩) (fun hb => absurd hb hBv)
              hsq hopp hne⟩
      next => exact Or.inl hmem
    rw [List.foldl_cons, List.foldl_cons, List.foldl_nil] at hm
    rcases hstep (sq + 9) _ hm with h | ⟨-, hwf⟩
    · rcases hstep (sq + 7) _ h with h0 | ⟨-, hwf2⟩
      · simp at h0
      · exact hwf2
    · exact hwf
  · -- en passant
    revert hm
    cases hepc : pos.ep_square with
    | none => intro hm; simp at hm
    | some e =>
      intro hm
      dsimp only at hm
      have hok2 := hok
      obtain ⟨-, -, -, -, -, -, -, -, -, hEp, -⟩ := hok2
      unfold EpOk at hEp
      rw [hepc] at hEp
      obtain ⟨hemp, hWc, -⟩ := hEp
      obtain ⟨h40, h48, hpawn⟩ := hWc hside
      split at hm
      next hcond =>
        rw [List.mem_singleton] at hm
        subst hm
        obtain ⟨hor, -⟩ := hcond
        have het : e.toNat < 48 ∧ 40 ≤ e.toNat := by omega
        have hto : e.toNat = sq + 7 ∨ e.toNat = sq + 9 := by
          rcases hor with h | h
          · left; omega
          · right; omega
        refine ⟨by show sq ≠ e.toNat; omega, by show (0:ℕ) < 12; decide, by simp, hsq,
          ?_, ?_, ?_, ?_, ?_, ?_, ?_⟩
        · intro _; exact ⟨by show (0:ℕ) ≤ 5; decide, by simp⟩
        · intro hb; exact absurd hb hBv
        · intro r hr _
          exact all_occ_not_testBit hok hr hemp
        · intro h; simp at h
        · intro _
          refine ⟨rfl, rfl, ?_, ?_⟩
          · intro _
            exact ⟨rfl, rfl, by simpa using het.2, by simpa using het.1, by simpa using hpawn⟩
          · intro hb; exact absurd hb hBv
        · intro h; simp at h
        · intro h; simp at h
      next => simp at hm

/-- Every black-pawn move generated for a pawn on `sq` is well formed. -/
theorem moveWf_of_pawnMovesB {pos : Position} (hok : PosOk pos) {sq : ℕ} {mv : Move}
    (hside : pos.side_to_move = BLACK)
    (hsq : (pos.bb 6).testBit sq = true)
    (hm : mv ∈ pawnMovesB pos sq) : MoveWf pos mv := by
  have hWv : ¬pos.side_to_move = WHITE := by rw [hside]; unfold WHITE BLACK; omega
  simp only [pawnMovesB, List.mem_append] at hm
  rcases hm with (hm | hm) | hm
  · -- pushes
    split at hm
    next hcond =>
      obtain ⟨h8, hemp⟩ := hcond
      have hemp2 : pos.all_occupancy.testBit (sq - 8) = false := by
        cases hx : pos.all_occupancy.testBit (sq - 8)
        · rfl
        · exact absurd hx hemp
      split at hm
      next hr1 =>
        rw [List.mem_map] at hm
        obtain ⟨promo, hpm, hmv⟩ := hm
        have hpr : promo ≤ 11 ∧ 7 ≤ promo := by
          unfold PROMOTION_MAP at hpm
          rw [if_neg (by unfold WHITE BLACK; omega)] at hpm
          simp at hpm
          omega
        subst hmv
        exact moveWf_quiet hok (by omega) (by simp; omega)
          (fun hw => absurd hw hWv) (fun _ => ⟨by omega, by simp; omega⟩)
          hsq hemp2 (by omega) (fun h => by simp at h)
      next =>
        rw [List.mem_cons] at hm
        rcases hm with hmv | hm
        · subst hmv
          exact moveWf_quiet hok (by omega) (by simp)
            (fun hw => absurd hw hWv) (fun _ => ⟨by omega, by simp⟩)
            hsq hemp2 (by omega) (fun h => by simp at h)
        · split at hm
          next hcond2 =>
            obtain ⟨hr6, h16, hemp16⟩ := hcond2
            have hemp16b : pos.all_occupancy.testBit (sq - 16) = false := by
              cases hx : pos.all_occupancy.testBit (sq - 16)
              · rfl
              · exact absurd hx hemp16
            rw [List.mem_singleton] at hm
            subst hm
            refine moveWf_quiet hok (by omega) (by simp)
              (fun hw => absurd hw hWv) (fun _ => ⟨by omega, by simp⟩)
              hsq hemp16b (by omega) ?_
            intro _
            refine ⟨rfl, rfl, rfl, ?_, ?_⟩
            · intro hw; exact absurd hw hWv
            · intro _
              have hr48 : 48 ≤ sq ∧ sq < 56 := by omega
              exact ⟨rfl, by simp; omega, by simp; omega, by simp; omega,
                by simpa using hemp2⟩
          next => simp at hm
    next => simp at hm
  · -- captures
    have hstep : ∀ (dest : ℤ) (acc : List Move), mv ∈ (if 0 ≤ dest ∧ dest < 64 ∧
        ((dest % 8) - (sq % 8 : ℤ)).natAbs = 1 ∧ (_opp_occ pos).testBit dest.toNat = true then
          acc ++ (if sq / 8 = 1 then
            (PROMOTION_MAP BLACK).map (fun promo =>
              { from_sq := sq, to_sq := dest.toNat, piece := 6,
                capture_piece := pos.piece_at dest.toNat, promotion := some promo })
          else
            [{ from_sq := sq, to_sq := dest.toNat, piece := 6,
               capture_piece := pos.piece_at dest.toNat }])
        else acc) → (dest = (sq : ℤ) - 7 ∨ dest = (sq : ℤ) - 9) →
          mv ∈ acc ∨ MoveWf pos mv := by
      intro dest acc hmem hdest
      split at hmem
      next hcond =>
        obtain ⟨h0, h64, hadj, hopp⟩ := hcond
        rw [List.mem_append] at hmem
        rcases hmem with h | h
        · exact Or.inl h
        · refine Or.inr ?_
          have hne : sq ≠ dest.toNat := by
            rcases hdest with hd | hd <;> omega
          split at h
          next hr1 =>
            rw [List.mem_map] at h
            obtain ⟨promo, hpm, hmv⟩ := h
            have hpr : promo ≤ 11 ∧ 7 ≤ promo := by
              unfold PROMOTION_MAP at hpm
              rw [if_neg (by unfold WHITE BLACK; omega)] at hpm
              simp at hpm
              omega
            subst hmv
            exact moveWf_cap hok (by omega) (by simp; omega)
              (fun hw => absurd hw hWv) (fun _ => ⟨by omega, by simp; omega⟩)
              hsq hopp hne
          next =>
            rw [List.mem_singleton] at h
            subst h
            exact moveWf_cap hok (by omega) (by simp)
              (fun hw => absurd hw hWv) (fun _ => ⟨by omega, by simp⟩)
              hsq hopp hne
      next => exact Or.inl hmem
    rw [List.foldl_cons, List.foldl_cons, List.foldl_nil] at hm
    rcases hstep ((sq : ℤ) - 9) _ hm (Or.inr rfl) with h | hwf
    · rcases hstep ((sq : ℤ) - 7) _ h (Or.inl rfl) with h0 | hwf2
      · simp at h0
      · exact hwf2
    · exact hwf
  · -- en passant
    revert hm
    cases hepc : pos.ep_square with
    | none => intro hm; simp at hm
    | some e =>
      intro hm
      dsimp only at hm
      have hok2 := hok
      obtain ⟨-, -, -, -, -, -, -, -, -, hEp, -⟩ := hok2
      unfold EpOk at hEp
      rw [hepc] at hEp
      obtain ⟨hemp, -, hBc⟩ := hEp
      obtain ⟨h16, h24, hpawn⟩ := hBc hside
      split at hm
      next hcond =>
        rw [List.mem_singleton] at hm
        subst hm
        obtain ⟨hor, -⟩ := hcond
        have het : e.toNat < 24 ∧ 16 ≤ e.toNat := by omega
        have hto : e.toNat + 7 = sq ∨ e.toNat + 9 = sq := by
          rcases hor with h | h
          · left; omega
          · right; omega
        refine ⟨by show sq ≠ e.toNat; omega, by show (6:ℕ) < 12; decide, by simp,
          hsq, ?_, ?_, ?_, ?_, ?_, ?_, ?_⟩
        · intro hw; exact absurd hw hWv
        · intro _; exact ⟨by show 6 ≤ (6:ℕ); decide, by simp⟩
        · intro r hr _
          exact all_occ_not_testBit hok hr hemp
        · intro h; simp at h
        · intro _
          refine ⟨rfl, rfl, ?_, ?_⟩
          · intro hw; exact absurd hw hWv
          · intro _
            exact ⟨rfl, rfl, by simpa using het.2, by simpa using het.1, by simpa using hpawn⟩
        · intro h; simp at h
        · intro h; simp at h
      next => simp at hm

/-- Every pseudo-legal move of a well-formed position is bit-level well
formed. -/
theorem moveWf_of_pseudo {pos : Position} (hok : PosOk pos) {mv : Move}
    (hm : mv ∈ generate_pseudo_legal_moves pos) : MoveWf pos mv := by
  have hok2 := hok
  obtain ⟨-, -, -, -, hside, -, -, hk5, hk11, -⟩ := hok2
  simp only [generate_pseudo_legal_moves, List.mem_append] at hm
  rcases hm with ((((((hm | hm) | hm) | hm) | hm) | hm) | hm)
  · -- pawns
    cases hside with
    | inl hw =>
      rw [if_pos hw] at hm
      rw [mem_foldl_append] at hm
      rcases hm with h | ⟨sq, hsq, hmv⟩
      · simp at h
      · rw [mem_bitIndices] at hsq
        exact moveWf_of_pawnMovesW hok hw hsq hmv
    | inr hb =>
      rw [if_neg (by rw [hb]; unfold BLACK WHITE; omega)] at hm
      rw [mem_foldl_append] at hm
      rcases hm with h | ⟨sq, hsq, hmv⟩
      · simp at h
      · rw [mem_bitIndices] at hsq
        exact moveWf_of_pawnMovesB hok hb hsq hmv
  · -- knights
    cases hside with
    | inl hw =>
      simp only [if_pos hw] at hm
      rw [mem_foldl_append] at hm
      rcases hm with h | ⟨sq, hsq, hmv⟩
      · simp at h
      · rw [mem_bitIndices] at hsq
        exact moveWf_of_movesFromMask hok (by omega) (fun _ => by omega)
          (fun hb2 => absurd hb2 (by rw [hw]; unfold BLACK WHITE; omega)) hsq
          (fun dd hdd => testBit_andNot_imp2 hdd) hmv
    | inr hb =>
      have hW : ¬pos.side_to_move = WHITE := by rw [hb]; unfold BLACK WHITE; omega
      simp only [if_neg hW] at hm
      rw [mem_foldl_append] at hm
      rcases hm with h | ⟨sq, hsq, hmv⟩
      · simp at h
      · rw [mem_bitIndices] at hsq
        exact moveWf_of_movesFromMask hok (by omega) (fun hw2 => absurd hw2 hW)
          (fun _ => by omega) hsq (fun dd hdd => testBit_andNot_imp2 hdd) hmv
  · -- bishops
    cases hside with
    | inl hw =>
      simp only [if_pos hw] at hm
      rw [mem_foldl_append] at hm
      rcases hm with h | ⟨sq, hsq, hmv⟩
      · simp at h
      · rw [mem_bitIndices] at hsq
        exact moveWf_of_movesFromMask hok (by omega) (fun _ => by omega)
          (fun hb2 => absurd hb2 (by rw [hw]; unfold BLACK WHITE; omega)) hsq
          (fun dd hdd => testBit_andNot_imp2 hdd) hmv
    | inr hb =>
      have hW : ¬pos.side_to_move = WHITE := by rw [hb]; unfold BLACK WHITE; omega
      simp only [if_neg hW] at hm
      rw [mem_foldl_append] at hm
      rcases hm with h | ⟨sq, hsq, hmv⟩
      · simp at h
      · rw [mem_bitIndices] at hsq
        exact moveWf_of_movesFromMask hok (by omega) (fun hw2 => absurd hw2 hW)
          (fun _ => by omega) hsq (fun dd hdd => testBit_andNot_imp2 hdd) hmv
  · -- rooks
    cases hside with
    | inl hw =>
      simp only [if_pos hw] at hm
      rw [mem_foldl_append] at hm
      rcases hm with h | ⟨sq, hsq, hmv⟩
      · simp at h
      · rw [mem_bitIndices] at hsq
        exact moveWf_of_movesFromMask hok (by omega) (fun _ => by omega)
          (fun hb2 => absurd hb2 (by rw [hw]; unfold BLACK WHITE; omega)) hsq
          (fun dd hdd => testBit_andNot_imp2 hdd) hmv
    | inr hb =>
      have hW : ¬pos.side_to_move = WHITE := by rw [hb]; unfold BLACK WHITE; omega
      simp only [if_neg hW] at hm
      rw [mem_foldl_append] at hm
      rcases hm with h | ⟨sq, hsq, hmv⟩
      · simp at h
      · rw [mem_bitIndices] at hsq
        exact moveWf_of_movesFromMask hok (by omega) (fun hw2 => absurd hw2 hW)
          (fun _ => by omega) hsq (fun dd hdd => testBit_andNot_imp2 hdd) hmv
  · -- queens
    cases hside with
    | inl hw =>
      simp only [if_pos hw] at hm
      rw [mem_foldl_append] at hm
      rcases hm with h | ⟨sq, hsq, hmv⟩
      · simp at h
      · rw [mem_bitIndices] at hsq
        exact moveWf_of_movesFromMask hok (by omega) (fun _ => by omega)
          (fun hb2 => absurd hb2 (by rw [hw]; unfold BLACK WHITE; omega)) hsq
          (fun dd hdd => testBit_andNot_imp2 hdd) hmv
    | inr hb =>
      have hW : ¬pos.side_to_move = WHITE := by rw [hb]; unfold BLACK WHITE; omega
      simp only [if_neg hW] at hm
      rw [mem_foldl_append] at hm
      rcases hm with h | ⟨sq, hsq, hmv⟩
      · simp at h
      · rw [mem_bitIndices] at hsq
        exact moveWf_of_movesFromMask hok (by omega) (fun hw2 => absurd hw2 hW)
          (fun _ => by omega) hsq (fun dd hdd => testBit_andNot_imp2 hdd) hmv
  · -- king
    cases hside with
    | inl hw =>
      simp only [if_pos hw] at hm
      exact moveWf_of_movesFromMask hok (by omega) (fun _ => by omega)
        (fun hb2 => absurd hb2 (by rw [hw]; unfold BLACK WHITE; omega))
        (testBit_topBit hk5) (fun dd hdd => testBit_andNot_imp2 hdd) hm
    | inr hb =>
      have hW : ¬pos.side_to_move = WHITE := by rw [hb]; unfold BLACK WHITE; omega
      simp only [if_neg hW] at hm
      exact moveWf_of_movesFromMask hok (by omega) (fun hw2 => absurd hw2 hW)
        (fun _ => by omega) (testBit_topBit hk11)
        (fun dd hdd => testBit_andNot_imp2 hdd) hm
  · -- castling
    exact moveWf_of_castling hok hm

/-- Legal moves are pseudo-legal, hence well formed. -/
theorem moveWf_of_legal {T : Zobrist} {pos : Position} {mv : Move} (hok : PosOk pos)
    (hm : mv ∈ generate_legal_moves T pos) : MoveWf pos mv :=
  moveWf_of_pseudo hok (List.mem_filter.mp hm).1

/-- C1: for every position satisfying the reachability invariants and every
legal move, `make_move` followed by `undo_move` restores the position
exactly — all twelve piece masks, the three occupancies, side to move,
castling rights, en-passant square, both clocks, the Zobrist hash, the
incremental evaluation accumulators and the undo stack. -/
theorem c1_make_undo_roundtrip (T : Zobrist) (pos : Position) (mv : Move)
    (hok : PosOk pos) (hm : mv ∈ generate_legal_moves T pos) :
    (pos.make_move T mv).undo_move = some pos :=
  make_undo_restore T pos mv hok (moveWf_of_legal hok hm)

/-- The initial chess position, parsed from its FEN. -/
def c1pos : Position :=
  (Position.from_fen T0
    "rnbqkbnr/pppppppp/8/8/8/8/PPPPPPPP/RNBQKBNR w KQkq - 0 1").toOption.getD Position.init

/-- The knight move Nb1-c3. -/
def c1mv : Move := { from_sq := 1, to_sq := 18, piece := 1 }

/-- Witness for C1: the startpos invariants hold, Nb1-c3 is legal, and
make followed by undo restores the startpos record exactly. -/
theorem c1_make_undo_roundtrip_witness :
    PosOk c1pos ∧ c1mv ∈ generate_legal_moves T0 c1pos ∧
    (c1pos.make_move T0 c1mv).undo_move = some c1pos :=
  ⟨by decide, by decide,
    c1_make_undo_roundtrip T0 c1pos c1mv (by decide) (by decide)⟩

/-- XOR of one mask's piece-square keys along its set bits. -/
def boardHash (T : Zobrist) (p bb : ℕ) : ℕ :=
  (bitIndices bb).foldl (fun h sq => h ^^^ T.piece_square p sq) 0

/-- XOR of all twelve masks' piece-square keys, as `Zobrist.compute` builds
it. -/
def pieceHash (T : Zobrist) (bbs : List ℕ) : ℕ :=
  (List.range 12).foldl
    (fun h p => (bitIndices (bbs.getD p 0)).foldl (fun h2 sq => h2 ^^^ T.piece_square p sq) h) 0

/-- XOR of the castling keys whose right bits are set. -/
def crKeys (T : Zobrist) (cr : ℕ) : ℕ :=
  (if cr &&& 1 ≠ 0 then T.castling_keys 0 else 0) ^^^
  (if cr &&& 2 ≠ 0 then T.castling_keys 1 else 0) ^^^
  (if cr &&& 4 ≠ 0 then T.castling_keys 2 else 0) ^^^
  (if cr &&& 8 ≠ 0 then T.castling_keys 3 else 0)

theorem xor_lcomm (a b c : ℕ) : a ^^^ (b ^^^ c) = b ^^^ (a ^^^ c) := by
  rw [← Nat.xor_assoc, Nat.xor_comm a b, Nat.xor_assoc]

theorem fold_xor_shift (f : ℕ → ℕ) :
    ∀ (l : List ℕ) (h : ℕ),
      l.foldl (fun a x => a ^^^ f x) h = h ^^^ l.foldl (fun a x => a ^^^ f x) 0 := by
  intro l
  induction l with
  | nil => intro h; simp
  | cons x xs ih =>
    intro h
    rw [List.foldl_cons, List.foldl_cons, ih (h ^^^ f x), ih (0 ^^^ f x)]
    rw [Nat.zero_xor, Nat.xor_assoc]

theorem perm_foldl_xor (f : ℕ → ℕ) {l1 l2 : List ℕ} (h : l1.Perm l2) (b : ℕ) :
    l1.foldl (fun a x => a ^^^ f x) b = l2.foldl (fun a x => a ^^^ f x) b := by
  refine h.foldl_eq' ?_ b
  intro x _ y _ z
  rw [Nat.xor_assoc, Nat.xor_assoc, Nat.xor_comm (f x)]

theorem bitIndices_clearBit_perm {bb s : ℕ} (h : bb.testBit s = true) :
    (bitIndices (clearBit bb s)).Perm ((bitIndices bb).erase s) := by
  refine (List.perm_ext_iff_of_nodup (bitIndices_nodup _)
    ((bitIndices_nodup bb).erase s)).mpr ?_
  intro a
  rw [mem_bitIndices, testBit_clearBit,
    List.Nodup.mem_erase_iff (bitIndices_nodup bb), mem_bitIndices]
  by_cases ha : s = a
  · subst ha; simp
  · have ha2 : a ≠ s := fun hh => ha hh.symm
    simp [ha, ha2]

theorem bitIndices_setBit_perm {bb s : ℕ} (h : bb.testBit s = false) :
    (bitIndices (setBit bb s)).Perm (s :: bitIndices bb) := by
  refine (List.perm_ext_iff_of_nodup (bitIndices_nodup _) ?_).mpr ?_
  · refine List.Nodup.cons ?_ (bitIndices_nodup bb)
    rw [mem_bitIndices, h]
    simp
  · intro a
    rw [mem_bitIndices, testBit_setBit, List.mem_cons, mem_bitIndices]
    by_cases ha : s = a
    · subst ha; simp
    · have ha2 : a ≠ s := fun hh => ha hh.symm
      simp [ha, ha2]

theorem boardHash_clearBit {T : Zobrist} {p bb s : ℕ} (h : bb.testBit s = true) :
    boardHash T p (clearBit bb s) = boardHash T p bb ^^^ T.piece_square p s := by
  unfold boardHash
  rw [perm_foldl_xor _ (bitIndices_clearBit_perm h) 0]
  have hmem : s ∈ bitIndices bb := (mem_bitIndices bb s).mpr h
  have hperm : (bitIndices bb).Perm (s :: (bitIndices bb).erase s) :=
    List.perm_cons_erase hmem
  rw [perm_foldl_xor (T.piece_square p) hperm 0, List.foldl_cons,
    fold_xor_shift _ _ (0 ^^^ T.piece_square p s)]
  rw [Nat.zero_xor, Nat.xor_comm (T.piece_square p s), Nat.xor_assoc, Nat.xor_self,
    Nat.xor_zero]

theorem boardHash_setBit {T : Zobrist} {p bb s : ℕ} (h : bb.testBit s = false) :
    boardHash T p (setBit bb s) = boardHash T p bb ^^^ T.piece_square p s := by
  unfold boardHash
  rw [perm_foldl_xor _ (bitIndices_setBit_perm h) 0, List.foldl_cons,
    fold_xor_shift _ _ (0 ^^^ T.piece_square p s), Nat.zero_xor,
    Nat.xor_comm (T.piece_square p s)]

theorem pieceHash_eq_fold (T : Zobrist) (bbs : List ℕ) :
    pieceHash T bbs =
      (List.range 12).foldl (fun h p => h ^^^ boardHash T p (bbs.getD p 0)) 0 := by
  unfold pieceHash
  have hgen : ∀ (l : List ℕ) (h0 : ℕ),
      l.foldl (fun h p =>
        (bitIndices (bbs.getD p 0)).foldl (fun h2 sq => h2 ^^^ T.piece_square p sq) h) h0 =
      l.foldl (fun h p => h ^^^ boardHash T p (bbs.getD p 0)) h0 := by
    intro l
    induction l with
    | nil => intro h0; rfl
    | cons x xs ih =>
      intro h0
      rw [List.foldl_cons, List.foldl_cons, fold_xor_shift, ih]
      rfl
  exact hgen (List.range 12) 0

theorem pieceHash_set {T : Zobrist} {bbs : List ℕ} (hlen : bbs.length = 12)
    {p : ℕ} (hp : p < 12) (v : ℕ) :
    pieceHash T (bbs.set p v) =
      pieceHash T bbs ^^^ boardHash T p (bbs.getD p 0) ^^^ boardHash T p v := by
  rw [pieceHash_eq_fold, pieceHash_eq_fold]
  have hgen : ∀ (l : List ℕ), p ∈ l → l.Nodup → ∀ (h0 : ℕ),
      l.foldl (fun h q => h ^^^ boardHash T q ((bbs.set p v).getD q 0)) h0 =
      l.foldl (fun h q => h ^^^ boardHash T q (bbs.getD q 0)) h0 ^^^
        boardHash T p (bbs.getD p 0) ^^^ boardHash T p v := by
    intro l
    induction l with
    | nil => intro hmem; simp at hmem
    | cons x xs ih =>
      intro hmem hnd h0
      rw [List.foldl_cons, List.foldl_cons]
      rcases List.mem_cons.mp hmem with hx | hx
      · subst hx
        have hxs : p ∉ xs := (List.nodup_cons.mp hnd).1
        rw [getD_set_self v (by omega)]
        have hsame : ∀ (ys : List ℕ), (∀ b ∈ ys, b ≠ p) → ∀ (h1 : ℕ),
            ys.foldl (fun h q => h ^^^ boardHash T q ((bbs.set p v).getD q 0)) h1 =
            ys.foldl (fun h q => h ^^^ boardHash T q (bbs.getD q 0)) h1 := by
          intro ys
          induction ys with
          | nil => intro _ h1; rfl
          | cons y ys2 ih2 =>
            intro hne h1
            rw [List.foldl_cons, List.foldl_cons,
              getD_set_ne v (fun he => (hne y (by simp)) he.symm)]
            exact ih2 (fun b hb => hne b (by simp [hb])) _
        rw [hsame xs (fun b hb he => hxs (he ▸ hb))]
        rw [fold_xor_shift _ xs (h0 ^^^ boardHash T p v),
          fold_xor_shift _ xs (h0 ^^^ boardHash T p (bbs.getD p 0))]
        simp [Nat.xor_assoc, Nat.xor_comm, xor_lcomm, Nat.xor_self, Nat.xor_zero,
          Nat.zero_xor, Nat.xor_cancel_left]
      · have hxp : x ≠ p := by
          intro he
          exact (List.nodup_cons.mp hnd).1 (he ▸ hx)
        rw [getD_set_ne v (fun he => hxp he.symm)]
        exact ih hx (List.nodup_cons.mp hnd).2 _
  exact hgen (List.range 12) (List.mem_range.mpr hp) (List.nodup_range 12) 0

theorem pieceHash_two_sets {T : Zobrist} {bbs : List ℕ} (hlen : bbs.length = 12)
    {p q : ℕ} (hp : p < 12) (hq : q < 12) (hpq : p ≠ q) (v w : ℕ) :
    pieceHash T ((bbs.set p v).set q w) =
      pieceHash T bbs ^^^ boardHash T p (bbs.getD p 0) ^^^ boardHash T p v ^^^
        boardHash T q (bbs.getD q 0) ^^^ boardHash T q w := by
  rw [pieceHash_set (by rw [List.length_set]; exact hlen) hq,
    getD_set_ne _ hpq, pieceHash_set hlen hp]

theorem pieceHash_three_sets_pqp {T : Zobrist} {bbs : List ℕ} (hlen : bbs.length = 12)
    {p q : ℕ} (hp : p < 12) (hq : q < 12) (hpq : p ≠ q) (v w u : ℕ) :
    pieceHash T (((bbs.set p v).set q w).set p u) =
      pieceHash T bbs ^^^ boardHash T p (bbs.getD p 0) ^^^
        boardHash T q (bbs.getD q 0) ^^^ boardHash T q w ^^^ boardHash T p u := by
  rw [pieceHash_set (by rw [List.length_set, List.length_set]; exact hlen) hp,
    getD_set_ne _ (fun h => hpq h.symm), getD_set_self _ (by omega),
    pieceHash_two_sets hlen hp hq hpq]
  simp [Nat.xor_assoc, Nat.xor_comm, xor_lcomm, Nat.xor_self, Nat.xor_zero,
    Nat.zero_xor, Nat.xor_cancel_left]

theorem pieceHash_three_sets_distinct {T : Zobrist} {bbs : List ℕ}
    (hlen : bbs.length = 12) {p q r : ℕ} (hp : p < 12) (hq : q < 12) (hr : r < 12)
    (hpq : p ≠ q) (hpr : p ≠ r) (hqr : q ≠ r) (v w u : ℕ) :
    pieceHash T (((bbs.set p v).set q w).set r u) =
      pieceHash T bbs ^^^ boardHash T p (bbs.getD p 0) ^^^ boardHash T p v ^^^
        boardHash T q (bbs.getD q 0) ^^^ boardHash T q w ^^^
        boardHash T r (bbs.getD r 0) ^^^ boardHash T r u := by
  rw [pieceHash_set (by rw [List.length_set, List.length_set]; exact hlen) hr,
    getD_set_ne _ hqr, getD_set_ne _ hpr,
    pieceHash_two_sets hlen hp hq hpq]

/-- The board mutations of `make_move` shift the piece-key XOR by exactly
the toggles the source interleaves with them. -/
theorem pieceHash_applyMove (T : Zobrist) (pos : Position) (mv : Move)
    (hok : PosOk pos) (hwf : MoveWf pos mv) :
    pieceHash T (applyMoveBoards pos.side_to_move pos.bitboards mv) =
      moveZobristToggles T pos.side_to_move (pieceHash T pos.bitboards) mv := by
  obtain ⟨hlen, -, -, -, hside, -, -, -, -, -⟩ := hok
  have hwf2 := hwf
  obtain ⟨hfr, hp, hd, hf, hwside, hbside, hfree, hcapf, hepf, hcastf, -⟩ := hwf2
  unfold applyMoveBoards moveZobristToggles
  by_cases hep : mv.is_en_passant = true
  · obtain ⟨hpr, hcast, hW, hB⟩ := hepf hep
    rw [hep, hcast, hpr]
    simp only [if_true, Bool.false_eq_true, if_false, Option.getD_none]
    cases hside with
    | inl hw =>
      obtain ⟨hp0, -, -, -, hpb⟩ := hW hw
      unfold Position.bb at hpb
      rw [if_pos hw, if_pos hw, hp0]
      have hB0 : (pos.bitboards.getD 0 0).testBit mv.from_sq = true := by
        have h2 := hf; rw [hp0] at h2; exact h2
      have hB0t : (pos.bitboards.getD 0 0).testBit mv.to_sq = false :=
        hfree 0 (by omega) (Or.inl hep)
      rw [getD_set_ne _ (show (0:ℕ) ≠ 6 by omega)]
      rw [getD_set_ne _ (show (6:ℕ) ≠ 0 by omega), getD_set_self _ (by omega)]
      rw [pieceHash_three_sets_pqp hlen (by omega) (by omega) (by omega)]
      rw [boardHash_clearBit hpb,
        boardHash_setBit (by rw [testBit_clearBit, hB0t]; rfl),
        boardHash_clearBit hB0]
      simp [Nat.xor_assoc, Nat.xor_comm, xor_lcomm, Nat.xor_self, Nat.xor_zero,
        Nat.zero_xor, Nat.xor_cancel_left]
    | inr hb =>
      have hW2 : ¬pos.side_to_move = WHITE := by rw [hb]; unfold BLACK WHITE; omega
      obtain ⟨hp6, -, -, -, hpb⟩ := hB hb
      unfold Position.bb at hpb
      rw [if_neg hW2, if_neg hW2, hp6]
      have hB6 : (pos.bitboards.getD 6 0).testBit mv.from_sq = true := by
        have h2 := hf; rw [hp6] at h2; exact h2
      have hB6t : (pos.bitboards.getD 6 0).testBit mv.to_sq = false :=
        hfree 6 (by omega) (Or.inl hep)
      rw [getD_set_ne _ (show (6:ℕ) ≠ 0 by omega)]
      rw [getD_set_ne _ (show (0:ℕ) ≠ 6 by omega), getD_set_self _ (by omega)]
      rw [pieceHash_three_sets_pqp hlen (by omega) (by omega) (by omega)]
      rw [boardHash_clearBit hpb,
        boardHash_setBit (by rw [testBit_clearBit, hB6t]; rfl),
        boardHash_clearBit hB6]
      simp [Nat.xor_assoc, Nat.xor_comm, xor_lcomm, Nat.xor_self, Nat.xor_zero,
        Nat.zero_xor, Nat.xor_cancel_left]
  · have hepF : mv.is_en_passant = false := by
      cases h : mv.is_en_passant
      · rfl
      · exact absurd h hep
    by_cases hcast : mv.is_castling = true
    · obtain ⟨hpr, hcapn, -, hW, hB⟩ := hcastf hcast
      rw [hepF, hcast, hpr, hcapn]
      simp only [Bool.false_eq_true, if_false, if_true, Option.getD_none]
      have hpt : (pos.bb mv.piece).testBit mv.to_sq = false :=
        hfree mv.piece hp (Or.inr (by rw [hcapn]; simp))
      cases hside with
      | inl hw =>
        obtain ⟨hp5, -, hto⟩ := hW hw
        rw [if_pos hw, if_pos hw, hp5]
        have hB5 : (pos.bitboards.getD 5 0).testBit mv.from_sq = true := by
          have h2 := hf; rw [hp5] at h2; exact h2
        have hB5t : (pos.bitboards.getD 5 0).testBit mv.to_sq = false := by
          have h2 := hpt; rw [hp5] at h2; exact h2
        unfold Position.bb at hto
        rcases hto with ⟨h6, hr1, hr2⟩ | ⟨h2c, hr1, hr2⟩
        · rw [if_pos h6, if_pos h6]
          rw [getD_set_self _ (by omega), List.set_set]
          rw [getD_set_ne _ (show (5:ℕ) ≠ 3 by omega)]
          rw [pieceHash_two_sets hlen (by omega) (by omega) (by omega)]
          rw [boardHash_setBit (by rw [testBit_clearBit, hB5t]; rfl)]
          rw [boardHash_clearBit hB5]
          rw [boardHash_setBit (by rw [testBit_clearBit, hr2]; rfl)]
          rw [boardHash_clearBit hr1]
          simp [Nat.xor_assoc, Nat.xor_comm, xor_lcomm, Nat.xor_self, Nat.xor_zero,
            Nat.zero_xor, Nat.xor_cancel_left]
        · rw [if_neg (by omega), if_neg (by omega)]
          rw [getD_set_self _ (by omega), List.set_set]
          rw [getD_set_ne _ (show (5:ℕ) ≠ 3 by omega)]
          rw [pieceHash_two_sets hlen (by omega) (by omega) (by omega)]
          rw [boardHash_setBit (by rw [testBit_clearBit, hB5t]; rfl)]
          rw [boardHash_clearBit hB5]
          rw [boardHash_setBit (by rw [testBit_clearBit, hr2]; rfl)]
          rw [boardHash_clearBit hr1]
          simp [Nat.xor_assoc, Nat.xor_comm, xor_lcomm, Nat.xor_self, Nat.xor_zero,
            Nat.zero_xor, Nat.xor_cancel_left]
      | inr hb =>
        have hW2 : ¬pos.side_to_move = WHITE := by rw [hb]; unfold BLACK WHITE; omega
        obtain ⟨hp11, -, hto⟩ := hB hb
        rw [if_neg hW2, if_neg hW2, hp11]
        have hB11 : (pos.bitboards.getD 11 0).testBit mv.from_sq = true := by
          have h2 := hf; rw [hp11] at h2; exact h2
        have hB11t : (pos.bitboards.getD 11 0).testBit mv.to_sq = false := by
          have h2 := hpt; rw [hp11] at h2; exact h2
        unfold Position.bb at hto
        rcases hto with ⟨h62, hr1, hr2⟩ | ⟨h58, hr1, hr2⟩
        · rw [if_pos h62, if_pos h62]
          rw [getD_set_self _ (by omega), List.set_set]
          rw [getD_set_ne _ (show (11:ℕ) ≠ 9 by omega)]
          rw [pieceHash_two_sets hlen (by omega) (by omega) (by omega)]
          rw [boardHash_setBit (by rw [testBit_clearBit, hB11t]; rfl)]
          rw [boardHash_clearBit hB11]
          rw [boardHash_setBit (by rw [testBit_clearBit, hr2]; rfl)]
          rw [boardHash_clearBit hr1]
          simp [Nat.xor_assoc, Nat.xor_comm, xor_lcomm, Nat.xor_self, Nat.xor_zero,
            Nat.zero_xor, Nat.xor_cancel_left]
        · rw [if_neg (by omega), if_neg (by omega)]
          rw [getD_set_self _ (by omega), List.set_set]
          rw [getD_set_ne _ (show (11:ℕ) ≠ 9 by omega)]
          rw [pieceHash_two_sets hlen (by omega) (by omega) (by omega)]
          rw [boardHash_setBit (by rw [testBit_clearBit, hB11t]; rfl)]
          rw [boardHash_clearBit hB11]
          rw [boardHash_setBit (by rw [testBit_clearBit, hr2]; rfl)]
          rw [boardHash_clearBit hr1]
          simp [Nat.xor_assoc, Nat.xor_comm, xor_lcomm, Nat.xor_self, Nat.xor_zero,
            Nat.zero_xor, Nat.xor_cancel_left]
    · have hcastF : mv.is_castling = false := by
        cases h : mv.is_castling
        · rfl
        · exact absurd h hcast
      rw [hepF, hcastF]
      simp only [Bool.false_eq_true, if_false]
      obtain ⟨hne1, hne2⟩ := capture_ne_some_own hwf hside hepF
      have hpt : (pos.bb mv.piece).testBit mv.to_sq = false :=
        hfree mv.piece hp (Or.inr hne1)
      have hdt : (pos.bb (mv.promotion.getD mv.piece)).testBit mv.to_sq = false :=
        hfree (mv.promotion.getD mv.piece) hd (Or.inr hne2)
      unfold Position.bb at hpt hdt
      unfold Position.bb at hf
      cases hc : mv.capture_piece with
      | none =>
        dsimp only
        by_cases hdp : mv.promotion.getD mv.piece = mv.piece
        · rw [hdp]
          rw [getD_set_self _ (by omega), List.set_set]
          rw [pieceHash_set hlen hp]
          rw [boardHash_setBit (by rw [testBit_clearBit]; rw [hdp] at hdt; rw [hdt]; rfl)]
          rw [boardHash_clearBit hf]
          simp [Nat.xor_assoc, Nat.xor_comm, xor_lcomm, Nat.xor_self, Nat.xor_zero,
            Nat.zero_xor, Nat.xor_cancel_left]
        · rw [getD_set_ne _ (fun h => hdp h.symm)]
          rw [pieceHash_two_sets hlen hp hd (fun h => hdp h.symm)]
          rw [boardHash_clearBit hf, boardHash_setBit hdt]
          simp [Nat.xor_assoc, Nat.xor_comm, xor_lcomm, Nat.xor_self, Nat.xor_zero,
            Nat.zero_xor, Nat.xor_cancel_left]
      | some c =>
        obtain ⟨hc12, hcp, hcd, hct⟩ := capture_ne_own hwf hside hepF c hc
        unfold Position.bb at hct
        dsimp only
        by_cases hdp : mv.promotion.getD mv.piece = mv.piece
        · rw [hdp]
          rw [getD_set_ne _ (fun h => hcp h.symm)]
          rw [getD_set_ne _ hcp, getD_set_self _ (by omega)]
          rw [pieceHash_three_sets_pqp hlen hp hc12 (fun h => hcp h.symm)]
          rw [boardHash_clearBit hct,
            boardHash_setBit (by rw [testBit_clearBit]; rw [hdp] at hdt; rw [hdt]; rfl),
            boardHash_clearBit hf]
          simp [Nat.xor_assoc, Nat.xor_comm, xor_lcomm, Nat.xor_self, Nat.xor_zero,
            Nat.zero_xor, Nat.xor_cancel_left]
        · rw [getD_set_ne _ (fun h => hcp h.symm)]
          rw [getD_set_ne _ hcd, getD_set_ne _ (fun h => hdp h.symm)]
          rw [pieceHash_three_sets_distinct hlen hp hc12 hd (fun h => hcp h.symm)
            (fun h => hdp h.symm) hcd]
          rw [boardHash_clearBit hf, boardHash_clearBit hct, boardHash_setBit hdt]
          simp [Nat.xor_assoc, Nat.xor_comm, xor_lcomm, Nat.xor_self, Nat.xor_zero,
            Nat.zero_xor, Nat.xor_cancel_left]

/-- The FEN `4k3/8/8/6P1/8/8/8/4K3 w - h6 0 1`: white pawn g5, kings
e1/e8, and an en-passant square h6 although no black pawn just
double-pushed (`from_fen` never checks this). -/
def c3pos : Position :=
  (Position.from_fen T0 "4k3/8/8/6P1/8/8/8/4K3 w - h6 0 1").toOption.getD Position.init

/-- The en-passant capture g5xh6 generated for `c3pos`. -/
def c3mv : Move :=
  { from_sq := 38, to_sq := 47, piece := 0, capture_piece := some 6,
    is_en_passant := true }

def c3pos2 : Position := c3pos.make_move T0 c3mv

/-- C3: the incremental-zobrist invariant breaks after one legal move from
a `from_fen` position.  `c3pos` parses with hash equal to a fresh
`Zobrist.compute`, and the en-passant capture g5xh6 is in its legal move
list; but `make_move` XORs out the piece-square key of a black pawn on h5
that is not on the board (the bitboard clear `&= ~bit(39)` is a no-op
while the hash update fires unconditionally), so the maintained `zobrist`
of the resulting position differs from a full recomputation. -/
theorem c3_zobrist_bug :
    c3pos.zobrist = T0.compute c3pos ∧
    c3mv ∈ generate_legal_moves T0 c3pos ∧
    c3pos2.zobrist ≠ T0.compute c3pos2 := by decide

end ZetaChess
